import Mathlib

/-! Distributed log file analyzer: protocol, transfer and aggregation.

A shallow embedding of the C++ sources `common/protocol.cpp`,
`common/log_parser.cpp` (format detection and the text parser),
`server/analyzer.cpp`, `server/server.cpp` and `client/client.cpp`, followed by
theorems about the embedded functions.

Conventions of the embedding.

* A `std::string` is a `List Char`, one `Char` per `char` of the string; the
  order on `Char` is the order of the code points, which on the byte values
  0..255 is the unsigned byte order used by `std::char_traits<char>`.
* A socket is a record of the bytes still to be read, the bytes written so far,
  and two plans that fix the return value of each coming `recv` and `send`
  call, so that short reads, short writes and failures can all be expressed.
* Loops are written with a fuel argument that the callers set to a bound on the
  number of iterations (each iteration moves at least one byte).
* `int` counters are unbounded integers: signed overflow is undefined in C++
  and is not modelled.
* Files are kept by the place their path denotes. A path is resolved name by
  name as POSIX does, with `/` as the only separator, no symbolic links, and
  every directory on the way present; `remove_all` is taken to meet no error.
* The exceptions modelled are those of `std::stoul`, `std::stoi`,
  `std::string::reserve`, `fs::create_directory` and `fs::directory_iterator`;
  running out of memory is not modelled.
-/

namespace LogFileAnalyzer

/-- A `std::string`. -/
abbrev Str := List Char

/-! ## Constants of `common/protocol.h` -/

def DEFAULT_PORT : Nat := 8080
def BUFFER_SIZE : Nat := 4096

def MSG_REQUEST : Char := 'R'
def MSG_FILE_START : Char := 'F'
def MSG_FILE_CHUNK : Char := 'C'
def MSG_FILE_END : Char := 'E'
def MSG_RESULT : Char := 'S'
def MSG_ERROR : Char := 'X'
def MSG_ACK : Char := 'A'

inductive AnalysisType
  | USER
  | IP
  | LOG_LEVEL
  deriving DecidableEq, Repr

structure LogEntry where
  timestamp : Str
  user : Str
  ip : Str
  level : Str
  message : Str
  deriving DecidableEq, Repr

structure AnalysisRequest where
  type : AnalysisType
  startDate : Option Str
  endDate : Option Str
  deriving DecidableEq, Repr

/-- A `std::unordered_map<std::string, int>`, kept as an association list
whose order stands for the iteration order of the map.  The operations below
keep the keys distinct. -/
abbrev CountMap := List (Str × Int)

structure AnalysisResult where
  type : AnalysisType
  counts : CountMap
  totalEntries : Int
  deriving DecidableEq, Repr

/-! ## C++ exceptions and results -/

/-- The standard exceptions the embedded code can raise. -/
inductive Exn
  | invalidArgument
  | outOfRange
  | lengthError
  | filesystemError
  deriving DecidableEq, Repr

/-- Result of a call that either returns a value or lets an exception escape. -/
inductive Outcome (α : Type)
  | ret (a : α)
  | threw (e : Exn)
  deriving DecidableEq, Repr

/-! ## Number conversions of the standard library -/

/-- The C `isspace` in the "C" locale. -/
def isSpace (c : Char) : Bool :=
  c == ' ' || c == '\t' || c == '\n' || c == '\x0b' || c == '\x0c' || c == '\r'

/-- Value of a character as a digit, for bases up to 16 (either letter case). -/
def digitVal (c : Char) : Option Nat :=
  if '0' ≤ c ∧ c ≤ '9' then some (c.toNat - 48)
  else if 'a' ≤ c ∧ c ≤ 'f' then some (c.toNat - 87)
  else if 'A' ≤ c ∧ c ≤ 'F' then some (c.toNat - 55)
  else none

/-- Digit of `c` in base `base`, if it is one. -/
def digitIn (base : Nat) (c : Char) : Option Nat :=
  match digitVal c with
  | some d => if d < base then some d else none
  | none => none

/-- The digit loop of `strtoul`: reads the longest run of digits of `s`,
starting from the accumulated value `acc`; `any` records whether a digit was
read. -/
def scanDigits (base : Nat) : Str → Nat → Bool → Nat × Bool
  | [], acc, any => (acc, any)
  | c :: cs, acc, any =>
    match digitIn base c with
    | some d => scanDigits base cs (acc * base + d) true
    | none => (acc, any)

/-- Leading white space is skipped by the `strto*` family. -/
def skipSpaces : Str → Str
  | [] => []
  | c :: cs => if isSpace c then skipSpaces cs else c :: cs

/-- An optional sign: the flag is true for a minus sign. -/
def takeSign : Str → Bool × Str
  | '-' :: cs => (true, cs)
  | '+' :: cs => (false, cs)
  | cs => (false, cs)

/-- In base 16 an optional `0x` or `0X` is skipped when a hexadecimal digit
follows it. -/
def skipHexPrefix (base : Nat) : Str → Str
  | '0' :: x :: c :: cs =>
    if base = 16 ∧ (x = 'x' ∨ x = 'X') ∧ (digitIn 16 c).isSome then c :: cs
    else '0' :: x :: c :: cs
  | cs => cs

/-- Magnitude and sign read by the `strto*` family, `none` when no digit is
found. -/
def scanNumber (base : Nat) (s : Str) : Option (Bool × Nat) :=
  let (neg, s1) := takeSign (skipSpaces s)
  let (v, any) := scanDigits base (skipHexPrefix base s1) 0 false
  if any then some (neg, v) else none

/-- The function `std::stoul(str, nullptr, base)` for a 64-bit `unsigned long`:
a negative input is negated modulo `2^64`. -/
def stoul (s : Str) (base : Nat) : Outcome Nat :=
  match scanNumber base s with
  | none => .threw .invalidArgument
  | some (neg, v) =>
    if 2 ^ 64 ≤ v then .threw .outOfRange
    else .ret (if neg then (2 ^ 64 - v) % 2 ^ 64 else v)

/-- The function `std::stoull(str)`, base 10. -/
def stoull (s : Str) : Outcome Nat := stoul s 10

/-- The function `std::stoi(str)`, base 10, for a 32-bit `int`. -/
def stoi (s : Str) : Outcome Int :=
  match scanNumber 10 s with
  | none => .threw .invalidArgument
  | some (neg, v) =>
    let i : Int := if neg then - (v : Int) else (v : Int)
    if i < - 2 ^ 31 ∨ 2 ^ 31 ≤ i then .threw .outOfRange else .ret i

/-- Output of `ss << std::setw(8) << std::setfill('0') << std::hex << n`:
the lower-case hexadecimal digits of `n`, padded on the left with `'0'` to
eight characters when there are fewer. -/
def hexWidth8 (n : Nat) : Str :=
  let d := Nat.toDigits 16 n
  List.replicate (8 - d.length) '0' ++ d

/-- Output of `ss << n` for an unsigned value. -/
def showNat (n : Nat) : Str := Nat.toDigits 10 n

/-- Output of `ss << i` for an `int`. -/
def showInt (i : Int) : Str :=
  if i < 0 then '-' :: Nat.toDigits 10 i.natAbs else Nat.toDigits 10 i.natAbs

/-! ## Sockets -/

/-- Calls of the two framing functions and of `close`, in the order they
happen. No embedded function reads the log; it exists so that orderings can be
stated. -/
inductive Event
  | received (type : Char) (message : Str)
  | recvFailed
  | sent (type : Char) (message : Str) (ok : Bool)
  | closed
  deriving DecidableEq, Repr

/-- One end of a TCP connection.

* `incoming`: the bytes the peer wrote that this end has not read yet; once
  they are used up the peer has closed the connection and `recv` returns 0.
* `recvPlan`: the return values of the coming `recv` calls: a value `r > 0`
  delivers at most `r` bytes, a value `r ≤ 0` is a failed call; when the plan
  is used up every call delivers all the bytes asked for that are there.
* `outgoing`: the bytes written so far.
* `sendPlan`: the same for `send`.
* `log`: the calls of `sendMessage` and `receiveMessage` so far. -/
structure Socket where
  incoming : Str
  recvPlan : List Int
  outgoing : Str
  sendPlan : List Int
  log : List Event
  deriving DecidableEq, Repr

/-- The call `recv(socket, buf, len, 0)`: the return value, the bytes stored
in `buf`, and the socket afterwards. -/
def recv (s : Socket) (len : Nat) : Int × Str × Socket :=
  match s.recvPlan with
  | [] =>
    let n := min len s.incoming.length
    ((n : Int), s.incoming.take n, { s with incoming := s.incoming.drop n })
  | r :: plan =>
    if r ≤ 0 then (r, [], { s with recvPlan := plan })
    else
      let n := min (min r.toNat len) s.incoming.length
      ((n : Int), s.incoming.take n,
        { s with incoming := s.incoming.drop n, recvPlan := plan })

/-- The call `send(socket, buf, len, 0)` with `buf` holding `len` bytes: the
return value and the socket afterwards. -/
def send (s : Socket) (buf : Str) : Int × Socket :=
  match s.sendPlan with
  | [] => ((buf.length : Int), { s with outgoing := s.outgoing ++ buf })
  | r :: plan =>
    if r ≤ 0 then (r, { s with sendPlan := plan })
    else
      let n := min r.toNat buf.length
      ((n : Int), { s with outgoing := s.outgoing ++ buf.take n, sendPlan := plan })

/-- Appends an event to the log of a socket. -/
def Socket.record (s : Socket) (e : Event) : Socket :=
  { s with log := s.log ++ [e] }

/-! ## Framing: `sendMessage` and `receiveMessage` -/

/-- The payload loop of `sendMessage`; `rest` is the part of the message from
`totalSent` on. -/
def sendBody : Nat → Socket → Str → Bool × Socket
  | 0, s, rest => (rest.isEmpty, s)
  | fuel + 1, s, rest =>
    if rest.isEmpty then (true, s)
    else
      let chunk := rest.take (min rest.length BUFFER_SIZE)
      let (sent, s1) := send s chunk
      if sent ≤ 0 then (false, s1)
      else sendBody fuel s1 (rest.drop sent.toNat)

/-- The function `sendMessage(socket, type, message)` of `protocol.cpp`. -/
def sendMessage (s : Socket) (type : Char) (message : Str) : Bool × Socket :=
  let header := type :: hexWidth8 message.length
  let (sent, s1) := send s (header.take 9)
  if sent ≠ 9 then (false, s1.record (.sent type message false))
  else
    let (ok, s2) :=
      if !message.isEmpty then sendBody message.length s1 message else (true, s1)
    (ok, s2.record (.sent type message ok))

/-- The header loop of `receiveMessage`; `header` holds the `totalReceived`
bytes read so far. -/
def recvHeader : Nat → Socket → Str → Option Str × Socket
  | 0, s, header => (if header.length < 9 then none else some header, s)
  | fuel + 1, s, header =>
    if header.length < 9 then
      let (received, buf, s1) := recv s (9 - header.length)
      if received ≤ 0 then (none, s1)
      else recvHeader fuel s1 (header ++ buf)
    else (some header, s)

/-- The payload loop of `receiveMessage`; `message` holds the
`totalReceived` bytes read so far and `length` is the stated length. -/
def recvBody : Nat → Socket → Nat → Str → Option Str × Socket
  | 0, s, length, message => (if message.length < length then none else some message, s)
  | fuel + 1, s, length, message =>
    if message.length < length then
      let remaining := length - message.length
      let chunkSize := min remaining (BUFFER_SIZE - 1)
      let (received, buf, s1) := recv s chunkSize
      if received ≤ 0 then (none, s1)
      else recvBody fuel s1 length (message ++ buf)
    else (some message, s)

/-- Largest size a `std::string` accepts in `reserve`; a larger request raises
`std::length_error`. -/
def STRING_MAX_SIZE : Nat := 2 ^ 62 - 1

/-- The function `receiveMessage(socket, type, message)` of `protocol.cpp`:
`ret (some (type, message))` when it returns true, `ret none` when it returns
false, `threw` when `std::stoul` or `reserve` raises. -/
def receiveMessage (s : Socket) : Outcome (Option (Char × Str)) × Socket :=
  match recvHeader 9 s [] with
  | (none, s1) => (.ret none, s1.record .recvFailed)
  | (some header, s1) =>
    let type := header.headD '\x00'
    let lengthStr := (header.drop 1).take 8
    match stoul lengthStr 16 with
    | .threw e => (.threw e, s1.record .recvFailed)
    | .ret length =>
      if STRING_MAX_SIZE < length then (.threw .lengthError, s1.record .recvFailed)
      else
        match recvBody length s1 length [] with
        | (none, s2) => (.ret none, s2.record .recvFailed)
        | (some message, s2) => (.ret (some (type, message)), s2.record (.received type message))

/-- Every planned call transfers at least one byte. -/
def PlanPositive (plan : List Int) : Prop := ∀ r ∈ plan, 0 < r

instance (plan : List Int) : Decidable (PlanPositive plan) := by
  unfold PlanPositive; infer_instance

/-- A socket on which nothing has happened yet, with the given bytes to read
and the given plans. -/
def Socket.fresh (incoming : Str) (recvPlan sendPlan : List Int) : Socket :=
  { incoming := incoming, recvPlan := recvPlan, outgoing := [], sendPlan := sendPlan, log := [] }

/-- The bytes `sendMessage(type, message)` writes on a connection that takes
every byte offered. -/
def wire (type : Char) (message : Str) : Str :=
  (sendMessage (Socket.fresh [] [] []) type message).2.outgoing

/-! ## Strings of `common/protocol.cpp` -/

/-- The comparison `std::char_traits<char>::compare` over the common length of
two strings (the first differing character decides). -/
def traitsCompare : Str → Str → Int
  | a :: as, b :: bs => if a < b then -1 else if b < a then 1 else traitsCompare as bs
  | _, _ => 0

/-- The member `std::string::compare`: the common prefix first, then the
lengths. -/
def strCompare (a b : Str) : Int :=
  let r := traitsCompare a b
  if r ≠ 0 then r else (a.length : Int) - (b.length : Int)

/-- The operator `a < b` on `std::string`. -/
def strLt (a b : Str) : Bool := decide (strCompare a b < 0)

/-- The operator `a > b` on `std::string`. -/
def strGt (a b : Str) : Bool := decide (0 < strCompare a b)

def analysisTypeToString (type : AnalysisType) : Str :=
  match type with
  | .USER => "USER".toList
  | .IP => "IP".toList
  | .LOG_LEVEL => "LOG_LEVEL".toList

def stringToAnalysisType (typeStr : Str) : AnalysisType :=
  if typeStr = "USER".toList then .USER
  else if typeStr = "IP".toList then .IP
  else if typeStr = "LOG_LEVEL".toList then .LOG_LEVEL
  else .USER

/-- The function `isDateInRange(date, startDate, endDate)`. -/
def isDateInRange (date : Str) (startDate endDate : Option Str) : Bool :=
  if startDate.isNone && endDate.isNone then true
  else if (match startDate with | some start => strLt date start | none => false) then false
  else if (match endDate with | some stop => strGt date stop | none => false) then false
  else true

/-- A `std::stringstream` being read: the characters not yet extracted and
whether the stream is still `good()` (neither `eofbit` nor `failbit` set). -/
structure IStream where
  rest : Str
  good : Bool
  deriving DecidableEq, Repr

/-- Splits at the first delimiter: the characters before it and, when there is
one, the characters after it. -/
def splitDelim (delim : Char) : Str → Str × Option Str
  | [] => ([], none)
  | c :: cs =>
    if c = delim then ([], some cs)
    else
      let (tok, rest) := splitDelim delim cs
      (c :: tok, rest)

/-- The call `std::getline(ss, str, delim)`: the new value of `str` and the
stream afterwards. A stream that is not good leaves `str` as it was; otherwise
`str` is replaced by the characters up to the delimiter, which is consumed, or
up to the end of the data, which ends the good state. -/
def getline (ss : IStream) (str : Str) (delim : Char) : Str × IStream :=
  if !ss.good then (str, ss)
  else
    match splitDelim delim ss.rest with
    | (tok, some rest) => (tok, { rest := rest, good := true })
    | (tok, none) => (tok, { rest := [], good := false })

def serializeRequest (request : AnalysisRequest) : Str :=
  analysisTypeToString request.type ++ "|".toList
    ++ (match request.startDate with | some d => d | none => "NONE".toList) ++ "|".toList
    ++ (match request.endDate with | some d => d | none => "NONE".toList)

def deserializeRequest (data : Str) : AnalysisRequest :=
  let ss : IStream := { rest := data, good := true }
  let (typeStr, ss) := getline ss [] '|'
  let (startDate, ss) := getline ss [] '|'
  let (endDate, _) := getline ss [] '|'
  { type := stringToAnalysisType typeStr,
    startDate := if startDate ≠ "NONE".toList then some startDate else none,
    endDate := if endDate ≠ "NONE".toList then some endDate else none }

/-! ## Count maps -/

/-- Lookup of a key (`find`). -/
def CountMap.get? : CountMap → Str → Option Int
  | [], _ => none
  | (k, v) :: rest, key => if k = key then some v else CountMap.get? rest key

/-- The statement `m[key] += delta`: `operator[]` inserts a zero for a key
that is not there yet. -/
def CountMap.add : CountMap → Str → Int → CountMap
  | [], key, delta => [(key, 0 + delta)]
  | (k, v) :: rest, key, delta =>
    if k = key then (k, v + delta) :: rest else (k, v) :: CountMap.add rest key delta

/-- The statement `m[key] = value`. -/
def CountMap.set : CountMap → Str → Int → CountMap
  | [], key, value => [(key, value)]
  | (k, v) :: rest, key, value =>
    if k = key then (k, value) :: rest else (k, v) :: CountMap.set rest key value

/-- The keys of a map, in iteration order. -/
def CountMap.keys (m : CountMap) : List Str := m.map Prod.fst

/-- Sum of all the values of a map. -/
def CountMap.total (m : CountMap) : Int := (m.map Prod.snd).sum

/-- The merge loop of `analyze`:
`for (pair : fileCounts) result_.counts[pair.first] += pair.second`. -/
def mergeCounts (counts fileCounts : CountMap) : CountMap :=
  fileCounts.foldl (fun acc pair => acc.add pair.1 pair.2) counts

def serializeResult (result : AnalysisResult) : Str :=
  analysisTypeToString result.type ++ "|".toList ++ showInt result.totalEntries ++ "|".toList
    ++ showNat result.counts.length
    ++ result.counts.flatMap (fun pair => "|".toList ++ pair.1 ++ "|".toList ++ showInt pair.2)

/-- The loop of `deserializeResult` that reads `countSize` pairs. -/
def readCounts : Nat → IStream → AnalysisResult → Outcome AnalysisResult
  | 0, _, result => .ret result
  | n + 1, ss, result =>
    let (key, ss) := getline ss [] '|'
    let (valueStr, ss) := getline ss [] '|'
    match stoi valueStr with
    | .threw e => .threw e
    | .ret value => readCounts n ss { result with counts := result.counts.set key value }

def deserializeResult (data : Str) : Outcome AnalysisResult :=
  let ss : IStream := { rest := data, good := true }
  let (typeStr, ss) := getline ss [] '|'
  let type := stringToAnalysisType typeStr
  let (token, ss) := getline ss [] '|'
  match stoi token with
  | .threw e => .threw e
  | .ret totalEntries =>
    let (token, ss) := getline ss token '|'
    match stoull token with
    | .threw e => .threw e
    | .ret countSize =>
      readCounts countSize ss { type := type, counts := [], totalEntries := totalEntries }

/-! ## Files -/

/-- A place in the directory tree: `absolute` tells whether the way to it
starts at the root or at the working directory, `parts` are the names on the
way down. A place above the working directory starts with `..` entries. -/
structure Location where
  absolute : Bool
  parts : List Str
  deriving DecidableEq, Repr

/-- The names between the separators `/` of a path. -/
def splitPath : Str → List Str
  | [] => [[]]
  | c :: cs =>
    if c = '/' then [] :: splitPath cs
    else
      match splitPath cs with
      | [] => [[c]]
      | name :: names => (c :: name) :: names

/-- One step of the walk along a path; `stack` holds the names walked so far,
the last one first. An empty name and `.` stay in place; `..` leaves the last
directory entered, stays at the root of an absolute path, and climbs above the
working directory of a relative one. -/
def walkStep (absolute : Bool) (stack : List Str) (name : Str) : List Str :=
  if name = [] ∨ name = ".".toList then stack
  else if name = "..".toList then
    match stack with
    | [] => if absolute then [] else ["..".toList]
    | top :: below => if top = "..".toList then name :: top :: below else below
  else name :: stack

/-- The place a path denotes for the operating system (POSIX pathname
resolution), when the directories on the way exist and none of them is a
symbolic link. -/
def resolve (path : Str) : Location :=
  let absolute := decide (path.head? = some '/')
  { absolute := absolute, parts := ((splitPath path).foldl (walkStep absolute) []).reverse }

/-- Whether the place `loc` lies inside the directory `dir`, at any depth. -/
def Location.inside (loc dir : Location) : Bool :=
  decide (loc.absolute = dir.absolute) && decide (dir.parts <+: loc.parts) &&
    decide (dir.parts.length < loc.parts.length) &&
    !(loc.parts.drop dir.parts.length).contains "..".toList

/-- The name of `loc` when it lies directly in the directory `dir`. -/
def Location.childName (dir loc : Location) : Option Str :=
  match loc.parts.getLast? with
  | none => none
  | some name =>
    if loc.absolute = dir.absolute ∧ loc.parts = dir.parts ++ [name] ∧ name ≠ "..".toList
    then some name else none

/-- The files a process sees: the regular files by place with their content,
the directories, whether a path can be opened for writing (`std::ofstream`),
and whether the system lets a directory be made at a path where nothing is
yet (`mkdir`). -/
structure FileSystem where
  files : List (Location × Str)
  dirs : List Location
  canCreate : Str → Bool
  canMakeDir : Str → Bool

/-- Content of the regular file at `path`, if `std::ifstream` can open it. -/
def FileSystem.read (fs : FileSystem) : Str → Option Str :=
  fun path => (fs.files.find? (fun f => f.1 = resolve path)).map Prod.snd

/-- Replaces the content stored for a place, adding the file when missing. -/
def putFile : List (Location × Str) → Location → Str → List (Location × Str)
  | [], loc, content => [(loc, content)]
  | (p, c) :: rest, loc, content =>
    if p = loc then (p, content) :: rest else (p, c) :: putFile rest loc content

/-- The files after the regular file at `path` has got the content `content`. -/
def FileSystem.written (fs : FileSystem) (path : Str) (content : Str) : FileSystem :=
  { fs with files := putFile fs.files (resolve path) content }

/-- Opening `std::ofstream file(path, std::ios::binary)`: the file is created
or truncated; `none` when the stream cannot be opened. -/
def FileSystem.create (fs : FileSystem) (path : Str) : Option FileSystem :=
  if fs.canCreate path then some (fs.written path []) else none

/-- The call `file.write(data, size)` on the stream opened for `path`. -/
def FileSystem.append (fs : FileSystem) (path : Str) (data : Str) : FileSystem :=
  fs.written path ((fs.read path).getD [] ++ data)

/-- The call `fs::is_regular_file(path)`. -/
def FileSystem.isRegularFile (fs : FileSystem) (path : Str) : Bool := (fs.read path).isSome

/-- The call `fs::is_directory(path)`. -/
def FileSystem.isDirectory (fs : FileSystem) (path : Str) : Bool :=
  decide (resolve path ∈ fs.dirs)

/-- The call `fs::exists(path)`. -/
def FileSystem.pathExists (fs : FileSystem) (path : Str) : Bool :=
  fs.isRegularFile path || fs.isDirectory path

/-- The call `fs::create_directory(path)`: a directory that is there already
is left alone and no error is reported; a path at which a regular file is, or
at which the system refuses to make a directory, raises `filesystem_error`;
otherwise the directory is added. -/
def FileSystem.createDirectory (fs : FileSystem) (path : Str) : Outcome FileSystem :=
  if fs.isDirectory path then .ret fs
  else if fs.isRegularFile path || !fs.canMakeDir path then .threw .filesystemError
  else .ret { fs with dirs := fs.dirs ++ [resolve path] }

/-- The call `fs::remove_all(path)` when it meets no error: the place and all
that lies inside it are gone. -/
def FileSystem.removeAll (fs : FileSystem) (path : Str) : FileSystem :=
  { fs with
    files := fs.files.filter
      (fun f => !(decide (f.1 = resolve path) || f.1.inside (resolve path))),
    dirs := fs.dirs.filter (fun d => !(decide (d = resolve path) || d.inside (resolve path))) }

/-- The paths `entry.path().string()` that `fs::directory_iterator(path)`
yields: one per file or directory lying directly in the directory, written as
`path/name`; `none` stands for the `filesystem_error` raised when `path` is
not a directory. The order of the entries is unspecified in C++; here it is
the order of storage. -/
def FileSystem.listDirectory (fs : FileSystem) (path : Str) : Option (List Str) :=
  if fs.isDirectory path then
    some (((fs.files.map Prod.fst ++ fs.dirs).filterMap
      (Location.childName (resolve path))).map (fun name => path ++ "/".toList ++ name))
  else none

/-- The log-record adapter `LogParser::createParser(filename)->parse(content)`,
taken as given: `none` stands for a raised exception. -/
abbrev Parser := Str → Str → Option (List LogEntry)

/-! ## `server/analyzer.cpp` -/

/-- The data members of `LogAnalyzer` that the analysis reads and writes. -/
structure LogAnalyzer where
  request_ : AnalysisRequest
  result_ : AnalysisResult

/-- The constructor `LogAnalyzer(request)`. -/
def LogAnalyzer.new (request : AnalysisRequest) : LogAnalyzer :=
  { request_ := request, result_ := { type := request.type, counts := [], totalEntries := 0 } }

def LogAnalyzer.getKeyForEntry (a : LogAnalyzer) (entry : LogEntry) : Str :=
  match a.request_.type with
  | .USER => entry.user
  | .IP => entry.ip
  | .LOG_LEVEL => entry.level

/-- The counting loop of `analyzeFile` over the parsed entries: the file-local
`counts` and `entriesProcessed`. -/
def LogAnalyzer.countEntries (a : LogAnalyzer) : List LogEntry → CountMap × Int → CountMap × Int
  | [], acc => acc
  | entry :: entries, (counts, entriesProcessed) =>
    if isDateInRange entry.timestamp a.request_.startDate a.request_.endDate then
      a.countEntries entries (counts.add (a.getKeyForEntry entry) 1, entriesProcessed + 1)
    else a.countEntries entries (counts, entriesProcessed)

/-- The method `LogAnalyzer::analyzeFile(filename)`: the file-local tally it
returns and the analyzer afterwards. -/
def LogAnalyzer.analyzeFile (parse : Parser) (fs : FileSystem) (a : LogAnalyzer)
    (filename : Str) : CountMap × LogAnalyzer :=
  match fs.read filename with
  | none => ([], a)
  | some content =>
    match parse filename content with
    | none => ([], a)
    | some entries =>
      let (counts, entriesProcessed) := a.countEntries entries ([], 0)
      (counts, { a with result_ :=
        { a.result_ with totalEntries := a.result_.totalEntries + entriesProcessed } })

/-- The tasks queued by `analyze`, run one after the other in the order they
were queued: the results held by the futures and the analyzer afterwards. The
worker threads may run them in any order and at the same time; a task builds a
file-local map and touches the shared state only to add its own number to
`totalEntries` under `resultMutex_`, so every schedule ends in this state. -/
def LogAnalyzer.runTasks (parse : Parser) (fs : FileSystem) :
    LogAnalyzer → List Str → List CountMap × LogAnalyzer
  | a, [] => ([], a)
  | a, filename :: logFiles =>
    let (fileCounts, a1) := a.analyzeFile parse fs filename
    let (futures, a2) := LogAnalyzer.runTasks parse fs a1 logFiles
    (fileCounts :: futures, a2)

/-- The method `LogAnalyzer::analyze(logFiles)`: the returned copy of
`result_` and the analyzer afterwards. -/
def LogAnalyzer.analyze (parse : Parser) (fs : FileSystem) (a : LogAnalyzer)
    (logFiles : List Str) : AnalysisResult × LogAnalyzer :=
  let (futures, a1) := a.runTasks parse fs logFiles
  let a2 := futures.foldl (fun (acc : LogAnalyzer) fileCounts =>
    { acc with result_ :=
      { acc.result_ with counts := mergeCounts acc.result_.counts fileCounts } }) a1
  (a2.result_, a2)

/-! ## Reference definitions for the aggregation -/

/-- The records the adapter yields for a file; a file that cannot be opened
or parsed has none. -/
def recordsOf (parse : Parser) (fs : FileSystem) (filename : Str) : List LogEntry :=
  match fs.read filename with
  | none => []
  | some content => (parse filename content).getD []

/-- The field of a record that a dimension counts by. -/
def dimensionField (type : AnalysisType) (entry : LogEntry) : Str :=
  match type with
  | .USER => entry.user
  | .IP => entry.ip
  | .LOG_LEVEL => entry.level

/-- The records of all the files, in order, that pass the date filter. -/
def countedRecords (parse : Parser) (fs : FileSystem) (request : AnalysisRequest)
    (logFiles : List Str) : List LogEntry :=
  (logFiles.flatMap (recordsOf parse fs)).filter
    (fun e => isDateInRange e.timestamp request.startDate request.endDate)

/-- Number of counted records whose dimension field is `k`. -/
def referenceCount (parse : Parser) (fs : FileSystem) (request : AnalysisRequest)
    (logFiles : List Str) (k : Str) : Nat :=
  (countedRecords parse fs request logFiles).countP
    (fun e => decide (dimensionField request.type e = k))

/-- Per-key addition of two optional counts: a key absent on one side keeps
the count of the other side, a key absent on both sides stays absent. -/
def addCounts : Option Int → Option Int → Option Int
  | none, none => none
  | some x, none => some x
  | none, some y => some y
  | some x, some y => some (x + y)

/-- The map `m` holds exactly the non-zero counts of `f`. -/
def Tallies (m : CountMap) (f : Str → Nat) : Prop :=
  ∀ k, m.get? k = if f k = 0 then none else some (f k : Int)

/-- Successive calls of `analyze` on one analyzer, each with the files present
at that moment: the results returned, in order. -/
def LogAnalyzer.analyzeEach (parse : Parser) :
    LogAnalyzer → List (FileSystem × List Str) → List AnalysisResult
  | _, [] => []
  | a, (fs, logFiles) :: calls =>
    let (result, a1) := a.analyze parse fs logFiles
    result :: LogAnalyzer.analyzeEach parse a1 calls

/-! ## `server/server.cpp`: receiving the files -/

/-- The inner loop of `handleFileTransfer` that receives the chunks of the
file opened at `filePath`. The result `ret true` stands for leaving the loop
through `break` (the file is complete), `ret false` for `return false`. With no
fuel left the loop is cut short; `handleFileTransfer` passes more fuel than
there can be messages. -/
def LogServer.receiveChunks :
    Nat → Socket → FileSystem → Str → Outcome Bool × Socket × FileSystem
  | 0, s, fs, _ => (.ret false, s, fs)
  | fuel + 1, s, fs, filePath =>
    match receiveMessage s with
    | (.threw e, s1) => (.threw e, s1, fs)
    | (.ret none, s1) => (.ret false, s1, fs)
    | (.ret (some (type, message)), s1) =>
      if type = MSG_FILE_CHUNK then
        LogServer.receiveChunks fuel s1 (fs.append filePath message) filePath
      else if type = MSG_FILE_END then
        (.ret true, (sendMessage s1 MSG_ACK "File received".toList).2, fs)
      else (.ret false, s1, fs)

/-- The outer loop of `handleFileTransfer`. -/
def LogServer.transferLoop :
    Nat → Socket → FileSystem → Str → Outcome Bool × Socket × FileSystem
  | 0, s, fs, _ => (.ret false, s, fs)
  | fuel + 1, s, fs, tempDir =>
    match receiveMessage s with
    | (.threw e, s1) => (.threw e, s1, fs)
    | (.ret none, s1) => (.ret false, s1, fs)
    | (.ret (some (type, message)), s1) =>
      if type = MSG_FILE_END then (.ret true, s1, fs)
      else if type = MSG_FILE_START then
        let filePath := tempDir ++ "/".toList ++ message
        match fs.create filePath with
        | none =>
          (.ret false, (sendMessage s1 MSG_ERROR "Error creating file".toList).2, fs)
        | some fs1 =>
          match LogServer.receiveChunks fuel s1 fs1 filePath with
          | (.ret true, s2, fs2) => LogServer.transferLoop fuel s2 fs2 tempDir
          | other => other
      else (.ret false, s1, fs)

/-- The method `LogServer::handleFileTransfer(clientSocket, tempDir)`: the
value returned (or the exception raised by `receiveMessage`), the socket and
the files afterwards. Every message takes at least nine bytes, so the number
of bytes to read bounds the number of loop iterations. -/
def LogServer.handleFileTransfer (s : Socket) (fs : FileSystem) (tempDir : Str) :
    Outcome Bool × Socket × FileSystem :=
  LogServer.transferLoop (s.incoming.length + 1) s fs tempDir

/-! ## `client/client.cpp`: sending a file -/

/-- The data members of `LogClient`. -/
structure LogClient where
  socket_ : Socket
  connected_ : Bool
  deriving DecidableEq, Repr

/-- The call `fs::path(filepath).filename().string()`: what follows the last
directory separator. -/
def pathFilename (filepath : Str) : Str :=
  (filepath.reverse.takeWhile (fun c => c ≠ '/')).reverse

/-- The loop `while (!file.eof())` of `sendFile`; `rest` is the part of the
file not read yet and `eof` the state of `file.eof()`. A `read` of
`BUFFER_SIZE` bytes that finds fewer sets `eof`. -/
def LogClient.sendChunks : Nat → Socket → Str → Bool → Bool × Socket
  | 0, s, _, eof => (eof, s)
  | fuel + 1, s, rest, eof =>
    if eof then (true, s)
    else
      let chunk := rest.take BUFFER_SIZE
      let eof1 := decide (rest.length < BUFFER_SIZE)
      if 0 < chunk.length then
        let (ok, s1) := sendMessage s MSG_FILE_CHUNK chunk
        if !ok then (false, s1)
        else LogClient.sendChunks fuel s1 (rest.drop BUFFER_SIZE) eof1
      else LogClient.sendChunks fuel s (rest.drop BUFFER_SIZE) eof1

/-- The method `LogClient::sendFile(filepath)`, with `fs` the files the client
sees: the value returned (or the exception raised by `receiveMessage`) and the
client afterwards. -/
def LogClient.sendFile (c : LogClient) (fs : FileSystem) (filepath : Str) :
    Outcome Bool × LogClient :=
  if !c.connected_ then (.ret false, c)
  else if (fs.read filepath).isNone then (.ret false, c)
  else
    let filename := pathFilename filepath
    let (ok, s1) := sendMessage c.socket_ MSG_FILE_START filename
    if !ok then (.ret false, { c with socket_ := s1 })
    else
      match fs.read filepath with
      | none => (.ret false, { c with socket_ := s1 })
      | some content =>
        let (ok, s2) := LogClient.sendChunks (content.length + 1) s1 content false
        if !ok then (.ret false, { c with socket_ := s2 })
        else
          let (ok, s3) := sendMessage s2 MSG_FILE_END []
          if !ok then (.ret false, { c with socket_ := s3 })
          else
            match receiveMessage s3 with
            | (.threw e, s4) => (.threw e, { c with socket_ := s4 })
            | (.ret none, s4) => (.ret false, { c with socket_ := s4 })
            | (.ret (some (type, _)), s4) =>
              if type ≠ MSG_ACK then (.ret false, { c with socket_ := s4 })
              else (.ret true, { c with socket_ := s4 })

/-! ## Message sequences -/

/-- A message: its type byte and its payload. -/
abbrev Message := Char × Str

/-- The bytes of a sequence of messages, each framed by `sendMessage`. -/
def wireAll (msgs : List Message) : Str := msgs.flatMap (fun m => wire m.1 m.2)

/-- The socket is about to deliver exactly the messages `msgs`, in fragments
of any positive size, and then the end of the connection. -/
def Feeds (s : Socket) (msgs : List Message) : Prop :=
  s.incoming = wireAll msgs ∧ PlanPositive s.recvPlan ∧ ∀ m ∈ msgs, m.2.length < 2 ^ 32

/-- The messages of one uploaded file: a FileStart, then zero or more
FileChunk, then a FileEnd, with any payloads. -/
def IsFileGroup (ms : List Message) : Prop :=
  ∃ name chunks q, ms = (MSG_FILE_START, name) :: chunks ++ [(MSG_FILE_END, q)] ∧
    ∀ m ∈ chunks, m.1 = MSG_FILE_CHUNK

/-- A whole transfer: zero or more file groups followed by one further
FileEnd, with any payload. -/
def IsTransfer (ms : List Message) : Prop :=
  ∃ (groups : List (List Message)) (q : Str),
    (∀ g ∈ groups, IsFileGroup g) ∧ ms = groups.flatten ++ [(MSG_FILE_END, q)]

/-- An event with the success flag of a send set aside. -/
def Event.forgetOk : Event → Event
  | .sent type message _ => .sent type message true
  | e => e

/-- What the server does for one file group: it receives each message of the
group and then sends one Ack. -/
def groupTranscript (g : List Message) : List Event :=
  g.map (fun m => Event.received m.1 m.2) ++ [Event.sent MSG_ACK "File received".toList true]

/-- Whether an event is a call `sendMessage(MSG_ACK, ...)`. -/
def Event.isAck : Event → Bool
  | .sent type _ _ => type == MSG_ACK
  | _ => false

/-! ## Reference definitions for the wire formats -/

/-- Value of a string of hexadecimal digits, most significant digit first. -/
def hexValue (h : Str) : Nat := h.foldl (fun acc c => acc * 16 + (digitVal c).getD 0) 0

/-- Value of a string of decimal digits, most significant digit first. -/
def decValue (h : Str) : Nat := h.foldl (fun acc c => acc * 10 + (digitVal c).getD 0) 0

/-! ## `server/server.cpp`: a client session -/

/-- The scratch directory of the session on the socket `clientSocket`:
`std::string("temp_") + std::to_string(clientSocket)`. The handle is a
descriptor returned by `accept`, hence not negative. -/
def LogServer.tempDirOf (clientSocket : Nat) : Str := "temp_".toList ++ showNat clientSocket

/-- The method `LogServer::processLogFiles(request, tempDir)`: every entry of
the scratch directory is handed to a new analyzer. -/
def LogServer.processLogFiles (parse : Parser) (fs : FileSystem) (request : AnalysisRequest)
    (tempDir : Str) : Outcome AnalysisResult :=
  match fs.listDirectory tempDir with
  | none => .threw .filesystemError
  | some logFiles => .ret ((LogAnalyzer.new request).analyze parse fs logFiles).1

/-- The method `LogServer::handleRequest(clientSocket, request)`: the value
returned (or the exception that escapes), the socket and the files
afterwards. -/
def LogServer.handleRequest (parse : Parser) (s : Socket) (fs : FileSystem) (clientSocket : Nat)
    (request : AnalysisRequest) : Outcome Bool × Socket × FileSystem :=
  let tempDir := LogServer.tempDirOf clientSocket
  match (if !fs.pathExists tempDir then fs.createDirectory tempDir else .ret fs) with
  | .threw e => (.threw e, s, fs)
  | .ret fs0 =>
    match LogServer.handleFileTransfer s fs0 tempDir with
    | (.threw e, s1, fs1) => (.threw e, s1, fs1)
    | (.ret false, s1, fs1) => (.ret false, s1, fs1)
    | (.ret true, s1, fs1) =>
      match LogServer.processLogFiles parse fs1 request tempDir with
      | .threw e => (.threw e, s1, fs1)
      | .ret result =>
        let (ok, s2) := sendMessage s1 MSG_RESULT (serializeResult result)
        (.ret ok, s2, fs1)

/-- How the thread function of a session ends. `terminated` holds the
exception that left the function without being caught, on which the C++
runtime calls `std::terminate` and the server process ends; it is `none` when
the function returned. `socket` and `files` are the socket and the files at
that moment. -/
structure SessionEnd where
  terminated : Option Exn
  socket : Socket
  files : FileSystem

/-- The method `LogServer::clientHandler(clientSocket)`, the whole of a
session. The call `fs::create_directory(tempDir)` stands before the `try`
block, so an exception it raises is not caught. `what` gives the text of
`e.what()` for each exception, which the C++ library chooses. -/
def LogServer.clientHandler (parse : Parser) (what : Exn → Str) (s : Socket) (fs : FileSystem)
    (clientSocket : Nat) : SessionEnd :=
  let tempDir := LogServer.tempDirOf clientSocket
  match fs.createDirectory tempDir with
  | .threw e => { terminated := some e, socket := s, files := fs }
  | .ret fs0 =>
    let (s1, fs1) :=
      match receiveMessage s with
      | (.threw e, s1) =>
        ((sendMessage s1 MSG_ERROR ("Server error: ".toList ++ what e)).2, fs0)
      | (.ret none, s1) => (s1, fs0)
      | (.ret (some (type, message)), s1) =>
        if type = MSG_REQUEST then
          match LogServer.handleRequest parse s1 fs0 clientSocket
              (deserializeRequest message) with
          | (.threw e, s2, fs2) =>
            ((sendMessage s2 MSG_ERROR ("Server error: ".toList ++ what e)).2, fs2)
          | (.ret _, s2, fs2) => (s2, fs2)
        else (s1, fs0)
    { terminated := none, socket := s1.record .closed, files := fs1.removeAll tempDir }

/-! ## `client/client.cpp`: sending a directory -/

/-- The call `fs::path(filepath).extension().string()`: the part of the file
name from its last period on, unless the name is `.` or `..`, has no period,
or has its only period in front. -/
def pathExtension (filepath : Str) : Str :=
  let name := pathFilename filepath
  let tail := (name.reverse.takeWhile (fun c => c ≠ '.')).reverse
  if name = ".".toList ∨ name = "..".toList then []
  else if name.length ≤ tail.length + 1 then []
  else '.' :: tail

/-- The function `listFilesInDirectory(directory)`: the regular files of the
directory whose extension is, in lower case, `.json`, `.xml` or `.txt`. -/
def listFilesInDirectory (fs : FileSystem) (directory : Str) : Outcome (List Str) :=
  match fs.listDirectory directory with
  | none => .threw .filesystemError
  | some entries =>
    .ret (entries.filter (fun entry =>
      fs.isRegularFile entry &&
        (let ext := (pathExtension entry).map Char.toLower
         decide (ext = ".json".toList ∨ ext = ".xml".toList ∨ ext = ".txt".toList))))

/-- The loop `for (const auto& file : files)` of `sendLogFiles`: `ret true`
when every file was sent, `ret false` at the first `sendFile` that fails. -/
def LogClient.sendFiles (fs : FileSystem) : List Str → LogClient → Outcome Bool × LogClient
  | [], c => (.ret true, c)
  | file :: files, c =>
    match c.sendFile fs file with
    | (.threw e, c1) => (.threw e, c1)
    | (.ret false, c1) => (.ret false, c1)
    | (.ret true, c1) => LogClient.sendFiles fs files c1

/-- The method `LogClient::sendLogFiles(directory)`. -/
def LogClient.sendLogFiles (c : LogClient) (fs : FileSystem) (directory : Str) :
    Outcome Bool × LogClient :=
  if !c.connected_ then (.ret false, c)
  else if !fs.pathExists directory || !fs.isDirectory directory then (.ret false, c)
  else
    match listFilesInDirectory fs directory with
    | .threw e => (.threw e, c)
    | .ret files =>
      if files.isEmpty then (.ret false, c)
      else
        match LogClient.sendFiles fs files c with
        | (.ret true, c1) =>
          let (ok, s1) := sendMessage c1.socket_ MSG_FILE_END []
          (.ret ok, { c1 with socket_ := s1 })
        | other => other

/-- The event a call of `receiveMessage` leaves in the log. -/
def receiveEvent : Outcome (Option (Char × Str)) → Event
  | .ret (some (type, message)) => .received type message
  | _ => .recvFailed

/-- The messages of an upload of the file at `file`: a FileStart with its base
name, its content in chunks of 1 to `BUFFER_SIZE` bytes, and a FileEnd with an
empty payload. -/
def IsUploadOf (fs : FileSystem) (file : Str) (up : List Message) : Prop :=
  ∃ (content : Str) (chunks : List Str), fs.read file = some content ∧
    chunks.flatten = content ∧ (∀ ch ∈ chunks, 1 ≤ ch.length ∧ ch.length ≤ BUFFER_SIZE) ∧
    up = (MSG_FILE_START, pathFilename file) ::
      chunks.map (fun ch => ((MSG_FILE_CHUNK, ch) : Message)) ++ [(MSG_FILE_END, [])]

/-- The groups `|key|value` that `serializeResult` writes for the entries. -/
def resultGroups (counts : CountMap) : Str :=
  counts.flatMap (fun pair => "|".toList ++ pair.1 ++ "|".toList ++ showInt pair.2)

/-! ## Message sequences on one socket -/

/-- Successive calls of `receiveMessage` on one socket: for each call the
value it returns and the number of bytes it has taken from the stream. -/
def receiveTimes : Nat → Socket → List (Outcome (Option Message) × Nat) × Socket
  | 0, s => ([], s)
  | n + 1, s =>
    let (o, s1) := receiveMessage s
    let (outcomes, s2) := receiveTimes n s1
    ((o, s.incoming.length - s1.incoming.length) :: outcomes, s2)

/-- Successive calls of `sendMessage` on one socket, up to the first one that
fails. -/
def sendAll : Socket → List Message → Bool × Socket
  | s, [] => (true, s)
  | s, m :: ms =>
    let (ok, s1) := sendMessage s m.1 m.2
    if ok then sendAll s1 ms else (false, s1)


/-! ## `client/client.cpp`: receiving the result -/

/-- The method `LogClient::receiveResult(result)`: the value returned (or the
exception that escapes), the caller's `result` afterwards, and the client
afterwards. -/
def LogClient.receiveResult (c : LogClient) (result : AnalysisResult) :
    Outcome Bool × AnalysisResult × LogClient :=
  if !c.connected_ then (.ret false, result, c)
  else
    match receiveMessage c.socket_ with
    | (.threw e, s1) => (.threw e, result, { c with socket_ := s1 })
    | (.ret none, s1) => (.ret false, result, { c with socket_ := s1 })
    | (.ret (some (type, message)), s1) =>
      if type = MSG_RESULT then
        match deserializeResult message with
        | .threw e => (.threw e, result, { c with socket_ := s1 })
        | .ret r => (.ret true, r, { c with socket_ := s1 })
      else if type = MSG_ERROR then (.ret false, result, { c with socket_ := s1 })
      else (.ret false, result, { c with socket_ := s1 })


/-! ## `server/analyzer.cpp`: the task queue -/

/-- The members `tasks_` and `stop_` of `LogAnalyzer`, both read and written
only under `queueMutex_`; `τ` stands for `std::function<void()>`. -/
structure TaskQueue (τ : Type) where
  tasks_ : List τ
  stop_ : Bool

/-- The locked block of `addTask(task)`: `tasks_.push_back(task)`. -/
def TaskQueue.addTask {τ : Type} (q : TaskQueue τ) (task : τ) : TaskQueue τ :=
  { q with tasks_ := q.tasks_ ++ [task] }

/-- The locked block of `stopThreadPool()`: `stop_ = true`. -/
def TaskQueue.requestStop {τ : Type} (q : TaskQueue τ) : TaskQueue τ :=
  { q with stop_ := true }

/-- What a call of `getTask()` does when it holds the lock: it keeps waiting,
returns the exit signal `nullptr`, or returns a task. -/
inductive Taken (τ : Type)
  | waiting
  | exit
  | task (t : τ)

/-- The method `getTask()` from the moment it holds the lock: the wait goes on
while the predicate `stop_ || !tasks_.empty()` is false; otherwise the exit
signal is returned when `stop_ && tasks_.empty()`, and else the front task is
moved out and erased. The last branch on an empty queue is never reached. -/
def TaskQueue.getTask {τ : Type} (q : TaskQueue τ) : Taken τ × TaskQueue τ :=
  if !(q.stop_ || !q.tasks_.isEmpty) then (.waiting, q)
  else if q.stop_ && q.tasks_.isEmpty then (.exit, q)
  else
    match q.tasks_ with
    | [] => (.exit, q)
    | task :: rest => (.task task, { q with tasks_ := rest })

/-- The critical sections of a run of the pool, in the order in which the
mutex serialises them: a call of `addTask`, the shutdown request, and a call of
`getTask` by a worker that holds the lock. -/
inductive PoolStep (τ : Type)
  | add (task : τ)
  | stop
  | get (worker : Nat)

/-- The queue during a run, with a record of what happened: the tasks added so
far, the tasks handed out so far with the worker that got each, and the
workers that got the exit signal. No embedded function reads the record. -/
structure PoolRun (τ : Type) where
  queue : TaskQueue τ
  added : List τ
  handed : List (Nat × τ)
  exited : List Nat

/-- The pool after the constructor: an empty queue, no shutdown request. -/
def PoolRun.start {τ : Type} : PoolRun τ :=
  { queue := { tasks_ := [], stop_ := false }, added := [], handed := [], exited := [] }

/-- One critical section. -/
def PoolRun.step {τ : Type} (r : PoolRun τ) : PoolStep τ → PoolRun τ
  | .add task => { r with queue := r.queue.addTask task, added := r.added ++ [task] }
  | .stop => { r with queue := r.queue.requestStop }
  | .get worker =>
    match r.queue.getTask with
    | (.waiting, q) => { r with queue := q }
    | (.exit, q) => { r with queue := q, exited := r.exited ++ [worker] }
    | (.task t, q) => { r with queue := q, handed := r.handed ++ [(worker, t)] }

/-- The pool after a sequence of critical sections. -/
def PoolRun.run {τ : Type} (steps : List (PoolStep τ)) : PoolRun τ :=
  steps.foldl PoolRun.step PoolRun.start

/-! ## `common/log_parser.cpp` -/

/-- The helper `trim(str)`: the string without the white space at its two
ends. -/
def trim (str : Str) : Str :=
  ((str.dropWhile isSpace).reverse.dropWhile isSpace).reverse

/-- The extraction `stream >> str` of a `std::string`: white space is skipped
and the characters up to the next white space are taken. A stream that is not
good, or that holds nothing but white space, leaves `str` as it was; reaching
the end of the data ends the good state. -/
def extractWord (ss : IStream) (str : Str) : Str × IStream :=
  if !ss.good then (str, ss)
  else
    let rest := ss.rest.dropWhile isSpace
    if rest.isEmpty then (str, { rest := [], good := false })
    else
      let after := rest.dropWhile (fun c => !isSpace c)
      (rest.takeWhile (fun c => !isSpace c), { rest := after, good := !after.isEmpty })

/-- The enumeration `LogFormat`. -/
inductive LogFormat
  | JSON
  | XML
  | TXT
  | UNKNOWN
  deriving DecidableEq, Repr

/-- The function `LogParser::detectFormat(filename)`: the format named by the
extension of the file, compared in lower case. -/
def LogParser.detectFormat (filename : Str) : LogFormat :=
  let extension := (pathExtension filename).map Char.toLower
  if extension = ".json".toList then .JSON
  else if extension = ".xml".toList then .XML
  else if extension = ".txt".toList then .TXT
  else .UNKNOWN

/-- The fields of a line read with `std::getline(lineStream, field, delim)`
four times and then `std::getline(lineStream, entry.message)`. -/
def TxtLogParser.delimited (line : Str) (delim : Char) : LogEntry :=
  let lineStream : IStream := { rest := line, good := true }
  let (timestamp, lineStream) := getline lineStream [] delim
  let (user, lineStream) := getline lineStream [] delim
  let (ip, lineStream) := getline lineStream [] delim
  let (level, lineStream) := getline lineStream [] delim
  let (message, _) := getline lineStream [] '\n'
  { timestamp := timestamp, user := user, ip := ip, level := level, message := message }

/-- The fields of a line read with
`spaceStream >> timestamp >> user >> ip >> level` and then
`std::getline(spaceStream, entry.message)`, the message trimmed. -/
def TxtLogParser.spaced (line : Str) : LogEntry :=
  let spaceStream : IStream := { rest := line, good := true }
  let (timestamp, spaceStream) := extractWord spaceStream []
  let (user, spaceStream) := extractWord spaceStream []
  let (ip, spaceStream) := extractWord spaceStream []
  let (level, spaceStream) := extractWord spaceStream []
  let (message, _) := getline spaceStream [] '\n'
  { timestamp := timestamp, user := user, ip := ip, level := level, message := trim message }

/-- The body of the loop of `TxtLogParser::parse` for one line: the entry that
is pushed, if one is. -/
def TxtLogParser.parseLine (rawLine : Str) : Option LogEntry :=
  let line := trim rawLine
  if line.isEmpty || line.head? = some '#' then none
  else
    let entry :=
      if '|' ∈ line then TxtLogParser.delimited line '|'
      else if '\t' ∈ line then TxtLogParser.delimited line '\t'
      else TxtLogParser.spaced line
    let entry : LogEntry :=
      { timestamp := trim entry.timestamp, user := trim entry.user, ip := trim entry.ip,
        level := trim entry.level, message := trim entry.message }
    if !entry.timestamp.isEmpty && !entry.user.isEmpty && !entry.ip.isEmpty &&
        !entry.level.isEmpty then some entry
    else none

/-- The loop `while (std::getline(iss, line))` of `TxtLogParser::parse`. The
call fails, and the loop ends, when the stream is not good or when it takes no
character at all. -/
def TxtLogParser.parseLines : Nat → IStream → List LogEntry → List LogEntry
  | 0, _, entries => entries
  | fuel + 1, iss, entries =>
    let (line, iss1) := getline iss [] '\n'
    if !iss.good || (!iss1.good && line.isEmpty) then entries
    else
      TxtLogParser.parseLines fuel iss1
        (match TxtLogParser.parseLine line with
         | some entry => entries ++ [entry]
         | none => entries)

/-- The method `TxtLogParser::parse(content)`. Every turn of the loop takes a
character or is the last, so the length of the content bounds their number. -/
def TxtLogParser.parse (content : Str) : List LogEntry :=
  TxtLogParser.parseLines (content.length + 2) { rest := content, good := true } []

/-- The adapter `LogParser::createParser(filename)->parse(content)`: the
parser is chosen by the extension of the file name, the text parser being the
default. The parsers for JSON and XML, which work with regular expressions,
are taken as given. -/
def LogParser.parseFile (jsonParse xmlParse : Str → Option (List LogEntry)) : Parser :=
  fun filename content =>
    match LogParser.detectFormat filename with
    | .JSON => jsonParse content
    | .XML => xmlParse content
    | .TXT => some (TxtLogParser.parse content)
    | .UNKNOWN => some (TxtLogParser.parse content)

/-! ## Sample data on which the theorems are exercised -/

/-- An adapter that fails on the content `bad` and otherwise yields one record
stamped with the content, with the file name as address. -/
def sampleParser : Parser := fun name content =>
  if content = "bad".toList then none
  else some [{ timestamp := content, user := "u".toList, ip := name, level := "INFO".toList,
               message := [] }]

/-- Two readable files and one the adapter rejects. -/
def sampleDisk : FileSystem :=
  { files := [(resolve "a".toList, "2024-01-01".toList),
              (resolve "b".toList, "2024-01-02".toList), (resolve "c".toList, "bad".toList)],
    dirs := [],
    canCreate := fun _ => true,
    canMakeDir := fun _ => true }

/-- One file of two bytes uploaded in one chunk, then the end of the transfer
and one further message. -/
def sampleUpload : List Message :=
  [(MSG_FILE_START, "a.txt".toList), (MSG_FILE_CHUNK, "hi".toList), (MSG_FILE_END, []),
   (MSG_FILE_END, []), (MSG_REQUEST, [])]

/-- The files of a client: one log file of eleven bytes. -/
def sampleClientDisk : FileSystem :=
  { files := [(resolve "logs/a.txt".toList, "hello world".toList)],
    dirs := [resolve "logs".toList],
    canCreate := fun _ => false,
    canMakeDir := fun _ => true }

/-- A connected client whose server will acknowledge one file. -/
def sampleClient : LogClient :=
  { socket_ := Socket.fresh (wire MSG_ACK "File received".toList) [] [9, 5, 9, 4], connected_ := true }

/-- The request of scenario A: count by level, no date bounds. -/
def scenarioRequest : AnalysisRequest := { type := .LOG_LEVEL, startDate := none, endDate := none }

/-- The result expected in scenario A. -/
def scenarioCounts : CountMap := [("INFO".toList, 3), ("ERROR".toList, 1), ("WARN".toList, 1)]

/-- A record of the given level. -/
def sampleEntry (stamp level : Str) : LogEntry :=
  { timestamp := stamp, user := "u".toList, ip := "10.0.0.1".toList, level := level, message := [] }

/-- An adapter for scenario A: three records for the file `one.txt`, two for
any other file. -/
def scenarioParser : Parser := fun name _ =>
  if name = "one.txt".toList then
    some [sampleEntry "t1".toList "INFO".toList, sampleEntry "t2".toList "INFO".toList,
          sampleEntry "t3".toList "ERROR".toList]
  else some [sampleEntry "t4".toList "INFO".toList, sampleEntry "t5".toList "WARN".toList]

def scenarioDisk : FileSystem :=
  { files := [(resolve "one.txt".toList, []), (resolve "two.txt".toList, [])],
    dirs := [],
    canCreate := fun _ => true,
    canMakeDir := fun _ => true }

/-- A result with two keys, one of them with a negative count. -/
def sampleResult : AnalysisResult :=
  { type := .IP, counts := [("a".toList, 2), ("b".toList, -1)], totalEntries := 1 }

/-- A file outside the scratch directories, and the scratch directories of the
sessions 5 and 6. -/
def sessionDisk : FileSystem :=
  { files := [(resolve "server.conf".toList, "port=8080".toList)],
    dirs := [resolve "temp_5".toList, resolve "temp_6".toList],
    canCreate := fun _ => true,
    canMakeDir := fun _ => true }

/-- An upload whose file name climbs out of the scratch directory. -/
def escapingUpload : List Message :=
  [(MSG_FILE_START, "../server.conf".toList), (MSG_FILE_CHUNK, "x".toList), (MSG_FILE_END, []),
   (MSG_FILE_END, [])]

/-- An upload whose file name leads into the scratch directory of session 6. -/
def crossingUpload : List Message :=
  [(MSG_FILE_START, "../temp_6/x.txt".toList),
   (MSG_FILE_CHUNK, "2024-01-01|alice|10.0.0.1|INFO|login".toList),
   (MSG_FILE_END, []), (MSG_FILE_END, [])]

/-- A session that uploads no file: a request, then the end of the transfer. -/
def emptySession : List Message :=
  [(MSG_REQUEST, "USER|NONE|NONE".toList), (MSG_FILE_END, [])]

/-- A text for `e.what()`. -/
def sampleWhat : Exn → Str := fun _ => "stoul".toList

/-- A connected client on a connection that takes every byte offered, with one
Ack coming. -/
def idealClient : LogClient :=
  { socket_ := Socket.fresh (wire MSG_ACK "File received".toList) [] [], connected_ := true }

/-- The files of a client whose directory holds no file with an eligible
extension. -/
def notesDisk : FileSystem :=
  { files := [(resolve "logs/readme.md".toList, "notes".toList)],
    dirs := [resolve "logs".toList],
    canCreate := fun _ => false,
    canMakeDir := fun _ => true }

/-- A result with an empty key and a negative count. -/
def emptyKeyResult : AnalysisResult :=
  { type := .USER, counts := [([], 4), ("a".toList, -2)], totalEntries := 2 }

/-- A connected client about to receive a Result message whose payload is
empty. -/
def emptyResultClient : LogClient :=
  { socket_ := Socket.fresh (wire MSG_RESULT []) [] [], connected_ := true }

/-- A connected client about to receive the Result of scenario A, in
fragments, followed by one more message. -/
def resultClient : LogClient :=
  { socket_ := Socket.fresh
      (wireAll [(MSG_RESULT, "LOG_LEVEL|5|3|INFO|3|ERROR|1|WARN|1".toList), (MSG_ACK, [])])
      [4, 7, 100] [],
    connected_ := true }


/-- A run of the pool: two tasks are added, shutdown is requested, a third
task is added after that, and two workers take turns. -/
def sampleSteps : List (PoolStep Nat) :=
  [.add 10, .add 20, .stop, .get 1, .add 30, .get 2, .get 1, .get 2]

/-- A working directory in which `temp_7` is a regular file. -/
def blockedDisk : FileSystem :=
  { files := [(resolve "temp_7".toList, "x".toList)],
    dirs := [],
    canCreate := fun _ => true,
    canMakeDir := fun _ => true }

def sampleRequest : AnalysisRequest := { type := .USER, startDate := none, endDate := none }

end LogFileAnalyzer

namespace LogFileAnalyzer

/-! ## Digits -/

theorem digitIn_digitChar (d : Nat) (h : d < 16) : digitIn 16 (Nat.digitChar d) = some d := by
  interval_cases d <;> decide

theorem digitChar_plain (d : Nat) (h : d < 16) :
    isSpace (Nat.digitChar d) = false ∧ Nat.digitChar d ≠ '-' ∧ Nat.digitChar d ≠ '+' ∧
      Nat.digitChar d ≠ 'x' ∧ Nat.digitChar d ≠ 'X' := by
  interval_cases d <;> decide

theorem toDigitsCore_append (b : Nat) : ∀ (fuel n : Nat) (ds : List Char),
    Nat.toDigitsCore b fuel n ds = Nat.toDigitsCore b fuel n [] ++ ds := by
  intro fuel
  induction fuel with
  | zero => intro n ds; simp [Nat.toDigitsCore]
  | succ f ih =>
    intro n ds
    simp only [Nat.toDigitsCore]
    split
    · simp
    · rw [ih (n / b) (_ :: ds), ih (n / b) [_]]; simp

/-- Every character of the core digit conversion is a digit of the base. -/
theorem mem_toDigitsCore (b : Nat) (hb : 0 < b) : ∀ (fuel n : Nat) (c : Char),
    c ∈ Nat.toDigitsCore b fuel n [] → ∃ d, d < b ∧ c = Nat.digitChar d := by
  intro fuel
  induction fuel with
  | zero => intro n c h; simp [Nat.toDigitsCore] at h
  | succ f ih =>
    intro n c h
    simp only [Nat.toDigitsCore] at h
    split at h
    · simp only [List.mem_singleton] at h
      exact ⟨n % b, Nat.mod_lt _ hb, h⟩
    · rw [toDigitsCore_append] at h
      rcases List.mem_append.1 h with h | h
      · exact ih _ _ h
      · simp only [List.mem_singleton] at h
        exact ⟨n % b, Nat.mod_lt _ hb, h⟩

/-- Reading back the digits written for `n` continues the scan with the value
`n` appended to the accumulator. -/
theorem scanDigits_toDigitsCore : ∀ (fuel n : Nat), n < fuel → ∀ (rest : Str) (acc : Nat) (any : Bool),
    scanDigits 16 (Nat.toDigitsCore 16 fuel n [] ++ rest) acc any =
      scanDigits 16 rest (acc * 16 ^ (Nat.toDigitsCore 16 fuel n []).length + n) true := by
  intro fuel
  induction fuel with
  | zero => intro n h; omega
  | succ f ih =>
    intro n hn rest acc any
    simp only [Nat.toDigitsCore]
    split
    · rename_i h0
      have hlt : n < 16 := by
        by_contra hge
        have : 0 < n / 16 := Nat.div_pos (by omega) (by norm_num)
        omega
      have hm : n % 16 = n := Nat.mod_eq_of_lt hlt
      simp [scanDigits, hm, digitIn_digitChar n hlt]
    · rename_i h0
      have hdiv : n / 16 < f := by
        have : n / 16 < n := Nat.div_lt_self (by
          by_contra h; simp at h; subst h; simp at h0) (by norm_num)
        omega
      rw [toDigitsCore_append, List.append_assoc, ih (n / 16) hdiv]
      simp only [List.singleton_append, List.length_append, List.length_singleton, scanDigits,
        digitIn_digitChar (n % 16) (Nat.mod_lt _ (by norm_num))]
      congr 1
      have := Nat.div_add_mod n 16
      rw [pow_succ]
      nlinarith [Nat.div_add_mod n 16]

theorem scanDigits_zeros (k : Nat) (rest : Str) (any : Bool) :
    scanDigits 16 (List.replicate k '0' ++ rest) 0 any =
      scanDigits 16 rest 0 (any || decide (0 < k)) := by
  induction k generalizing any with
  | zero => simp
  | succ k ih =>
    have h0 : digitIn 16 '0' = some 0 := by decide
    simp [List.replicate_succ, scanDigits, h0, ih]

theorem hexWidth8_length (n : Nat) (h : n < 2 ^ 32) : (hexWidth8 n).length = 8 := by
  have hl : (Nat.toDigits 16 n).length ≤ 8 :=
    Nat.toDigitsCore_length 16 (by norm_num) (n + 1) n 8 (by norm_num; omega) (by norm_num)
  simp only [hexWidth8, List.length_append, List.length_replicate]
  omega

theorem mem_hexWidth8 (n : Nat) (c : Char) (h : c ∈ hexWidth8 n) :
    ∃ d, d < 16 ∧ c = Nat.digitChar d := by
  simp only [hexWidth8, List.mem_append, List.mem_replicate] at h
  rcases h with ⟨_, h⟩ | h
  · exact ⟨0, by norm_num, by rw [h]; rfl⟩
  · exact mem_toDigitsCore 16 (by norm_num) _ _ _ h

theorem scanDigits_toDigits (n : Nat) (any : Bool) :
    scanDigits 16 (Nat.toDigits 16 n) 0 any = (n, true) := by
  have h := scanDigits_toDigitsCore (n + 1) n (Nat.lt_succ_self n) [] 0 any
  simp only [List.append_nil, zero_mul, zero_add] at h
  rw [Nat.toDigits, h]
  simp [scanDigits]

theorem scanDigits_hexWidth8 (n : Nat) :
    scanDigits 16 (hexWidth8 n) 0 false = (n, true) := by
  unfold hexWidth8
  simp only [scanDigits_zeros, scanDigits_toDigits]

theorem takeSign_of_ne (c : Char) (cs : Str) (hm : c ≠ '-') (hp : c ≠ '+') :
    takeSign (c :: cs) = (false, c :: cs) := by
  unfold takeSign
  split <;> simp_all

theorem skipHexPrefix_of_ne (base : Nat) (c x : Char) (cs : Str) (hx : x ≠ 'x') (hX : x ≠ 'X') :
    skipHexPrefix base (c :: x :: cs) = c :: x :: cs := by
  unfold skipHexPrefix
  split
  · rename_i heq
    injection heq with h1 h2
    injection h2 with h2 h3
    subst h1 h2 h3
    simp [hx, hX]
  · rfl

/-- The length field written by `sendMessage` is read back by `std::stoul`. -/
theorem stoul_hexWidth8 (n : Nat) (h : n < 2 ^ 32) : stoul (hexWidth8 n) 16 = .ret n := by
  have hlen := hexWidth8_length n h
  have hscan := scanDigits_hexWidth8 n
  have hmem := mem_hexWidth8 n
  generalize hexWidth8 n = w at hlen hscan hmem
  match w, hlen with
  | [c0, c1, c2, c3, c4, c5, c6, c7], _ =>
    obtain ⟨d0, hd0, rfl⟩ := hmem c0 (by simp)
    obtain ⟨d1, hd1, rfl⟩ := hmem c1 (by simp)
    obtain ⟨hsp, hm, hp, _, _⟩ := digitChar_plain d0 hd0
    obtain ⟨_, _, _, hx, hX⟩ := digitChar_plain d1 hd1
    have hskip : skipSpaces (Nat.digitChar d0 :: Nat.digitChar d1 :: [c2, c3, c4, c5, c6, c7])
        = Nat.digitChar d0 :: Nat.digitChar d1 :: [c2, c3, c4, c5, c6, c7] := by
      simp [skipSpaces, hsp]
    have hlt : ¬ (2 ^ 64 ≤ n) := by
      have h32 : (2 : Nat) ^ 32 = 4294967296 := by norm_num
      have h64 : (2 : Nat) ^ 64 = 18446744073709551616 := by norm_num
      omega
    simp only [stoul, scanNumber, hskip, takeSign_of_ne _ _ hm hp,
      skipHexPrefix_of_ne _ _ _ _ hx hX, hscan]
    simp only [if_true, hlt, if_false, Bool.false_eq_true]

/-! ## The transport primitives -/

theorem PlanPositive.of_suffix {p q : List Int} (h : p <:+ q) (hq : PlanPositive q) :
    PlanPositive p := fun r hr => hq r (h.subset hr)

/-- A `recv` on a connection with bytes left and a positive plan delivers
between one byte and the number asked for. -/
theorem recv_pos (s : Socket) (len : Nat) (hplan : PlanPositive s.recvPlan) (hlen : 0 < len)
    (hin : 0 < s.incoming.length) :
    ∃ k plan', 0 < k ∧ k ≤ len ∧ k ≤ s.incoming.length ∧ plan' <:+ s.recvPlan ∧
      recv s len = ((k : Int), s.incoming.take k,
        { s with incoming := s.incoming.drop k, recvPlan := plan' }) := by
  unfold recv
  cases hp : s.recvPlan with
  | nil =>
    refine ⟨min len s.incoming.length, [], ?_, ?_, ?_, List.suffix_refl _, ?_⟩
    · omega
    · omega
    · omega
    · simp [hp]
  | cons r plan =>
    have hr : 0 < r := hplan r (by simp [hp])
    have hr2 : ¬ r ≤ 0 := by omega
    have hr3 : 0 < r.toNat := by omega
    refine ⟨min (min r.toNat len) s.incoming.length, plan, ?_, ?_, ?_, List.suffix_cons _ _, ?_⟩
    · omega
    · omega
    · omega
    · simp [hr2]

theorem recvBody_full : ∀ (fuel : Nat) (s : Socket) (length : Nat) (msg : Str),
    PlanPositive s.recvPlan → msg.length ≤ length →
    length - msg.length ≤ s.incoming.length → length - msg.length ≤ fuel →
    ∃ plan', plan' <:+ s.recvPlan ∧
      recvBody fuel s length msg = (some (msg ++ s.incoming.take (length - msg.length)),
        { s with incoming := s.incoming.drop (length - msg.length), recvPlan := plan' }) := by
  intro fuel
  induction fuel with
  | zero =>
    intro s length msg _ h1 _ h3
    have h0 : length - msg.length = 0 := by omega
    refine ⟨s.recvPlan, List.suffix_refl _, ?_⟩
    have : ¬ msg.length < length := by omega
    simp [recvBody, h0, this]
  | succ f ih =>
    intro s length msg hplan h1 h2 h3
    unfold recvBody
    by_cases hlt : msg.length < length
    · have hch : 0 < min (length - msg.length) (BUFFER_SIZE - 1) := by
        simp only [BUFFER_SIZE]; omega
      obtain ⟨k, plan1, hk0, hk1, hk2, hsuf, hrecv⟩ :=
        recv_pos s _ hplan hch (by omega)
      have hk3 : k ≤ length - msg.length := le_trans hk1 (Nat.min_le_left _ _)
      have hkpos : ¬ ((k : Int) ≤ 0) := by omega
      obtain ⟨plan2, hsuf2, hrec⟩ := ih
        { s with incoming := s.incoming.drop k, recvPlan := plan1 } length
        (msg ++ s.incoming.take k) (PlanPositive.of_suffix hsuf hplan)
        (by simp only [List.length_append, List.length_take]; omega)
        (by simp only [List.length_append, List.length_take, List.length_drop]; omega)
        (by simp only [List.length_append, List.length_take]; omega)
      refine ⟨plan2, hsuf2.trans hsuf, ?_⟩
      simp only [hlt, if_true, hrecv, hkpos, if_false, hrec]
      have hlen : (msg ++ List.take k s.incoming).length = msg.length + k := by
        simp only [List.length_append, List.length_take]; omega
      have hsplit : length - msg.length = k + (length - (msg.length + k)) := by omega
      rw [hlen]
      congr 1
      · congr 1
        rw [List.append_assoc]
        congr 1
        conv_rhs => rw [hsplit, List.take_add]
      · congr 1
        rw [List.drop_drop]
        congr 1
        omega
    · have h0 : length - msg.length = 0 := by omega
      refine ⟨s.recvPlan, List.suffix_refl _, ?_⟩
      simp [hlt, h0]

theorem recvHeader_full : ∀ (fuel : Nat) (s : Socket) (header : Str),
    PlanPositive s.recvPlan → header.length ≤ 9 →
    9 - header.length ≤ s.incoming.length → 9 - header.length ≤ fuel →
    ∃ plan', plan' <:+ s.recvPlan ∧
      recvHeader fuel s header = (some (header ++ s.incoming.take (9 - header.length)),
        { s with incoming := s.incoming.drop (9 - header.length), recvPlan := plan' }) := by
  intro fuel
  induction fuel with
  | zero =>
    intro s header _ h1 _ h3
    have h0 : 9 - header.length = 0 := by omega
    refine ⟨s.recvPlan, List.suffix_refl _, ?_⟩
    have : ¬ header.length < 9 := by omega
    simp [recvHeader, h0, this]
  | succ f ih =>
    intro s header hplan h1 h2 h3
    unfold recvHeader
    by_cases hlt : header.length < 9
    · obtain ⟨k, plan1, hk0, hk1, hk2, hsuf, hrecv⟩ :=
        recv_pos s (9 - header.length) hplan (by omega) (by omega)
      have hkpos : ¬ ((k : Int) ≤ 0) := by omega
      obtain ⟨plan2, hsuf2, hrec⟩ := ih
        { s with incoming := s.incoming.drop k, recvPlan := plan1 }
        (header ++ s.incoming.take k) (PlanPositive.of_suffix hsuf hplan)
        (by simp only [List.length_append, List.length_take]; omega)
        (by simp only [List.length_append, List.length_take, List.length_drop]; omega)
        (by simp only [List.length_append, List.length_take]; omega)
      refine ⟨plan2, hsuf2.trans hsuf, ?_⟩
      simp only [hlt, if_true, hrecv, hkpos, if_false, hrec]
      have hlen : (header ++ List.take k s.incoming).length = header.length + k := by
        simp only [List.length_append, List.length_take]; omega
      have hsplit : 9 - header.length = k + (9 - (header.length + k)) := by omega
      rw [hlen]
      congr 1
      · congr 1
        rw [List.append_assoc]
        congr 1
        conv_rhs => rw [hsplit, List.take_add]
      · congr 1
        rw [List.drop_drop]
        congr 1
        omega
    · have h0 : 9 - header.length = 0 := by omega
      refine ⟨s.recvPlan, List.suffix_refl _, ?_⟩
      simp [hlt, h0]

/-- A `send` that reports progress wrote that many bytes of the buffer. -/
theorem send_pos (s : Socket) (buf : Str) (h : 0 < (send s buf).1) :
    ∃ k plan', 0 < k ∧ k ≤ buf.length ∧ plan' <:+ s.sendPlan ∧
      send s buf = ((k : Int),
        { s with outgoing := s.outgoing ++ buf.take k, sendPlan := plan' }) := by
  unfold send at h ⊢
  cases hp : s.sendPlan with
  | nil =>
    simp only [hp] at h
    refine ⟨buf.length, [], by omega, le_refl _, List.suffix_refl _, ?_⟩
    simp
  | cons r plan =>
    simp only [hp] at h
    by_cases hr : r ≤ 0
    · simp only [hr, if_true] at h; omega
    · simp only [hr, if_false] at h
      refine ⟨min r.toNat buf.length, plan, by omega, by omega, List.suffix_cons _ _, ?_⟩
      simp [hr]

/-- On a positive plan every `send` of a non-empty buffer reports progress. -/
theorem send_of_positive (s : Socket) (buf : Str) (hplan : PlanPositive s.sendPlan)
    (hbuf : 0 < buf.length) : 0 < (send s buf).1 := by
  unfold send
  cases hp : s.sendPlan with
  | nil => simp only; omega
  | cons r plan =>
    have hr : 0 < r := hplan r (by simp [hp])
    have hr2 : ¬ r ≤ 0 := by omega
    simp only [hr2, if_false]
    omega

theorem sendBody_true : ∀ (fuel : Nat) (s s' : Socket) (rest : Str),
    rest.length ≤ fuel → sendBody fuel s rest = (true, s') →
    ∃ plan', plan' <:+ s.sendPlan ∧
      s' = { s with outgoing := s.outgoing ++ rest, sendPlan := plan' } := by
  intro fuel
  induction fuel with
  | zero =>
    intro s s' rest hlen h
    have hnil : rest = [] := List.eq_nil_of_length_eq_zero (by omega)
    subst hnil
    simp only [sendBody, List.isEmpty_nil, Prod.mk.injEq, true_and] at h
    exact ⟨s.sendPlan, List.suffix_refl _, by simp [← h]⟩
  | succ f ih =>
    intro s s' rest hlen h
    unfold sendBody at h
    cases rest with
    | nil =>
      simp only [List.isEmpty_nil, if_true, Prod.mk.injEq, true_and] at h
      exact ⟨s.sendPlan, List.suffix_refl _, by simp [← h]⟩
    | cons c cs =>
      simp only [List.isEmpty_cons, Bool.false_eq_true, if_false] at h
      by_cases hs : (send s ((c :: cs).take (min (c :: cs).length BUFFER_SIZE))).1 ≤ 0
      · simp only [hs, if_true, Prod.mk.injEq, Bool.false_eq_true, false_and] at h
      · obtain ⟨k, plan1, hk0, hk1, hsuf, hsend⟩ :=
          send_pos s ((c :: cs).take (min (c :: cs).length BUFFER_SIZE)) (by omega)
        rw [hsend] at h hs
        simp only [hs, if_false, Int.toNat_ofNat] at h
        have hk2 : k ≤ (c :: cs).length := by
          simp only [List.length_take] at hk1; omega
        obtain ⟨plan2, hsuf2, hs'⟩ := ih _ s' _
          (by simp only [List.length_drop, List.length_cons] at hlen ⊢; omega) h
        refine ⟨plan2, hsuf2.trans hsuf, ?_⟩
        rw [hs']
        simp only [List.append_assoc, Socket.mk.injEq, List.append_cancel_left_eq, and_true,
          true_and]
        have hkk : k ≤ min (c :: cs).length BUFFER_SIZE := by
          simp only [List.length_take] at hk1; omega
        rw [List.take_take, min_eq_left hkk, List.take_append_drop]

theorem sendBody_of_positive : ∀ (fuel : Nat) (s : Socket) (rest : Str),
    PlanPositive s.sendPlan → rest.length ≤ fuel →
    ∃ plan', plan' <:+ s.sendPlan ∧
      sendBody fuel s rest =
        (true, { s with outgoing := s.outgoing ++ rest, sendPlan := plan' }) := by
  intro fuel
  induction fuel with
  | zero =>
    intro s rest _ hlen
    have hnil : rest = [] := List.eq_nil_of_length_eq_zero (by omega)
    subst hnil
    exact ⟨s.sendPlan, List.suffix_refl _, by simp [sendBody]⟩
  | succ f ih =>
    intro s rest hplan hlen
    cases rest with
    | nil => exact ⟨s.sendPlan, List.suffix_refl _, by simp [sendBody]⟩
    | cons c cs =>
      have hpos := send_of_positive s ((c :: cs).take (min (c :: cs).length BUFFER_SIZE)) hplan
        (by simp [BUFFER_SIZE])
      obtain ⟨k, plan1, hk0, hk1, hsuf, hsend⟩ := send_pos s _ hpos
      have hkk : k ≤ min (c :: cs).length BUFFER_SIZE := by
        simp only [List.length_take] at hk1; omega
      rw [List.take_take, min_eq_left hkk] at hsend
      obtain ⟨plan2, hsuf2, hrec⟩ := ih
        { s with outgoing := s.outgoing ++ (c :: cs).take k, sendPlan := plan1 }
        ((c :: cs).drop k) (PlanPositive.of_suffix hsuf hplan)
        (by simp only [List.length_drop, List.length_cons] at hlen ⊢; omega)
      refine ⟨plan2, hsuf2.trans hsuf, ?_⟩
      have hkpos : ¬ ((k : Int) ≤ 0) := by omega
      unfold sendBody
      simp only [List.isEmpty_cons, Bool.false_eq_true, if_false, hsend, hkpos, Int.toNat_ofNat,
        hrec, List.append_assoc, List.take_append_drop]

/-- A successful `sendMessage` wrote the nine header bytes and then the whole
payload, and left the rest of the socket alone. -/
theorem sendMessage_true (s s' : Socket) (t : Char) (p : Str)
    (h : sendMessage s t p = (true, s')) :
    ∃ plan', plan' <:+ s.sendPlan ∧
      s' = { s with outgoing := s.outgoing ++ ((t :: hexWidth8 p.length).take 9 ++ p),
                    sendPlan := plan', log := s.log ++ [.sent t p true] } := by
  unfold sendMessage at h
  by_cases h9 : (send s ((t :: hexWidth8 p.length).take 9)).1 = 9
  · obtain ⟨k, plan1, _, _, hsuf, hsend⟩ :=
      send_pos s ((t :: hexWidth8 p.length).take 9) (by omega)
    rw [hsend] at h9
    simp only [hsend] at h
    simp only at h9
    have hk : k = 9 := by omega
    subst hk
    have hlen9 : ((t :: hexWidth8 p.length).take 9).length = 9 := by
      simp only [List.length_take] at *; omega
    have htake : ((t :: hexWidth8 p.length).take 9).take 9 = (t :: hexWidth8 p.length).take 9 := by
      rw [List.take_take]; simp
    simp only [Nat.cast_ofNat, ne_eq, not_true_eq_false, if_false] at h
    cases p with
    | nil =>
      simp only [List.isEmpty_nil, Bool.not_true, Bool.false_eq_true, if_false,
        Prod.mk.injEq, true_and] at h
      refine ⟨plan1, hsuf, ?_⟩
      rw [← h, htake]
      simp [Socket.record]
    | cons c cs =>
      simp only [List.isEmpty_cons, Bool.not_false, if_true] at h
      cases hb : sendBody (c :: cs).length
        { s with outgoing := s.outgoing ++ ((t :: hexWidth8 (c :: cs).length).take 9).take 9,
                 sendPlan := plan1 } (c :: cs) with
      | mk ok s2 =>
        rw [hb] at h
        simp only [Prod.mk.injEq] at h
        obtain ⟨hok, hs2⟩ := h
        subst hok
        obtain ⟨plan2, hsuf2, hs2'⟩ := sendBody_true _ _ _ _ (le_refl _) hb
        refine ⟨plan2, hsuf2.trans hsuf, ?_⟩
        rw [← hs2, hs2', htake]
        simp [Socket.record]
  · simp only [ne_eq, h9, not_false_eq_true, if_true, Prod.mk.injEq, Bool.false_eq_true,
      false_and] at h

/-- On a connection that takes every byte offered `sendMessage` succeeds. -/
theorem sendMessage_ideal (s : Socket) (t : Char) (p : Str) (hs : s.sendPlan = []) :
    sendMessage s t p =
      (true, { s with outgoing := s.outgoing ++ ((t :: hexWidth8 p.length).take 9 ++ p),
                      log := s.log ++ [.sent t p true] }) := by
  have hlen9 : ((t :: hexWidth8 p.length).take 9).length = 9 := by
    simp only [List.length_take, List.length_cons, hexWidth8, List.length_append,
      List.length_replicate]
    omega
  have hsend : send s ((t :: hexWidth8 p.length).take 9) =
      ((9 : Int), { s with outgoing := s.outgoing ++ (t :: hexWidth8 p.length).take 9 }) := by
    unfold send
    simp only [hs, hlen9, Nat.cast_ofNat]
  unfold sendMessage
  simp only [hsend, ne_eq, not_true_eq_false, if_false]
  cases p with
  | nil =>
    cases s
    simp only at hs
    simp [Socket.record, hs]
  | cons c cs =>
    obtain ⟨plan2, hsuf2, hb⟩ := sendBody_of_positive (c :: cs).length
      { s with outgoing := s.outgoing ++ (t :: hexWidth8 (c :: cs).length).take 9 } (c :: cs)
      (by simp [PlanPositive, hs]) (le_refl _)
    have hp2 : plan2 = [] := by
      simp only [hs] at hsuf2
      exact List.eq_nil_of_suffix_nil hsuf2
    subst hp2
    simp only [List.isEmpty_cons, Bool.not_false, if_true, hb]
    cases s
    simp only at hs
    simp [Socket.record, hs]

theorem header_take (t : Char) (n : Nat) (h : n < 2 ^ 32) :
    (t :: hexWidth8 n).take 9 = t :: hexWidth8 n := by
  apply List.take_of_length_le
  simp [hexWidth8_length n h]

/-- The frame of a message: type byte, eight hexadecimal digits, payload. -/
theorem wire_eq (t : Char) (p : Str) (h : p.length < 2 ^ 32) :
    wire t p = t :: hexWidth8 p.length ++ p := by
  unfold wire
  rw [sendMessage_ideal _ _ _ rfl, header_take t _ h]
  simp [Socket.fresh]

/-- Reading one frame: whatever positive plan the transport follows,
`receiveMessage` returns the framed message and leaves the bytes after it. -/
theorem receiveMessage_wire (s : Socket) (t : Char) (p rest : Str) (hp : p.length < 2 ^ 32)
    (hin : s.incoming = wire t p ++ rest) (hplan : PlanPositive s.recvPlan) :
    ∃ plan', plan' <:+ s.recvPlan ∧
      receiveMessage s = (.ret (some (t, p)),
        { s with incoming := rest, recvPlan := plan', log := s.log ++ [.received t p] }) := by
  rw [wire_eq t p hp] at hin
  have hw := hexWidth8_length p.length hp
  have hinlen : s.incoming.length = 9 + p.length + rest.length := by
    rw [hin]; simp only [List.length_append, List.length_cons, hw]
  obtain ⟨plan1, hsuf1, hhead⟩ := recvHeader_full 9 s [] hplan (by simp)
    (by simp only [List.length_nil]; omega) (by simp)
  have htake9 : s.incoming.take 9 = t :: hexWidth8 p.length := by
    rw [hin, List.append_assoc, List.take_append_of_le_length (by simp [hw])]
    exact List.take_of_length_le (by simp [hw])
  have hdrop9 : s.incoming.drop 9 = p ++ rest := by
    rw [hin, List.append_assoc]
    have : (t :: hexWidth8 p.length).length = 9 := by simp [hw]
    rw [← this, List.drop_left]
  simp only [List.length_nil, Nat.sub_zero, List.nil_append, htake9, hdrop9] at hhead
  obtain ⟨plan2, hsuf2, hbody⟩ := recvBody_full p.length
    { s with incoming := p ++ rest, recvPlan := plan1 } p.length []
    (PlanPositive.of_suffix hsuf1 hplan) (by simp) (by simp) (by simp)
  simp only [List.length_nil, Nat.sub_zero, List.nil_append, List.take_left, List.drop_left]
    at hbody
  have hmax : ¬ STRING_MAX_SIZE < p.length := by
    have h32 : (2 : Nat) ^ 32 = 4294967296 := by norm_num
    have h62 : STRING_MAX_SIZE = 4611686018427387903 := by norm_num [STRING_MAX_SIZE]
    omega
  have hls : ((t :: hexWidth8 p.length).drop 1).take 8 = hexWidth8 p.length := by
    simp only [List.drop_succ_cons, List.drop_zero]
    exact List.take_of_length_le (by simp [hw])
  refine ⟨plan2, hsuf2.trans hsuf1, ?_⟩
  unfold receiveMessage
  simp only [hhead, hls, stoul_hexWidth8 _ hp, hmax, if_false, hbody, List.headD_cons]
  simp [Socket.record]

/-! ## Count maps -/

theorem CountMap.get?_add (m : CountMap) (k k' : Str) (d : Int) :
    (m.add k d).get? k' = if k' = k then some ((m.get? k).getD 0 + d) else m.get? k' := by
  induction m with
  | nil =>
    by_cases h : k' = k
    · simp [CountMap.add, CountMap.get?, h]
    · have h' : ¬ k = k' := fun e => h e.symm
      simp [CountMap.add, CountMap.get?, h, h']
  | cons hd tl ih =>
    obtain ⟨a, v⟩ := hd
    by_cases ha : a = k
    · subst ha
      by_cases h : a = k'
      · subst h; simp [CountMap.add, CountMap.get?]
      · have h' : ¬ k' = a := fun e => h e.symm
        simp [CountMap.add, CountMap.get?, h, h']
    · by_cases h : a = k'
      · subst h
        have h' : ¬ a = k := ha
        simp [CountMap.add, CountMap.get?, ha]
      · simp only [CountMap.add, ha, if_false, CountMap.get?, h, ih]

theorem CountMap.keys_add (m : CountMap) (k : Str) (d : Int) :
    (m.add k d).keys = if k ∈ m.keys then m.keys else m.keys ++ [k] := by
  induction m with
  | nil => simp [CountMap.add, CountMap.keys]
  | cons hd tl ih =>
    obtain ⟨a, v⟩ := hd
    by_cases ha : a = k
    · subst ha; simp [CountMap.add, CountMap.keys]
    · have ha' : ¬ k = a := fun e => ha e.symm
      simp only [CountMap.keys] at ih
      simp only [CountMap.add, ha, if_false, CountMap.keys, List.map_cons, ih, List.mem_cons, ha',
        false_or]
      split <;> simp

theorem CountMap.nodup_add (m : CountMap) (k : Str) (d : Int) (h : m.keys.Nodup) :
    (m.add k d).keys.Nodup := by
  rw [CountMap.keys_add]
  split
  · exact h
  · rename_i hk
    exact List.Nodup.append h (List.nodup_singleton k) (by simpa using hk)

theorem CountMap.total_add (m : CountMap) (k : Str) (d : Int) :
    (m.add k d).total = m.total + d := by
  induction m with
  | nil => simp [CountMap.add, CountMap.total]
  | cons hd tl ih =>
    obtain ⟨a, v⟩ := hd
    simp only [CountMap.total] at ih
    by_cases ha : a = k
    · simp only [CountMap.add, ha, if_true, CountMap.total, List.map_cons, List.sum_cons]; ring
    · simp only [CountMap.add, ha, if_false, CountMap.total, List.map_cons, List.sum_cons, ih]; ring

theorem CountMap.get?_eq_none (m : CountMap) (k : Str) : m.get? k = none ↔ k ∉ m.keys := by
  induction m with
  | nil => simp [CountMap.get?, CountMap.keys]
  | cons hd tl ih =>
    obtain ⟨a, v⟩ := hd
    simp only [CountMap.keys] at ih
    by_cases ha : a = k
    · simp [CountMap.get?, CountMap.keys, ha]
    · have ha' : ¬ k = a := fun e => ha e.symm
      simp [CountMap.get?, CountMap.keys, ha, ha', ih]

theorem mergeCounts_cons (m : CountMap) (a : Str) (v : Int) (t : CountMap) :
    mergeCounts m ((a, v) :: t) = mergeCounts (m.add a v) t := rfl

/-- Merging a tally with distinct keys adds its count to each key. -/
theorem get?_mergeCounts (t : CountMap) (ht : t.keys.Nodup) : ∀ (m : CountMap) (k : Str),
    (mergeCounts m t).get? k = addCounts (m.get? k) (t.get? k) := by
  induction t with
  | nil => intro m k; cases h : m.get? k <;> simp [mergeCounts, CountMap.get?, addCounts, h]
  | cons hd tl ih =>
    obtain ⟨a, v⟩ := hd
    intro m k
    simp only [CountMap.keys, List.map_cons, List.nodup_cons] at ht
    obtain ⟨hnot, hnd⟩ := ht
    rw [mergeCounts_cons, ih hnd, CountMap.get?_add]
    by_cases hk : a = k
    · subst hk
      have hnone : CountMap.get? tl a = none := (CountMap.get?_eq_none tl a).2 hnot
      cases h : m.get? a <;> simp [CountMap.get?, hnone, addCounts, h]
    · have hk' : ¬ k = a := fun e => hk e.symm
      simp [CountMap.get?, hk, hk']

theorem keys_mergeCounts_nodup (t m : CountMap) (hm : m.keys.Nodup) :
    (mergeCounts m t).keys.Nodup := by
  induction t generalizing m with
  | nil => exact hm
  | cons hd tl ih =>
    obtain ⟨a, v⟩ := hd
    rw [mergeCounts_cons]
    exact ih _ (CountMap.nodup_add m a v hm)

theorem total_mergeCounts (t m : CountMap) : (mergeCounts m t).total = m.total + t.total := by
  induction t generalizing m with
  | nil => simp [mergeCounts, CountMap.total]
  | cons hd tl ih =>
    obtain ⟨a, v⟩ := hd
    rw [mergeCounts_cons, ih, CountMap.total_add]
    simp only [CountMap.total, List.map_cons, List.sum_cons]; ring

theorem addCounts_comm (x y : Option Int) : addCounts x y = addCounts y x := by
  cases x <;> cases y <;> simp [addCounts, add_comm]

theorem addCounts_assoc (x y z : Option Int) :
    addCounts (addCounts x y) z = addCounts x (addCounts y z) := by
  cases x <;> cases y <;> cases z <;> simp [addCounts, add_assoc]

theorem Tallies.empty : Tallies [] (fun _ => 0) := by
  intro k; simp [CountMap.get?]

theorem Tallies.add_one {m : CountMap} {f : Str → Nat} (h : Tallies m f) (key : Str) :
    Tallies (m.add key 1) (fun k => f k + if k = key then 1 else 0) := by
  intro k
  rw [CountMap.get?_add]
  by_cases hk : k = key
  · subst hk
    rw [h k]
    by_cases h0 : f k = 0 <;> simp [h0]
  · simp [hk, h k]

theorem Tallies.merge {m t : CountMap} {f g : Str → Nat} (hm : Tallies m f) (ht : Tallies t g)
    (hnd : t.keys.Nodup) : Tallies (mergeCounts m t) (fun k => f k + g k) := by
  intro k
  rw [get?_mergeCounts t hnd, hm k, ht k]
  by_cases h1 : f k = 0 <;> by_cases h2 : g k = 0 <;> simp [h1, h2, addCounts]

/-! ## The analyzer -/

theorem getKeyForEntry_eq (a : LogAnalyzer) (e : LogEntry) :
    a.getKeyForEntry e = dimensionField a.request_.type e := by
  unfold LogAnalyzer.getKeyForEntry dimensionField
  cases a.request_.type <;> rfl

/-- The counting loop adds, for every key, the number of records that pass the
date filter and carry that key, and bumps `entriesProcessed` once per such
record. -/
theorem countEntries_spec (a : LogAnalyzer) : ∀ (es : List LogEntry) (c : CountMap) (n : Int)
    (f : Str → Nat), Tallies c f → c.keys.Nodup →
    Tallies (a.countEntries es (c, n)).1
        (fun k => f k + (es.filter (fun e =>
          isDateInRange e.timestamp a.request_.startDate a.request_.endDate)).countP
            (fun e => decide (dimensionField a.request_.type e = k))) ∧
      (a.countEntries es (c, n)).1.keys.Nodup ∧
      (a.countEntries es (c, n)).2 = n + ((es.filter (fun e =>
          isDateInRange e.timestamp a.request_.startDate a.request_.endDate)).length : Int) ∧
      (a.countEntries es (c, n)).1.total - c.total = (a.countEntries es (c, n)).2 - n := by
  intro es
  induction es with
  | nil =>
    intro c n f hc hnd
    simp only [LogAnalyzer.countEntries, List.filter_nil, List.countP_nil, List.length_nil]
    exact ⟨by simpa using hc, hnd, by simp, by simp⟩
  | cons e es ih =>
    intro c n f hc hnd
    by_cases hin : isDateInRange e.timestamp a.request_.startDate a.request_.endDate = true
    · obtain ⟨h1, h2, h3, h4⟩ := ih (c.add (a.getKeyForEntry e) 1) (n + 1) _
        (hc.add_one (a.getKeyForEntry e)) (CountMap.nodup_add _ _ _ hnd)
      simp only [LogAnalyzer.countEntries, hin, if_true, List.filter_cons, List.countP_cons,
        List.length_cons]
      refine ⟨?_, h2, ?_, ?_⟩
      · intro k
        rw [h1 k]
        have hnum : (f k + if k = a.getKeyForEntry e then 1 else 0) =
            f k + if decide (dimensionField a.request_.type e = k) = true then 1 else 0 := by
          rw [getKeyForEntry_eq]
          by_cases hk : dimensionField a.request_.type e = k
          · simp [hk]
          · have hk' : ¬ k = dimensionField a.request_.type e := fun h => hk h.symm
            simp [hk, hk']
        have hswap : ∀ x y z : Nat, x + y + z = x + (z + y) := by intros; omega
        beta_reduce
        rw [hnum, hswap]
      · rw [h3]; push_cast; ring
      · rw [CountMap.total_add] at h4
        linarith
    · simp only [Bool.not_eq_true] at hin
      obtain ⟨h1, h2, h3, h4⟩ := ih c n f hc hnd
      simp only [LogAnalyzer.countEntries, hin, Bool.false_eq_true, if_false, List.filter_cons]
      exact ⟨h1, h2, h3, h4⟩

theorem analyzeFile_spec (parse : Parser) (fs : FileSystem) (a : LogAnalyzer) (filename : Str) :
    Tallies (a.analyzeFile parse fs filename).1
        (fun k => ((recordsOf parse fs filename).filter (fun e =>
          isDateInRange e.timestamp a.request_.startDate a.request_.endDate)).countP
            (fun e => decide (dimensionField a.request_.type e = k))) ∧
      (a.analyzeFile parse fs filename).1.keys.Nodup ∧
      (a.analyzeFile parse fs filename).1.total = (((recordsOf parse fs filename).filter (fun e =>
          isDateInRange e.timestamp a.request_.startDate a.request_.endDate)).length : Int) ∧
      (a.analyzeFile parse fs filename).2 = { a with result_ := { a.result_ with
        totalEntries := a.result_.totalEntries + (a.analyzeFile parse fs filename).1.total } } := by
  unfold LogAnalyzer.analyzeFile recordsOf
  cases hr : fs.read filename with
  | none =>
    refine ⟨?_, ?_, ?_, ?_⟩ <;> simp [Tallies, CountMap.get?, CountMap.keys, CountMap.total]
  | some content =>
    cases hp : parse filename content with
    | none =>
      refine ⟨?_, ?_, ?_, ?_⟩ <;>
        simp [hp, Tallies, CountMap.get?, CountMap.keys, CountMap.total]
    | some entries =>
      obtain ⟨h1, h2, h3, h4⟩ := countEntries_spec a entries [] 0 (fun _ => 0) Tallies.empty
        (by simp [CountMap.keys])
      have ht0 : CountMap.total [] = 0 := by simp [CountMap.total]
      simp only [hp, Option.getD_some]
      refine ⟨?_, h2, ?_, ?_⟩
      · simpa using h1
      · rw [ht0] at h4; rw [h3] at h4; linarith
      · rw [ht0] at h4
        have : (a.countEntries entries ([], 0)).2 = (a.countEntries entries ([], 0)).1.total := by
          linarith
        rw [this]

theorem runTasks_cons (parse : Parser) (fs : FileSystem) (a : LogAnalyzer) (f : Str)
    (files : List Str) :
    LogAnalyzer.runTasks parse fs a (f :: files) =
      ((a.analyzeFile parse fs f).1 ::
          (LogAnalyzer.runTasks parse fs (a.analyzeFile parse fs f).2 files).1,
        (LogAnalyzer.runTasks parse fs (a.analyzeFile parse fs f).2 files).2) := rfl

/-- Running the tasks leaves the request and the shared counts alone and adds
the size of every tally to `totalEntries`. -/
theorem runTasks_state (parse : Parser) (fs : FileSystem) : ∀ (files : List Str) (a : LogAnalyzer),
    (LogAnalyzer.runTasks parse fs a files).2 = { a with result_ := { a.result_ with
      totalEntries := a.result_.totalEntries +
        ((LogAnalyzer.runTasks parse fs a files).1.map CountMap.total).sum } } := by
  intro files
  induction files with
  | nil => intro a; simp [LogAnalyzer.runTasks]
  | cons f files ih =>
    intro a
    rw [runTasks_cons]
    simp only [List.map_cons, List.sum_cons]
    rw [ih, (analyzeFile_spec parse fs a f).2.2.2]
    simp only [add_assoc]

/-- The merge loop of `analyze` only changes the shared counts. -/
theorem mergeLoop_eq (futures : List CountMap) : ∀ (a : LogAnalyzer),
    futures.foldl (fun (acc : LogAnalyzer) fileCounts =>
      { acc with result_ :=
        { acc.result_ with counts := mergeCounts acc.result_.counts fileCounts } }) a =
    { a with result_ := { a.result_ with
        counts := futures.foldl mergeCounts a.result_.counts } } := by
  induction futures with
  | nil => intro a; rfl
  | cons t ts ih => intro a; simp only [List.foldl_cons]; rw [ih]

theorem analyze_eq (parse : Parser) (fs : FileSystem) (a : LogAnalyzer) (files : List Str) :
    (a.analyze parse fs files).2 = { a with result_ := { a.result_ with
        counts := (LogAnalyzer.runTasks parse fs a files).1.foldl mergeCounts a.result_.counts,
        totalEntries := a.result_.totalEntries +
          ((LogAnalyzer.runTasks parse fs a files).1.map CountMap.total).sum } } ∧
      (a.analyze parse fs files).1 = (a.analyze parse fs files).2.result_ := by
  unfold LogAnalyzer.analyze
  simp only [mergeLoop_eq, and_true]
  rw [runTasks_state]

theorem total_foldl_merge (futures : List CountMap) : ∀ (m : CountMap),
    (futures.foldl mergeCounts m).total = m.total + (futures.map CountMap.total).sum := by
  induction futures with
  | nil => intro m; simp
  | cons t ts ih =>
    intro m
    simp only [List.foldl_cons, List.map_cons, List.sum_cons]
    rw [ih, total_mergeCounts]; ring

theorem countedRecords_cons (parse : Parser) (fs : FileSystem) (request : AnalysisRequest)
    (f : Str) (files : List Str) :
    countedRecords parse fs request (f :: files) =
      (recordsOf parse fs f).filter
          (fun e => isDateInRange e.timestamp request.startDate request.endDate) ++
        countedRecords parse fs request files := by
  simp [countedRecords]

theorem runTasks_request (parse : Parser) (fs : FileSystem) (a : LogAnalyzer) (files : List Str) :
    (LogAnalyzer.runTasks parse fs a files).2.request_ = a.request_ := by
  rw [runTasks_state]

/-- Merging the tallies of the tasks adds the reference counts of the files. -/
theorem runTasks_tallies (parse : Parser) (fs : FileSystem) : ∀ (files : List Str)
    (a : LogAnalyzer) (m : CountMap) (g : Str → Nat), Tallies m g → m.keys.Nodup →
    Tallies ((LogAnalyzer.runTasks parse fs a files).1.foldl mergeCounts m)
        (fun k => g k + referenceCount parse fs a.request_ files k) ∧
      ((LogAnalyzer.runTasks parse fs a files).1.foldl mergeCounts m).keys.Nodup ∧
      (((LogAnalyzer.runTasks parse fs a files).1.map CountMap.total).sum : Int) =
        ((countedRecords parse fs a.request_ files).length : Int) := by
  intro files
  induction files with
  | nil =>
    intro a m g hm hnd
    simp only [LogAnalyzer.runTasks, List.foldl_nil, referenceCount, countedRecords,
      List.flatMap_nil, List.filter_nil, List.countP_nil, add_zero, List.map_nil, List.sum_nil,
      List.length_nil, Nat.cast_zero, and_true]
    exact ⟨hm, hnd⟩
  | cons f files ih =>
    intro a m g hm hnd
    obtain ⟨ht, htn, htt, hst⟩ := analyzeFile_spec parse fs a f
    have hreq : (a.analyzeFile parse fs f).2.request_ = a.request_ := by rw [hst]
    obtain ⟨h1, h2, h3⟩ := ih (a.analyzeFile parse fs f).2
      (mergeCounts m (a.analyzeFile parse fs f).1) _ (hm.merge ht htn)
      (keys_mergeCounts_nodup _ _ hnd)
    rw [hreq] at h1 h3
    rw [runTasks_cons]
    simp only [List.foldl_cons, List.map_cons, List.sum_cons]
    refine ⟨?_, h2, ?_⟩
    · intro k
      rw [h1 k]
      simp only [referenceCount, countedRecords_cons, List.countP_append, Nat.add_assoc]
    · rw [h3, htt, countedRecords_cons]
      simp

/-! ## String comparison and the date filter -/

theorem strCompare_cons_cons (a b : Char) (as bs : Str) :
    strCompare (a :: as) (b :: bs) =
      if a < b then -1 else if b < a then 1 else strCompare as bs := by
  unfold strCompare
  simp only [traitsCompare]
  by_cases h1 : a < b
  · simp [h1]
  · by_cases h2 : b < a
    · simp [h1, h2]
    · simp only [h1, h2, if_false, List.length_cons, Nat.cast_add, Nat.cast_one]
      have : ((as.length : Int) + 1 - ((bs.length : Int) + 1)) = (as.length : Int) - bs.length := by
        ring
      rw [this]

theorem strCompare_nil_left (b : Str) : strCompare [] b = - (b.length : Int) := by
  unfold strCompare
  cases b <;> simp [traitsCompare]

theorem strCompare_nil_right (a : Str) : strCompare a [] = (a.length : Int) := by
  unfold strCompare
  cases a <;> simp [traitsCompare]

/-- The operator `<` of `std::string` is the lexicographic order. -/
theorem strCompare_neg_iff : ∀ (a b : Str), strCompare a b < 0 ↔ a < b := by
  intro a
  induction a with
  | nil =>
    intro b
    rw [strCompare_nil_left]
    cases b with
    | nil => simp
    | cons c cs =>
      simp only [List.length_cons, Nat.cast_add, Nat.cast_one]
      constructor
      · intro _; exact List.Lex.nil
      · intro _; omega
  | cons c cs ih =>
    intro b
    cases b with
    | nil =>
      rw [strCompare_nil_right]
      simp only [List.length_cons, Nat.cast_add, Nat.cast_one]
      constructor
      · intro h; omega
      · intro h; cases h
    | cons d ds =>
      rw [strCompare_cons_cons]
      by_cases h1 : c < d
      · simp only [h1, if_true]
        exact ⟨fun _ => List.Lex.rel h1, fun _ => by norm_num⟩
      · by_cases h2 : d < c
        · simp only [h1, h2, if_false, if_true]
          constructor
          · intro h; norm_num at h
          · intro h
            cases h with
            | rel h => exact absurd h h1
            | cons h => exact absurd h2 (lt_irrefl _)
        · have hcd : c = d := le_antisymm (not_lt.1 h2) (not_lt.1 h1)
          subst hcd
          simp only [h1, if_false, ih ds]
          constructor
          · intro h; exact List.Lex.cons h
          · intro h
            cases h with
            | rel h => exact absurd h h1
            | cons h => exact h

theorem strCompare_pos_iff : ∀ (a b : Str), 0 < strCompare a b ↔ b < a := by
  intro a
  induction a with
  | nil =>
    intro b
    rw [strCompare_nil_left]
    constructor
    · intro h; omega
    · intro h; cases h
  | cons c cs ih =>
    intro b
    cases b with
    | nil =>
      rw [strCompare_nil_right]
      simp only [List.length_cons, Nat.cast_add, Nat.cast_one]
      constructor
      · intro _; exact List.Lex.nil
      · intro _; omega
    | cons d ds =>
      rw [strCompare_cons_cons]
      by_cases h1 : c < d
      · simp only [h1, if_true]
        constructor
        · intro h; norm_num at h
        · intro h
          cases h with
          | rel h => exact absurd h (lt_asymm h1)
          | cons h => exact absurd h1 (lt_irrefl _)
      · by_cases h2 : d < c
        · simp only [h1, h2, if_false, if_true]
          exact ⟨fun _ => List.Lex.rel h2, fun _ => by norm_num⟩
        · have hcd : c = d := le_antisymm (not_lt.1 h2) (not_lt.1 h1)
          subst hcd
          simp only [h1, if_false, ih ds]
          constructor
          · intro h; exact List.Lex.cons h
          · intro h
            cases h with
            | rel h => exact absurd h h1
            | cons h => exact h

theorem strLt_iff (a b : Str) : strLt a b = true ↔ a < b := by
  simp [strLt, strCompare_neg_iff]

theorem strGt_iff (a b : Str) : strGt a b = true ↔ b < a := by
  simp [strGt, strCompare_pos_iff]

theorem isDateInRange_iff (d : Str) (startDate endDate : Option Str) :
    isDateInRange d startDate endDate = true ↔
      (∀ start, startDate = some start → start ≤ d) ∧
        (∀ stop, endDate = some stop → d ≤ stop) := by
  unfold isDateInRange
  cases startDate with
  | none =>
    cases endDate with
    | none => simp
    | some stop =>
      by_cases h : strGt d stop = true
      · have := (strGt_iff d stop).1 h
        simp [h, not_le.2 this]
      · have := mt (strGt_iff d stop).2 h
        simp [h, not_lt.1 this]
  | some start =>
    by_cases h0 : strLt d start = true
    · have := (strLt_iff d start).1 h0
      simp [h0, not_le.2 this]
    · have hs := not_lt.1 (mt (strLt_iff d start).2 h0)
      cases endDate with
      | none => simp [h0, hs]
      | some stop =>
        by_cases h : strGt d stop = true
        · have := (strGt_iff d stop).1 h
          simp [h0, h, not_le.2 this]
        · have := mt (strGt_iff d stop).2 h
          simp [h0, h, hs, not_lt.1 this]

/-- What `analyze` returns on a fresh analyzer. -/
theorem analyze_fresh_spec (parse : Parser) (fs : FileSystem) (request : AnalysisRequest)
    (logFiles : List Str) :
    ((LogAnalyzer.new request).analyze parse fs logFiles).1.type = request.type ∧
      ((LogAnalyzer.new request).analyze parse fs logFiles).1.totalEntries =
        ((countedRecords parse fs request logFiles).length : Int) ∧
      (∀ k, ((LogAnalyzer.new request).analyze parse fs logFiles).1.counts.get? k =
        if referenceCount parse fs request logFiles k = 0 then none
        else some (referenceCount parse fs request logFiles k : Int)) := by
  obtain ⟨hst, hres⟩ := analyze_eq parse fs (LogAnalyzer.new request) logFiles
  obtain ⟨h1, _, h3⟩ := runTasks_tallies parse fs logFiles (LogAnalyzer.new request) []
    (fun _ => 0) Tallies.empty (by simp [CountMap.keys])
  refine ⟨?_, ?_, ?_⟩
  · rw [hres, hst]; rfl
  · rw [hres, hst]
    simp only [LogAnalyzer.new, zero_add]
    exact h3
  · intro k
    rw [hres, hst]
    have := h1 k
    simpa [LogAnalyzer.new] using this

theorem countedRecords_perm (parse : Parser) (fs : FileSystem) (request : AnalysisRequest)
    {files1 files2 : List Str} (h : files1.Perm files2) :
    (countedRecords parse fs request files1).Perm (countedRecords parse fs request files2) :=
  (List.Perm.flatMap_right _ h).filter _

/-! ## Message sequences on a socket -/

theorem send_keeps (s : Socket) (buf : Str) :
    (send s buf).2.incoming = s.incoming ∧ (send s buf).2.recvPlan = s.recvPlan ∧
      (send s buf).2.log = s.log := by
  unfold send
  cases s.sendPlan with
  | nil => exact ⟨rfl, rfl, rfl⟩
  | cons r plan =>
    by_cases hr : r ≤ 0
    · simp [hr]
    · simp [hr]

theorem sendBody_keeps : ∀ (fuel : Nat) (s : Socket) (rest : Str),
    (sendBody fuel s rest).2.incoming = s.incoming ∧
      (sendBody fuel s rest).2.recvPlan = s.recvPlan ∧
      (sendBody fuel s rest).2.log = s.log := by
  intro fuel
  induction fuel with
  | zero => intro s rest; exact ⟨rfl, rfl, rfl⟩
  | succ f ih =>
    intro s rest
    unfold sendBody
    by_cases he : rest.isEmpty = true
    · simp [he]
    · simp only [he, Bool.false_eq_true, if_false]
      obtain ⟨h1, h2, h3⟩ := send_keeps s (rest.take (min rest.length BUFFER_SIZE))
      by_cases hs : (send s (rest.take (min rest.length BUFFER_SIZE))).1 ≤ 0
      · simp only [hs, if_true]; exact ⟨h1, h2, h3⟩
      · simp only [hs, if_false]
        obtain ⟨g1, g2, g3⟩ := ih (send s (rest.take (min rest.length BUFFER_SIZE))).2
          (rest.drop (send s (rest.take (min rest.length BUFFER_SIZE))).1.toNat)
        exact ⟨g1.trans h1, g2.trans h2, g3.trans h3⟩

/-- Sending never touches the reading side of the socket and adds one event to
the log. -/
theorem sendMessage_keeps (s : Socket) (t : Char) (p : Str) :
    (sendMessage s t p).2.incoming = s.incoming ∧
      (sendMessage s t p).2.recvPlan = s.recvPlan ∧
      (sendMessage s t p).2.log = s.log ++ [.sent t p (sendMessage s t p).1] := by
  unfold sendMessage
  obtain ⟨h1, h2, h3⟩ := send_keeps s ((t :: hexWidth8 p.length).take 9)
  by_cases h9 : (send s ((t :: hexWidth8 p.length).take 9)).1 = 9
  · simp only [h9, ne_eq, not_true_eq_false, if_false]
    by_cases he : p.isEmpty = true
    · simp only [he, Bool.not_true, Bool.false_eq_true, if_false, Socket.record]
      exact ⟨h1, h2, by rw [h3]⟩
    · simp only [he, Bool.not_false, if_true, Socket.record]
      obtain ⟨g1, g2, g3⟩ := sendBody_keeps p.length
        (send s ((t :: hexWidth8 p.length).take 9)).2 p
      exact ⟨g1.trans h1, g2.trans h2, by rw [g3, h3]⟩
  · simp only [ne_eq, h9, not_false_eq_true, if_true, Socket.record]
    exact ⟨h1, h2, by rw [h3]⟩

theorem recv_empty (s : Socket) (len : Nat) (h : s.incoming = []) : (recv s len).1 ≤ 0 := by
  unfold recv
  cases s.recvPlan with
  | nil => simp [h]
  | cons r plan =>
    by_cases hr : r ≤ 0
    · simp only [hr, if_true]
    · simp [hr, h]

/-- At the end of the connection `receiveMessage` returns false. -/
theorem receiveMessage_closed (s : Socket) (h : s.incoming = []) :
    (receiveMessage s).1 = .ret none := by
  have hr := recv_empty s 9 h
  unfold receiveMessage
  have hh : (recvHeader 9 s []).1 = none := by
    simp only [recvHeader, List.length_nil, Nat.sub_zero, Nat.lt_succ_self, if_true,
      Nat.zero_lt_succ, hr]
  cases hrh : recvHeader 9 s [] with
  | mk o s1 =>
    rw [hrh] at hh
    simp only at hh
    subst hh
    rfl

theorem wireAll_cons (m : Message) (msgs : List Message) :
    wireAll (m :: msgs) = wire m.1 m.2 ++ wireAll msgs := by
  simp [wireAll]

theorem wireAll_append (a b : List Message) : wireAll (a ++ b) = wireAll a ++ wireAll b := by
  simp [wireAll]

theorem Feeds.nil_incoming {s : Socket} (h : Feeds s []) : s.incoming = [] := by
  simpa [wireAll] using h.1

/-- Reading the next message of the sequence the socket delivers. -/
theorem receiveMessage_feeds (s : Socket) (m : Message) (msgs : List Message)
    (h : Feeds s (m :: msgs)) :
    ∃ s1, receiveMessage s = (.ret (some m), s1) ∧ Feeds s1 msgs ∧
      s1.outgoing = s.outgoing ∧ s1.sendPlan = s.sendPlan ∧
      s1.log = s.log ++ [.received m.1 m.2] := by
  obtain ⟨hin, hplan, hlen⟩ := h
  rw [wireAll_cons] at hin
  obtain ⟨plan1, hsuf, hrecv⟩ := receiveMessage_wire s m.1 m.2 (wireAll msgs)
    (hlen m (by simp)) hin hplan
  refine ⟨_, hrecv, ⟨rfl, PlanPositive.of_suffix hsuf hplan, ?_⟩, rfl, rfl, rfl⟩
  intro x hx
  exact hlen x (by simp [hx])

theorem Feeds.after_send {s : Socket} {msgs : List Message} (h : Feeds s msgs) (t : Char)
    (p : Str) : Feeds (sendMessage s t p).2 msgs := by
  obtain ⟨h1, h2, _⟩ := sendMessage_keeps s t p
  exact ⟨h1.trans h.1, by rw [h2]; exact h.2.1, h.2.2⟩

theorem wire_length_pos (t : Char) (p : Str) (h : p.length < 2 ^ 32) :
    0 < (wire t p).length := by
  rw [wire_eq t p h]; simp

theorem wireAll_length (msgs : List Message) (h : ∀ m ∈ msgs, m.2.length < 2 ^ 32) :
    msgs.length ≤ (wireAll msgs).length := by
  induction msgs with
  | nil => simp
  | cons m ms ih =>
    rw [wireAll_cons, List.length_append, List.length_cons]
    have := wire_length_pos m.1 m.2 (h m (by simp))
    have := ih (fun x hx => h x (by simp [hx]))
    omega

/-! ## Files -/

theorem find?_putFile (files : List (Location × Str)) (loc : Location) (content : Str) :
    (putFile files loc content).find? (fun f => f.1 = loc) = some (loc, content) := by
  induction files with
  | nil => simp [putFile]
  | cons f fs ih =>
    obtain ⟨p, c⟩ := f
    by_cases h : p = loc
    · simp [putFile, h]
    · simp only [putFile, h, if_false, List.find?_cons, decide_False]
      exact ih

theorem read_putFile (fs : FileSystem) (path content : Str) :
    (fs.written path content).read path = some content := by
  simp only [FileSystem.read, FileSystem.written, find?_putFile, Option.map_some']

theorem putFile_putFile (files : List (Location × Str)) (loc : Location) (c c' : Str) :
    putFile (putFile files loc c) loc c' = putFile files loc c' := by
  induction files with
  | nil => simp [putFile]
  | cons f fs ih =>
    obtain ⟨p, d⟩ := f
    by_cases h : p = loc
    · simp [putFile, h]
    · simp [putFile, h, ih]

theorem written_written (fs : FileSystem) (path c c' : Str) :
    (fs.written path c).written path c' = fs.written path c' := by
  simp only [FileSystem.written, putFile_putFile]

/-- Writing the chunks one after the other appends their concatenation. -/
theorem writeChunks_eq (path : Str) : ∀ (cs : List Message) (fs : FileSystem) (c0 : Str),
    cs.foldl (fun (fs : FileSystem) m => fs.append path m.2) (fs.written path c0) =
      fs.written path (c0 ++ (cs.map Prod.snd).flatten) := by
  intro cs
  induction cs with
  | nil => intro fs c0; simp
  | cons m cs ih =>
    intro fs c0
    simp only [List.foldl_cons, List.map_cons, List.flatten_cons]
    have h : FileSystem.append (fs.written path c0) path m.2 = fs.written path (c0 ++ m.2) := by
      simp only [FileSystem.append, read_putFile, Option.getD_some, written_written]
    rw [h, ih, List.append_assoc]

/-! ## The server loops on a message sequence -/

/-- A run of chunks closed by a FileEnd completes the open file: every chunk
is written, one Ack is sent, and the messages after the FileEnd are unread. -/
theorem receiveChunks_accept (path : Str) (q : Str) (post : List Message) :
    ∀ (cs : List Message) (fuel : Nat) (s : Socket) (fs : FileSystem),
    (∀ m ∈ cs, m.1 = MSG_FILE_CHUNK) → Feeds s (cs ++ (MSG_FILE_END, q) :: post) →
    cs.length < fuel →
    ∃ s', LogServer.receiveChunks fuel s fs path =
        (.ret true, s', cs.foldl (fun (fs : FileSystem) m => fs.append path m.2) fs) ∧
      Feeds s' post ∧
      s'.log.map Event.forgetOk = s.log.map Event.forgetOk ++
        (cs ++ [(MSG_FILE_END, q)]).map (fun m => Event.received m.1 m.2) ++
        [Event.sent MSG_ACK "File received".toList true] ∧
      (s.sendPlan = [] → s'.sendPlan = [] ∧
        s'.outgoing = s.outgoing ++ wire MSG_ACK "File received".toList) := by
  intro cs
  induction cs with
  | nil =>
    intro fuel s fs _ hfeeds hfuel
    obtain ⟨f, rfl⟩ : ∃ f, fuel = f + 1 := ⟨fuel - 1, by simp at hfuel; omega⟩
    obtain ⟨s1, hrecv, hf1, hout, hsp, hlog⟩ := receiveMessage_feeds s _ _ hfeeds
    refine ⟨(sendMessage s1 MSG_ACK "File received".toList).2, ?_, hf1.after_send _ _, ?_, ?_⟩
    · unfold LogServer.receiveChunks
      rw [hrecv]
      have hne : ¬ MSG_FILE_END = MSG_FILE_CHUNK := by decide
      simp only [hne, if_false, if_true, List.foldl_nil]
    · rw [(sendMessage_keeps s1 MSG_ACK "File received".toList).2.2, hlog]
      simp [Event.forgetOk]
    · intro hs
      have hlen : "File received".toList.length < 2 ^ 32 := by decide
      rw [sendMessage_ideal s1 _ _ (hsp.trans hs), header_take _ _ hlen, ← wire_eq _ _ hlen]
      exact ⟨hsp.trans hs, by rw [hout]⟩
  | cons m cs ih =>
    intro fuel s fs hcs hfeeds hfuel
    obtain ⟨f, rfl⟩ : ∃ f, fuel = f + 1 := ⟨fuel - 1, by simp at hfuel; omega⟩
    obtain ⟨t, p⟩ := m
    have ht : t = MSG_FILE_CHUNK := hcs (t, p) (by simp)
    subst ht
    obtain ⟨s1, hrecv, hf1, hout, hsp, hlog⟩ := receiveMessage_feeds s _ _ hfeeds
    obtain ⟨s', hrun, hf', hlog', hid⟩ := ih f s1 (fs.append path p)
      (fun x hx => hcs x (by simp [hx])) hf1 (by simp at hfuel; omega)
    refine ⟨s', ?_, hf', ?_, ?_⟩
    · unfold LogServer.receiveChunks
      rw [hrecv]
      simp only [if_true, List.foldl_cons]
      exact hrun
    · rw [hlog', hlog]
      simp [Event.forgetOk]
    · intro hs
      obtain ⟨i1, i2⟩ := hid (hsp.trans hs)
      exact ⟨i1, by rw [i2, hout]⟩

/-- The chunk loop either gives up or has met a run of chunks closed by a
FileEnd. -/
theorem receiveChunks_cases (path : Str) : ∀ (msgs : List Message) (fuel : Nat) (s : Socket)
    (fs : FileSystem), Feeds s msgs → msgs.length < fuel →
    (LogServer.receiveChunks fuel s fs path).1 = .ret false ∨
      ∃ cs q post, msgs = cs ++ (MSG_FILE_END, q) :: post ∧ ∀ m ∈ cs, m.1 = MSG_FILE_CHUNK := by
  intro msgs
  induction msgs with
  | nil =>
    intro fuel s fs hfeeds hfuel
    obtain ⟨f, rfl⟩ : ∃ f, fuel = f + 1 := ⟨fuel - 1, by simp at hfuel; omega⟩
    left
    have hc := receiveMessage_closed s hfeeds.nil_incoming
    unfold LogServer.receiveChunks
    cases hr : receiveMessage s with
    | mk o s1 =>
      rw [hr] at hc
      simp only at hc
      subst hc
      rfl
  | cons m msgs ih =>
    intro fuel s fs hfeeds hfuel
    obtain ⟨f, rfl⟩ : ∃ f, fuel = f + 1 := ⟨fuel - 1, by simp at hfuel; omega⟩
    obtain ⟨t, p⟩ := m
    obtain ⟨s1, hrecv, hf1, _, _, _⟩ := receiveMessage_feeds s _ _ hfeeds
    by_cases hc : t = MSG_FILE_CHUNK
    · subst hc
      rcases ih f s1 (fs.append path p) hf1 (by simp at hfuel; omega) with h | ⟨cs, q, post, h, hcs⟩
      · left
        unfold LogServer.receiveChunks
        rw [hrecv]
        simp only [if_true]
        exact h
      · right
        refine ⟨(MSG_FILE_CHUNK, p) :: cs, q, post, by rw [h]; rfl, ?_⟩
        intro x hx
        rcases List.mem_cons.1 hx with hx | hx
        · rw [hx]
        · exact hcs x hx
    · by_cases he : t = MSG_FILE_END
      · subst he
        right
        exact ⟨[], p, msgs, rfl, by simp⟩
      · left
        unfold LogServer.receiveChunks
        rw [hrecv]
        simp only [hc, he, if_false]

theorem writeChunks_canCreate (path : Str) : ∀ (cs : List Message) (fs : FileSystem),
    (cs.foldl (fun (fs : FileSystem) m => fs.append path m.2) fs).canCreate = fs.canCreate := by
  intro cs
  induction cs with
  | nil => intro fs; rfl
  | cons m cs ih => intro fs; simp only [List.foldl_cons]; rw [ih]; rfl

/-- A FileEnd met outside a file ends the transfer. -/
theorem transferLoop_end (tempDir q : Str) (post : List Message) (fuel : Nat) (s : Socket)
    (fs : FileSystem) (hfeeds : Feeds s ((MSG_FILE_END, q) :: post)) :
    ∃ s', LogServer.transferLoop (fuel + 1) s fs tempDir = (.ret true, s', fs) ∧
      Feeds s' post ∧ s'.log = s.log ++ [Event.received MSG_FILE_END q] ∧
      s'.sendPlan = s.sendPlan ∧ s'.outgoing = s.outgoing := by
  obtain ⟨s1, hrecv, hf1, hout, hsp, hlog⟩ := receiveMessage_feeds s _ _ hfeeds
  refine ⟨s1, ?_, hf1, hlog, hsp, hout⟩
  unfold LogServer.transferLoop
  rw [hrecv]
  simp only [if_true]

/-- One file group met outside a file: the file is created under the scratch
directory, filled with the chunks and acknowledged, and the loop goes on with
the messages after the group. -/
theorem transferLoop_group (tempDir name q : Str) (cs post : List Message) (fuel : Nat)
    (s : Socket) (fs : FileSystem) (hcs : ∀ m ∈ cs, m.1 = MSG_FILE_CHUNK)
    (hfeeds : Feeds s ((MSG_FILE_START, name) :: cs ++ (MSG_FILE_END, q) :: post))
    (hfuel : cs.length < fuel)
    (hcreate : fs.canCreate (tempDir ++ "/".toList ++ name) = true) :
    ∃ s', LogServer.transferLoop (fuel + 1) s fs tempDir =
        LogServer.transferLoop fuel s'
          (fs.written (tempDir ++ "/".toList ++ name) (((cs.map Prod.snd).flatten))) tempDir ∧
      Feeds s' post ∧
      s'.log.map Event.forgetOk = s.log.map Event.forgetOk ++
        groupTranscript ((MSG_FILE_START, name) :: cs ++ [(MSG_FILE_END, q)]) ∧
      (s.sendPlan = [] → s'.sendPlan = [] ∧
        s'.outgoing = s.outgoing ++ wire MSG_ACK "File received".toList) := by
  obtain ⟨s1, hrecv, hf1, hout, hsp, hlog⟩ := receiveMessage_feeds s _ _ hfeeds
  obtain ⟨s', hrun, hf', hlog', hid⟩ := receiveChunks_accept (tempDir ++ "/".toList ++ name) q
    post cs fuel s1 (fs.written (tempDir ++ "/".toList ++ name) ([])) hcs hf1 hfuel
  rw [writeChunks_eq, List.nil_append] at hrun
  refine ⟨s', ?_, hf', ?_, ?_⟩
  · have hne : ¬ MSG_FILE_START = MSG_FILE_END := by decide
    rw [LogServer.transferLoop, hrecv]
    simp only [hne, if_false, if_true, FileSystem.create, hcreate, hrun]
  · rw [hlog', hlog]
    simp [groupTranscript, Event.forgetOk]
  · intro hs
    obtain ⟨i1, i2⟩ := hid (hsp.trans hs)
    exact ⟨i1, by rw [i2, hout]⟩

/-- An accepted transfer: after the file groups and the closing FileEnd the
loop returns true, has sent one Ack right after each group, and has left what
follows the closing FileEnd unread. -/
theorem transferLoop_accept (tempDir q : Str) (post : List Message) :
    ∀ (groups : List (List Message)) (fuel : Nat) (s : Socket) (fs : FileSystem),
    (∀ g ∈ groups, IsFileGroup g) →
    Feeds s (groups.flatten ++ (MSG_FILE_END, q) :: post) →
    groups.flatten.length < fuel → (∀ path, fs.canCreate path = true) →
    ∃ s' fs', LogServer.transferLoop fuel s fs tempDir = (.ret true, s', fs') ∧
      Feeds s' post ∧
      s'.log.map Event.forgetOk = s.log.map Event.forgetOk ++
        groups.flatMap groupTranscript ++ [Event.received MSG_FILE_END q] ∧
      (s.sendPlan = [] → s'.outgoing = s.outgoing ++
        (List.replicate groups.length (wire MSG_ACK "File received".toList)).flatten) := by
  intro groups
  induction groups with
  | nil =>
    intro fuel s fs _ hfeeds hfuel _
    obtain ⟨f, rfl⟩ : ∃ f, fuel = f + 1 := ⟨fuel - 1, by simp at hfuel; omega⟩
    simp only [List.flatten_nil, List.nil_append] at hfeeds
    obtain ⟨s', hrun, hf', hlog, _, hout⟩ := transferLoop_end tempDir q post f s fs hfeeds
    refine ⟨s', fs, hrun, hf', ?_, ?_⟩
    · rw [hlog]
      simp [Event.forgetOk]
    · intro _; simp [hout]
  | cons g groups ih =>
    intro fuel s fs hg hfeeds hfuel hcreate
    obtain ⟨name, cs, q1, rfl, hcs⟩ := hg g (by simp)
    obtain ⟨f, rfl⟩ : ∃ f, fuel = f + 1 := ⟨fuel - 1, by simp at hfuel; omega⟩
    have hfeeds1 : Feeds s ((MSG_FILE_START, name) :: cs ++
        (MSG_FILE_END, q1) :: (groups.flatten ++ (MSG_FILE_END, q) :: post)) := by
      simpa using hfeeds
    simp only [List.flatten_cons, List.length_append, List.length_cons, List.length_nil]
      at hfuel
    obtain ⟨s1, hstep, hf1, hlog1, hid1⟩ := transferLoop_group tempDir name q1 cs _ f s fs hcs
      hfeeds1 (by omega) (hcreate _)
    obtain ⟨s', fs', hrun, hf', hlog', hid'⟩ := ih f s1
      (fs.written (tempDir ++ "/".toList ++ name) (((cs.map Prod.snd).flatten)))
      (fun x hx => hg x (by simp [hx])) hf1 (by omega) (fun path => hcreate path)
    refine ⟨s', fs', by rw [hstep, hrun], hf', ?_, ?_⟩
    · rw [hlog', hlog1]
      simp [List.flatMap_cons]
    · intro hs
      obtain ⟨i1, i2⟩ := hid1 hs
      rw [hid' i1, i2]
      simp [List.replicate_succ]

/-- The transfer loop never raises on a well-formed message sequence, and it
returns true only when a prefix of the sequence is a whole transfer. -/
theorem transferLoop_cases (tempDir : Str) : ∀ (n : Nat) (msgs : List Message), msgs.length ≤ n →
    ∀ (fuel : Nat) (s : Socket) (fs : FileSystem), Feeds s msgs → msgs.length < fuel →
    (∀ path, fs.canCreate path = true) →
    (LogServer.transferLoop fuel s fs tempDir).1 = .ret false ∨
      ((LogServer.transferLoop fuel s fs tempDir).1 = .ret true ∧
        ∃ pre post, msgs = pre ++ post ∧ IsTransfer pre) := by
  intro n
  induction n with
  | zero =>
    intro msgs hn fuel s fs hfeeds hfuel _
    have hnil : msgs = [] := List.eq_nil_of_length_eq_zero (by omega)
    subst hnil
    obtain ⟨f, rfl⟩ : ∃ f, fuel = f + 1 := ⟨fuel - 1, by simp at hfuel; omega⟩
    left
    have hc := receiveMessage_closed s hfeeds.nil_incoming
    unfold LogServer.transferLoop
    cases hr : receiveMessage s with
    | mk o s1 =>
      rw [hr] at hc
      simp only at hc
      subst hc
      rfl
  | succ n ih =>
    intro msgs hn fuel s fs hfeeds hfuel hcreate
    obtain ⟨f, rfl⟩ : ∃ f, fuel = f + 1 := ⟨fuel - 1, by omega⟩
    cases msgs with
    | nil =>
      left
      have hc := receiveMessage_closed s hfeeds.nil_incoming
      unfold LogServer.transferLoop
      cases hr : receiveMessage s with
      | mk o s1 =>
        rw [hr] at hc
        simp only at hc
        subst hc
        rfl
    | cons m rest =>
      obtain ⟨t, p⟩ := m
      simp only [List.length_cons] at hn hfuel
      by_cases he : t = MSG_FILE_END
      · subst he
        right
        obtain ⟨s', hrun, _, _, _, _⟩ := transferLoop_end tempDir p rest f s fs hfeeds
        rw [hrun]
        exact ⟨rfl, [(MSG_FILE_END, p)], rest, rfl, [], p, by simp, by simp⟩
      · obtain ⟨s1, hrecv, hf1, _, _, _⟩ := receiveMessage_feeds s _ _ hfeeds
        by_cases hs : t = MSG_FILE_START
        · subst hs
          rcases receiveChunks_cases (tempDir ++ "/".toList ++ p) rest f s1
              (fs.written (tempDir ++ "/".toList ++ p) ([])) hf1 (by omega) with h | ⟨cs, q, post, hrest, hcs⟩
          · left
            rw [LogServer.transferLoop, hrecv]
            simp only [he, if_false, if_true, FileSystem.create, hcreate]
            cases hrc : LogServer.receiveChunks f s1
                (fs.written (tempDir ++ "/".toList ++ p) ([])) (tempDir ++ "/".toList ++ p) with
            | mk o r =>
              rw [hrc] at h
              simp only at h
              subst h
              rfl
          · subst hrest
            simp only [List.length_append, List.length_cons] at hn hfuel
            obtain ⟨s', hstep, hf', _, _⟩ := transferLoop_group tempDir p q cs post f s fs hcs
              hfeeds (by omega) (hcreate _)
            rw [hstep]
            rcases ih post (by omega) f s'
                (fs.written (tempDir ++ "/".toList ++ p) (((cs.map Prod.snd).flatten))) hf' (by omega) (fun path => hcreate path) with
              h | ⟨h, pre, post', hpost, groups, q', hgroups, hpre⟩
            · left; exact h
            · right
              refine ⟨h, (MSG_FILE_START, p) :: cs ++ [(MSG_FILE_END, q)] ++ pre, post', ?_,
                ((MSG_FILE_START, p) :: cs ++ [(MSG_FILE_END, q)]) :: groups, q', ?_, ?_⟩
              · rw [hpost]; simp
              · intro g hg
                rcases List.mem_cons.1 hg with hg | hg
                · rw [hg]; exact ⟨p, cs, q, rfl, hcs⟩
                · exact hgroups g hg
              · rw [hpre]; simp
        · left
          rw [LogServer.transferLoop, hrecv]
          simp only [he, hs, if_false]

/-! ## The fuel given by the callers is enough -/

/-- A `recv` that reports progress stored that many bytes, at least one. -/
theorem recv_buf_length (s : Socket) (len : Nat) (h : 0 < (recv s len).1) :
    1 ≤ (recv s len).2.1.length := by
  unfold recv at h ⊢
  cases hp : s.recvPlan with
  | nil =>
    simp only [hp] at h
    simp only [List.length_take]
    omega
  | cons r plan =>
    simp only [hp] at h
    by_cases hr : r ≤ 0
    · simp only [hr, if_true] at h; omega
    · simp only [hr, if_false] at h ⊢
      simp only [List.length_take]
      omega

/-- The payload loop of `receiveMessage` does not depend on fuel beyond the
number of bytes still to read. -/
theorem recvBody_fuel : ∀ (fuel k : Nat) (s : Socket) (length : Nat) (msg : Str),
    length - msg.length ≤ fuel →
    recvBody (fuel + k) s length msg = recvBody fuel s length msg := by
  intro fuel
  induction fuel with
  | zero =>
    intro k s length msg h
    have hn : ¬ msg.length < length := by omega
    cases k with
    | zero => rfl
    | succ k => simp [recvBody, hn]
  | succ f ih =>
    intro k s length msg h
    rw [show f + 1 + k = (f + k) + 1 by omega]
    unfold recvBody
    by_cases hlt : msg.length < length
    · simp only [hlt, if_true]
      have hb := recv_buf_length s (min (length - msg.length) (BUFFER_SIZE - 1))
      rcases hrc : recv s (min (length - msg.length) (BUFFER_SIZE - 1)) with ⟨received, buf, s1⟩
      rw [hrc] at hb
      simp only at hb ⊢
      by_cases hr : received ≤ 0
      · simp only [hr, if_true]
      · simp only [hr, if_false]
        have hb1 := hb (by omega)
        exact ih k s1 length _ (by simp only [List.length_append]; omega)
    · simp only [hlt, if_false]

/-- The header loop of `receiveMessage` does not depend on fuel beyond the
number of header bytes still to read. -/
theorem recvHeader_fuel : ∀ (fuel k : Nat) (s : Socket) (header : Str),
    9 - header.length ≤ fuel →
    recvHeader (fuel + k) s header = recvHeader fuel s header := by
  intro fuel
  induction fuel with
  | zero =>
    intro k s header h
    have hn : ¬ header.length < 9 := by omega
    cases k with
    | zero => rfl
    | succ k => simp [recvHeader, hn]
  | succ f ih =>
    intro k s header h
    rw [show f + 1 + k = (f + k) + 1 by omega]
    unfold recvHeader
    by_cases hlt : header.length < 9
    · simp only [hlt, if_true]
      have hb := recv_buf_length s (9 - header.length)
      rcases hrc : recv s (9 - header.length) with ⟨received, buf, s1⟩
      rw [hrc] at hb
      simp only at hb ⊢
      by_cases hr : received ≤ 0
      · simp only [hr, if_true]
      · simp only [hr, if_false]
        have hb1 := hb (by omega)
        exact ih k s1 _ (by simp only [List.length_append]; omega)
    · simp only [hlt, if_false]

/-- The payload loop of `sendMessage` does not depend on fuel beyond the number
of bytes still to send. -/
theorem sendBody_fuel : ∀ (fuel k : Nat) (s : Socket) (rest : Str), rest.length ≤ fuel →
    sendBody (fuel + k) s rest = sendBody fuel s rest := by
  intro fuel
  induction fuel with
  | zero =>
    intro k s rest h
    have hnil : rest = [] := List.eq_nil_of_length_eq_zero (by omega)
    subst hnil
    cases k with
    | zero => rfl
    | succ k => simp [sendBody]
  | succ f ih =>
    intro k s rest h
    rw [show f + 1 + k = (f + k) + 1 by omega]
    unfold sendBody
    by_cases he : rest.isEmpty = true
    · simp only [he, if_true]
    · simp only [he, Bool.false_eq_true, if_false]
      by_cases hs : (send s (rest.take (min rest.length BUFFER_SIZE))).1 ≤ 0
      · simp only [hs, if_true]
      · simp only [hs, if_false]
        refine ih k _ _ ?_
        simp only [List.length_drop]
        omega

/-- The read loop of `sendFile` does not depend on fuel beyond the number of
full buffers left in the file. -/
theorem sendChunks_fuel : ∀ (fuel k : Nat) (s : Socket) (rest : Str) (eof : Bool),
    (eof = true ∨ rest.length / BUFFER_SIZE < fuel) →
    LogClient.sendChunks (fuel + k) s rest eof = LogClient.sendChunks fuel s rest eof := by
  intro fuel
  induction fuel with
  | zero =>
    intro k s rest eof h
    have he : eof = true := by
      rcases h with h | h
      · exact h
      · exact absurd h (Nat.not_lt_zero _)
    subst he
    cases k with
    | zero => rfl
    | succ k => simp [LogClient.sendChunks]
  | succ f ih =>
    intro k s rest eof h
    rw [show f + 1 + k = (f + k) + 1 by omega]
    unfold LogClient.sendChunks
    by_cases he : eof = true
    · simp only [he, if_true]
    · simp only [he, Bool.false_eq_true, if_false]
      have hnext : decide (rest.length < BUFFER_SIZE) = true ∨
          (rest.drop BUFFER_SIZE).length / BUFFER_SIZE < f := by
        by_cases hlt : rest.length < BUFFER_SIZE
        · left; simp [hlt]
        · right
          have h1 : rest.length / BUFFER_SIZE < f + 1 := by
            rcases h with h | h
            · exact absurd h he
            · exact h
          simp only [List.length_drop, BUFFER_SIZE] at h1 hlt ⊢
          omega
      by_cases hpos : 0 < (rest.take BUFFER_SIZE).length
      · simp only [hpos, if_true]
        cases hsm : sendMessage s MSG_FILE_CHUNK (rest.take BUFFER_SIZE) with
        | mk ok s1 =>
          cases ok with
          | false => simp
          | true =>
            simp only [Bool.not_true, Bool.false_eq_true, if_false]
            exact ih k _ _ _ hnext
      · simp only [hpos, if_false]
        exact ih k _ _ _ hnext

theorem recv_conserve (s : Socket) (len : Nat) :
    (recv s len).2.2.incoming.length + (recv s len).2.1.length = s.incoming.length := by
  unfold recv
  cases s.recvPlan with
  | nil => simp only [List.length_drop, List.length_take]; omega
  | cons r plan =>
    by_cases hr : r ≤ 0
    · simp [hr]
    · simp only [hr, if_false, List.length_drop, List.length_take]; omega

theorem recvHeader_conserve : ∀ (fuel : Nat) (s : Socket) (header : Str),
    (recvHeader fuel s header).2.incoming.length ≤ s.incoming.length ∧
      ∀ h', (recvHeader fuel s header).1 = some h' →
        (recvHeader fuel s header).2.incoming.length + h'.length =
          s.incoming.length + header.length ∧ 9 ≤ h'.length := by
  intro fuel
  induction fuel with
  | zero =>
    intro s header
    refine ⟨le_refl _, ?_⟩
    intro h' hh
    simp only [recvHeader] at hh ⊢
    by_cases hlt : header.length < 9
    · simp [hlt] at hh
    · simp only [hlt, if_false, Option.some.injEq] at hh
      subst hh
      exact ⟨rfl, by omega⟩
  | succ f ih =>
    intro s header
    unfold recvHeader
    by_cases hlt : header.length < 9
    · simp only [hlt, if_true]
      have hc := recv_conserve s (9 - header.length)
      rcases hrc : recv s (9 - header.length) with ⟨received, buf, s1⟩
      rw [hrc] at hc
      simp only at hc ⊢
      by_cases hr : received ≤ 0
      · simp only [hr, if_true]
        exact ⟨by omega, by simp⟩
      · simp only [hr, if_false]
        obtain ⟨i1, i2⟩ := ih s1 (header ++ buf)
        refine ⟨by omega, ?_⟩
        intro h' hh
        obtain ⟨j1, j2⟩ := i2 h' hh
        simp only [List.length_append] at j1
        exact ⟨by omega, j2⟩
    · simp only [hlt, if_false]
      refine ⟨le_refl _, ?_⟩
      intro h' hh
      simp only [Option.some.injEq] at hh
      subst hh
      exact ⟨rfl, by omega⟩

theorem recvBody_incoming_le : ∀ (fuel : Nat) (s : Socket) (length : Nat) (msg : Str),
    (recvBody fuel s length msg).2.incoming.length ≤ s.incoming.length := by
  intro fuel
  induction fuel with
  | zero => intro s length msg; exact le_refl _
  | succ f ih =>
    intro s length msg
    unfold recvBody
    by_cases hlt : msg.length < length
    · simp only [hlt, if_true]
      have hc := recv_conserve s (min (length - msg.length) (BUFFER_SIZE - 1))
      rcases hrc : recv s (min (length - msg.length) (BUFFER_SIZE - 1)) with ⟨received, buf, s1⟩
      rw [hrc] at hc
      simp only at hc ⊢
      by_cases hr : received ≤ 0
      · simp only [hr, if_true]; omega
      · simp only [hr, if_false]
        have := ih s1 length (msg ++ buf)
        omega
    · simp only [hlt, if_false]; exact le_refl _

/-- A call of `receiveMessage` never adds bytes to read, and a successful one
has read at least the nine header bytes. -/
theorem receiveMessage_consumes (s : Socket) :
    (receiveMessage s).2.incoming.length ≤ s.incoming.length ∧
      ∀ m, (receiveMessage s).1 = .ret (some m) →
        (receiveMessage s).2.incoming.length + 9 ≤ s.incoming.length := by
  unfold receiveMessage
  obtain ⟨h1, h2⟩ := recvHeader_conserve 9 s []
  rcases hh : recvHeader 9 s [] with ⟨o, s1⟩
  rw [hh] at h1 h2
  simp only at h1 h2
  cases o with
  | none => exact ⟨h1, by simp⟩
  | some header =>
    obtain ⟨k1, k2⟩ := h2 header rfl
    simp only [List.length_nil, Nat.add_zero] at k1
    simp only
    cases hst : stoul ((header.drop 1).take 8) 16 with
    | threw e => exact ⟨h1, by simp⟩
    | ret length =>
      simp only
      by_cases hmax : STRING_MAX_SIZE < length
      · simp only [hmax, if_true]; exact ⟨h1, by simp⟩
      · simp only [hmax, if_false]
        have hb := recvBody_incoming_le length s1 length []
        rcases hrb : recvBody length s1 length [] with ⟨o2, s2⟩
        rw [hrb] at hb
        simp only at hb
        cases o2 with
        | none => exact ⟨by simp only [Socket.record]; omega, by simp⟩
        | some message =>
          simp only [Socket.record]
          exact ⟨by omega, fun _ _ => by omega⟩

theorem receiveChunks_incoming_le (path : Str) : ∀ (fuel : Nat) (s : Socket) (fs : FileSystem),
    (LogServer.receiveChunks fuel s fs path).2.1.incoming.length ≤ s.incoming.length := by
  intro fuel
  induction fuel with
  | zero => intro s fs; exact le_refl _
  | succ f ih =>
    intro s fs
    unfold LogServer.receiveChunks
    obtain ⟨h1, _⟩ := receiveMessage_consumes s
    rcases hr : receiveMessage s with ⟨o, s1⟩
    rw [hr] at h1
    simp only at h1
    cases o with
    | threw e => exact h1
    | ret r =>
      cases r with
      | none => exact h1
      | some m =>
        obtain ⟨t, p⟩ := m
        simp only
        by_cases hc : t = MSG_FILE_CHUNK
        · simp only [hc, if_true]
          exact le_trans (ih s1 _) h1
        · by_cases he : t = MSG_FILE_END
          · simp only [hc, he, if_false, if_true]
            have hk := (sendMessage_keeps s1 MSG_ACK "File received".toList).1
            have hne : ¬ MSG_FILE_END = MSG_FILE_CHUNK := by decide
            simp only [hne, if_false, hk]
            exact h1
          · simp only [hc, he, if_false]
            exact h1

/-- The chunk loop does not depend on fuel beyond the number of bytes to
read. -/
theorem receiveChunks_fuel (path : Str) : ∀ (fuel k : Nat) (s : Socket) (fs : FileSystem),
    s.incoming.length < fuel →
    LogServer.receiveChunks (fuel + k) s fs path = LogServer.receiveChunks fuel s fs path := by
  intro fuel
  induction fuel with
  | zero => intro k s fs h; omega
  | succ f ih =>
    intro k s fs h
    rw [show f + 1 + k = (f + k) + 1 by omega]
    unfold LogServer.receiveChunks
    obtain ⟨_, h2⟩ := receiveMessage_consumes s
    rcases hr : receiveMessage s with ⟨o, s1⟩
    rw [hr] at h2
    simp only at h2
    cases o with
    | threw e => rfl
    | ret r =>
      cases r with
      | none => rfl
      | some m =>
        obtain ⟨t, p⟩ := m
        have hlt := h2 (t, p) rfl
        simp only
        by_cases hc : t = MSG_FILE_CHUNK
        · simp only [hc, if_true]
          exact ih k s1 _ (by omega)
        · simp only [hc, if_false]

/-- The transfer loop does not depend on fuel beyond the number of bytes to
read, so the fuel `handleFileTransfer` passes never runs out. -/
theorem transferLoop_fuel (tempDir : Str) : ∀ (fuel k : Nat) (s : Socket) (fs : FileSystem),
    s.incoming.length < fuel →
    LogServer.transferLoop (fuel + k) s fs tempDir = LogServer.transferLoop fuel s fs tempDir := by
  intro fuel
  induction fuel with
  | zero => intro k s fs h; omega
  | succ f ih =>
    intro k s fs h
    rw [show f + 1 + k = (f + k) + 1 by omega]
    unfold LogServer.transferLoop
    obtain ⟨_, h2⟩ := receiveMessage_consumes s
    rcases hr : receiveMessage s with ⟨o, s1⟩
    rw [hr] at h2
    simp only at h2
    cases o with
    | threw e => rfl
    | ret r =>
      cases r with
      | none => rfl
      | some m =>
        obtain ⟨t, p⟩ := m
        have hlt := h2 (t, p) rfl
        simp only
        by_cases he : t = MSG_FILE_END
        · simp only [he, if_true]
        · simp only [he, if_false]
          by_cases hs : t = MSG_FILE_START
          · simp only [hs, if_true]
            cases hcr : fs.create (tempDir ++ "/".toList ++ p) with
            | none => rfl
            | some fs1 =>
              simp only
              rw [receiveChunks_fuel _ f k s1 fs1 (by omega)]
              have hle := receiveChunks_incoming_le (tempDir ++ "/".toList ++ p) f s1 fs1
              rcases hrc : LogServer.receiveChunks f s1 fs1 (tempDir ++ "/".toList ++ p) with
                ⟨o2, s2, fs2⟩
              rw [hrc] at hle
              simp only at hle
              cases o2 with
              | threw e => rfl
              | ret b =>
                cases b with
                | false => rfl
                | true => exact ih k s2 fs2 (by omega)
          · simp only [hs, if_false]

/-! ## The client side of a file upload -/

theorem recv_keeps (s : Socket) (len : Nat) :
    (recv s len).2.2.outgoing = s.outgoing ∧ (recv s len).2.2.log = s.log := by
  unfold recv
  cases s.recvPlan with
  | nil => exact ⟨rfl, rfl⟩
  | cons r plan =>
    by_cases hr : r ≤ 0
    · simp [hr]
    · simp [hr]

theorem recvHeader_keeps : ∀ (fuel : Nat) (s : Socket) (header : Str),
    (recvHeader fuel s header).2.outgoing = s.outgoing ∧
      (recvHeader fuel s header).2.log = s.log := by
  intro fuel
  induction fuel with
  | zero => intro s header; exact ⟨rfl, rfl⟩
  | succ f ih =>
    intro s header
    unfold recvHeader
    by_cases hlt : header.length < 9
    · simp only [hlt, if_true]
      obtain ⟨h1, h2⟩ := recv_keeps s (9 - header.length)
      by_cases hr : (recv s (9 - header.length)).1 ≤ 0
      · simp only [hr, if_true]; exact ⟨h1, h2⟩
      · simp only [hr, if_false]
        obtain ⟨g1, g2⟩ := ih (recv s (9 - header.length)).2.2
          (header ++ (recv s (9 - header.length)).2.1)
        exact ⟨g1.trans h1, g2.trans h2⟩
    · simp [hlt]

theorem recvBody_keeps : ∀ (fuel : Nat) (s : Socket) (length : Nat) (msg : Str),
    (recvBody fuel s length msg).2.outgoing = s.outgoing ∧
      (recvBody fuel s length msg).2.log = s.log := by
  intro fuel
  induction fuel with
  | zero => intro s length msg; exact ⟨rfl, rfl⟩
  | succ f ih =>
    intro s length msg
    unfold recvBody
    by_cases hlt : msg.length < length
    · simp only [hlt, if_true]
      obtain ⟨h1, h2⟩ := recv_keeps s (min (length - msg.length) (BUFFER_SIZE - 1))
      by_cases hr : (recv s (min (length - msg.length) (BUFFER_SIZE - 1))).1 ≤ 0
      · simp only [hr, if_true]; exact ⟨h1, h2⟩
      · simp only [hr, if_false]
        obtain ⟨g1, g2⟩ := ih (recv s (min (length - msg.length) (BUFFER_SIZE - 1))).2.2 length
          (msg ++ (recv s (min (length - msg.length) (BUFFER_SIZE - 1))).2.1)
        exact ⟨g1.trans h1, g2.trans h2⟩
    · simp [hlt]

/-- A successful `receiveMessage` adds the received message to the log and
writes nothing. -/
theorem receiveMessage_log (s s' : Socket) (t : Char) (m : Str)
    (h : receiveMessage s = (.ret (some (t, m)), s')) :
    s'.log = s.log ++ [.received t m] ∧ s'.outgoing = s.outgoing := by
  unfold receiveMessage at h
  obtain ⟨h1, h2⟩ := recvHeader_keeps 9 s []
  cases hh : recvHeader 9 s [] with
  | mk o s1 =>
    rw [hh] at h h1 h2
    simp only at h1 h2
    cases o with
    | none => simp at h
    | some header =>
      simp only at h
      cases hst : stoul ((header.drop 1).take 8) 16 with
      | threw e => rw [hst] at h; simp at h
      | ret length =>
        rw [hst] at h
        simp only at h
        by_cases hmax : STRING_MAX_SIZE < length
        · simp [hmax] at h
        · simp only [hmax, if_false] at h
          obtain ⟨g1, g2⟩ := recvBody_keeps length s1 length []
          cases hb : recvBody length s1 length [] with
          | mk o2 s2 =>
            rw [hb] at h g1 g2
            simp only at g1 g2
            cases o2 with
            | none => simp at h
            | some message =>
              simp only [Prod.mk.injEq, Outcome.ret.injEq, Option.some.injEq] at h
              obtain ⟨⟨ht, hm⟩, hs'⟩ := h
              subst hm
              rw [← hs']
              simp only [Socket.record]
              exact ⟨by rw [g2, h2, ht], by rw [g1, h1]⟩

/-- A successful `sendMessage` of a payload below 2^32 bytes wrote its frame. -/
theorem sendMessage_true_wire (s s' : Socket) (t : Char) (p : Str) (hp : p.length < 2 ^ 32)
    (h : sendMessage s t p = (true, s')) :
    s'.outgoing = s.outgoing ++ wire t p ∧ s'.incoming = s.incoming ∧
      s'.recvPlan = s.recvPlan ∧ s'.log = s.log ++ [.sent t p true] := by
  obtain ⟨plan', _, hs'⟩ := sendMessage_true s s' t p h
  rw [hs', wire_eq t p hp, header_take t _ hp]
  exact ⟨rfl, rfl, rfl, rfl⟩

theorem BUFFER_SIZE_lt : BUFFER_SIZE < 2 ^ 32 := by norm_num [BUFFER_SIZE]

/-- When the read loop of `sendFile` succeeds it has sent the rest of the
file as FileChunk messages of 1 to `BUFFER_SIZE` bytes, in order. -/
theorem sendChunks_true : ∀ (fuel : Nat) (s s' : Socket) (rest : Str) (eof : Bool),
    (eof = true → rest = []) → LogClient.sendChunks fuel s rest eof = (true, s') →
    ∃ chunks : List Str, chunks.flatten = rest ∧
      (∀ ch ∈ chunks, 1 ≤ ch.length ∧ ch.length ≤ BUFFER_SIZE) ∧
      s'.outgoing = s.outgoing ++ wireAll (chunks.map (fun ch => (MSG_FILE_CHUNK, ch))) ∧
      s'.incoming = s.incoming ∧ s'.recvPlan = s.recvPlan ∧
      s'.log = s.log ++ chunks.map (fun ch => Event.sent MSG_FILE_CHUNK ch true) := by
  intro fuel
  induction fuel with
  | zero =>
    intro s s' rest eof hinv h
    simp only [LogClient.sendChunks, Prod.mk.injEq] at h
    obtain ⟨he, hs⟩ := h
    subst hs
    exact ⟨[], by simp [hinv he], by simp, by simp [wireAll], rfl, rfl, by simp⟩
  | succ f ih =>
    intro s s' rest eof hinv h
    unfold LogClient.sendChunks at h
    by_cases he : eof = true
    · simp only [he, if_true, Prod.mk.injEq, true_and] at h
      subst h
      exact ⟨[], by simp [hinv he], by simp, by simp [wireAll], rfl, rfl, by simp⟩
    · simp only [he, Bool.false_eq_true, if_false] at h
      have hinv' : decide (rest.length < BUFFER_SIZE) = true → rest.drop BUFFER_SIZE = [] := by
        intro hd
        have : rest.length < BUFFER_SIZE := of_decide_eq_true hd
        exact List.drop_eq_nil_of_le (by omega)
      by_cases hpos : 0 < (rest.take BUFFER_SIZE).length
      · simp only [hpos, if_true] at h
        cases hsm : sendMessage s MSG_FILE_CHUNK (rest.take BUFFER_SIZE) with
        | mk ok s1 =>
          rw [hsm] at h
          cases ok with
          | false => simp at h
          | true =>
            simp only [Bool.not_true, Bool.false_eq_true, if_false] at h
            have hlen : (rest.take BUFFER_SIZE).length ≤ BUFFER_SIZE := by
              simp only [List.length_take]; omega
            obtain ⟨o1, o2, o3, o4⟩ := sendMessage_true_wire s s1 _ _
              (lt_of_le_of_lt hlen BUFFER_SIZE_lt) hsm
            obtain ⟨chunks, c1, c2, c3, c4, c5, c6⟩ := ih s1 s' _ _ hinv' h
            refine ⟨rest.take BUFFER_SIZE :: chunks, ?_, ?_, ?_, c4.trans o2, c5.trans o3, ?_⟩
            · simp only [List.flatten_cons, c1, List.take_append_drop]
            · intro ch hch
              rcases List.mem_cons.1 hch with hch | hch
              · rw [hch]; exact ⟨hpos, hlen⟩
              · exact c2 ch hch
            · rw [c3, o1, List.map_cons, wireAll_cons, List.append_assoc]
            · rw [c6, o4]; simp
      · simp only [hpos, if_false] at h
        have hnil : rest = [] := by
          cases rest with
          | nil => rfl
          | cons a as => simp [BUFFER_SIZE] at hpos
        subst hnil
        obtain ⟨chunks, c1, c2, c3, c4, c5, c6⟩ := ih s s' _ _ hinv' h
        exact ⟨chunks, by simpa using c1, c2, c3, c4, c5, c6⟩

/-- A successful `sendFile`: the file was readable, the client wrote a
FileStart with the base name, the content in chunks of 1 to `BUFFER_SIZE`
bytes, a FileEnd with an empty payload, and then received an Ack. -/
theorem sendFile_true (c c' : LogClient) (fs : FileSystem) (filepath : Str)
    (h : c.sendFile fs filepath = (.ret true, c')) :
    ∃ (content : Str) (chunks : List Str) (ack : Str), fs.read filepath = some content ∧
      chunks.flatten = content ∧
      (∀ ch ∈ chunks, 1 ≤ ch.length ∧ ch.length ≤ BUFFER_SIZE) ∧
      ((pathFilename filepath).length < 2 ^ 32 →
        c'.socket_.outgoing = c.socket_.outgoing ++
          wireAll ((MSG_FILE_START, pathFilename filepath) ::
            chunks.map (fun ch => (MSG_FILE_CHUNK, ch)) ++ [(MSG_FILE_END, [])])) ∧
      c'.socket_.log = c.socket_.log ++
        (Event.sent MSG_FILE_START (pathFilename filepath) true ::
          chunks.map (fun ch => Event.sent MSG_FILE_CHUNK ch true) ++
          [Event.sent MSG_FILE_END [] true, Event.received MSG_ACK ack]) := by
  unfold LogClient.sendFile at h
  by_cases hc : c.connected_ = true
  · simp only [hc, Bool.not_true, Bool.false_eq_true, if_false] at h
    cases hr : fs.read filepath with
    | none => simp [hr] at h
    | some content =>
      simp only [hr, Option.isNone_some, Bool.false_eq_true, if_false] at h
      cases h1 : sendMessage c.socket_ MSG_FILE_START (pathFilename filepath) with
      | mk ok1 s1 =>
        rw [h1] at h
        cases ok1 with
        | false => simp at h
        | true =>
          simp only [Bool.not_true, Bool.false_eq_true, if_false] at h
          cases h2 : LogClient.sendChunks (content.length + 1) s1 content false with
          | mk ok2 s2 =>
            rw [h2] at h
            cases ok2 with
            | false => simp at h
            | true =>
              simp only [Bool.not_true, Bool.false_eq_true, if_false] at h
              cases h3 : sendMessage s2 MSG_FILE_END [] with
              | mk ok3 s3 =>
                rw [h3] at h
                cases ok3 with
                | false => simp at h
                | true =>
                  simp only [Bool.not_true, Bool.false_eq_true, if_false] at h
                  cases h4 : receiveMessage s3 with
                  | mk o s4 =>
                    rw [h4] at h
                    cases o with
                    | threw e => simp at h
                    | ret r =>
                      cases r with
                      | none => simp at h
                      | some tm =>
                        obtain ⟨t, ack⟩ := tm
                        simp only at h
                        by_cases ht : t = MSG_ACK
                        · subst ht
                          simp only [ne_eq, not_true_eq_false, if_false, Prod.mk.injEq,
                            true_and] at h
                          obtain ⟨_, _, a4'⟩ := sendMessage_true _ _ _ _ h1
                          have a4 : s1.log = c.socket_.log ++
                              [Event.sent MSG_FILE_START (pathFilename filepath) true] := by
                            rw [a4']
                          obtain ⟨chunks, b1, b2, b3, _, _, b6⟩ := sendChunks_true _ _ _ _ _
                            (by simp) h2
                          obtain ⟨e1, _, _, e4⟩ := sendMessage_true_wire _ _ _ _ (by simp) h3
                          obtain ⟨r1, r2⟩ := receiveMessage_log _ _ _ _ h4
                          refine ⟨content, chunks, ack, rfl, b1, b2, ?_, ?_⟩
                          · intro hname
                            obtain ⟨a1, _, _, _⟩ := sendMessage_true_wire _ _ _ _ hname h1
                            rw [← h]
                            simp only
                            rw [r2, e1, b3, a1]
                            simp [wireAll_cons, wireAll_append, wireAll]
                          · rw [← h]
                            simp only
                            rw [r1, e4, b6, a4]
                            simp
                        · simp [ht] at h
  · simp [hc] at h

/-- At the end of the connection the transfer loop returns false and leaves
the files as they are. -/
theorem transferLoop_closed (tempDir : Str) (fuel : Nat) (s : Socket) (fs : FileSystem)
    (h : Feeds s []) :
    ∃ s', LogServer.transferLoop (fuel + 1) s fs tempDir = (.ret false, s', fs) := by
  have hc := receiveMessage_closed s h.nil_incoming
  unfold LogServer.transferLoop
  cases hr : receiveMessage s with
  | mk o s1 =>
    rw [hr] at hc
    simp only at hc
    subst hc
    exact ⟨s1, rfl⟩

theorem flatten_eq_nil_of_pos (chunks : List Str) (h : ∀ ch ∈ chunks, 1 ≤ ch.length)
    (hf : chunks.flatten = []) : chunks = [] := by
  cases chunks with
  | nil => rfl
  | cons ch rest =>
    have h1 := h ch (by simp)
    simp only [List.flatten_cons, List.append_eq_nil] at hf
    rw [hf.1] at h1
    simp at h1

/-- The server run on the bytes of one uploaded file, followed either by the
end of the connection or by the FileEnd that closes the transfer. -/
theorem handleFileTransfer_one_file (srv : Socket) (sfs : FileSystem) (tempDir name : Str)
    (chunks : List Str) (rest : List Message)
    (hname : name.length < 2 ^ 32) (hchunks : ∀ ch ∈ chunks, ch.length ≤ BUFFER_SIZE)
    (hrest : rest = [] ∨ ∃ q, q.length < 2 ^ 32 ∧ rest = [(MSG_FILE_END, q)])
    (hsrv : srv.incoming = wireAll ((MSG_FILE_START, name) ::
      chunks.map (fun ch => (MSG_FILE_CHUNK, ch)) ++ [(MSG_FILE_END, [])]) ++ wireAll rest)
    (hplan : PlanPositive srv.recvPlan) (hcreate : ∀ path, sfs.canCreate path = true) :
    (LogServer.handleFileTransfer srv sfs tempDir).2.2.read (tempDir ++ "/".toList ++ name) =
        some chunks.flatten ∧
      ((LogServer.handleFileTransfer srv sfs tempDir).1 = .ret true ↔ rest ≠ []) := by
  have hrestlen : ∀ m ∈ rest, m.2.length < 2 ^ 32 := by
    intro m hm
    rcases hrest with h | ⟨q, hq, h⟩
    · rw [h] at hm; simp at hm
    · rw [h] at hm; simp only [List.mem_singleton] at hm; rw [hm]; exact hq
  have hfeeds : Feeds srv ((MSG_FILE_START, name) ::
      chunks.map (fun ch => (MSG_FILE_CHUNK, ch)) ++ (MSG_FILE_END, []) :: rest) := by
    refine ⟨?_, hplan, ?_⟩
    · rw [hsrv, ← wireAll_append]; simp
    · intro m hm
      simp only [List.cons_append, List.mem_cons, List.mem_append, List.mem_map] at hm
      rcases hm with h | ⟨ch, hch, h⟩ | h | h
      · rw [h]; exact hname
      · rw [← h]; exact lt_of_le_of_lt (hchunks ch hch) BUFFER_SIZE_lt
      · rw [h]; simp
      · exact hrestlen m h
  have hlen := wireAll_length _ hfeeds.2.2
  rw [← hfeeds.1] at hlen
  simp only [List.cons_append, List.length_cons, List.length_append, List.length_map] at hlen
  obtain ⟨f, hf⟩ : ∃ f, srv.incoming.length = f + 1 := ⟨srv.incoming.length - 1, by omega⟩
  obtain ⟨s', hstep, hf', _, _⟩ := transferLoop_group tempDir name [] _ rest (f + 1) srv sfs
    (by simp) hfeeds (by simp only [List.length_map]; omega) (hcreate _)
  have hmap : ((chunks.map (fun ch => ((MSG_FILE_CHUNK, ch) : Message))).map Prod.snd) = chunks := by
    simp
  rw [hmap] at hstep
  unfold LogServer.handleFileTransfer
  rw [hf, hstep]
  rcases hrest with h | ⟨q, _, h⟩
  · subst h
    obtain ⟨s'', hrun⟩ := transferLoop_closed tempDir f s'
      (sfs.written (tempDir ++ "/".toList ++ name) (chunks.flatten)) hf'
    rw [hrun]
    exact ⟨read_putFile _ _ _, by simp⟩
  · subst h
    obtain ⟨s'', hrun, _, _, _, _⟩ := transferLoop_end tempDir q [] f s'
      (sfs.written (tempDir ++ "/".toList ++ name) (chunks.flatten)) hf'
    rw [hrun]
    exact ⟨read_putFile _ _ _, by simp⟩

/-! ## Counting acknowledgments in a log -/

theorem countP_isAck_forgetOk (l : List Event) :
    (l.map Event.forgetOk).countP Event.isAck = l.countP Event.isAck := by
  induction l with
  | nil => rfl
  | cons e l ih =>
    cases e <;> simp [List.countP_cons, Event.forgetOk, Event.isAck, ih]

theorem countP_isAck_received (g : List Message) :
    (g.map (fun m => Event.received m.1 m.2)).countP Event.isAck = 0 := by
  induction g with
  | nil => rfl
  | cons m g ih => simp [List.countP_cons, Event.isAck, ih]

theorem countP_isAck_transcripts (groups : List (List Message)) :
    (groups.flatMap groupTranscript).countP Event.isAck = groups.length := by
  induction groups with
  | nil => rfl
  | cons g groups ih =>
    have hack : Event.isAck (Event.sent MSG_ACK "File received".toList true) = true := by decide
    simp only [List.flatMap_cons, List.countP_append, ih, groupTranscript,
      countP_isAck_received, List.countP_cons, List.countP_nil, hack, if_true, List.length_cons]
    omega

/-! ## Scenario A -/

/-- Maps with the same entries in another order answer every lookup alike. -/
theorem get?_perm {l1 l2 : CountMap} (h : l1.Perm l2) (hnd : l1.keys.Nodup) :
    ∀ k, l1.get? k = l2.get? k := by
  induction h with
  | nil => intro k; rfl
  | cons x _ ih =>
    intro k
    obtain ⟨a, v⟩ := x
    simp only [CountMap.keys, List.map_cons, List.nodup_cons] at hnd
    simp only [CountMap.get?, ih hnd.2 k]
  | swap x y l =>
    intro k
    obtain ⟨a, v⟩ := x
    obtain ⟨b, w⟩ := y
    simp only [CountMap.keys, List.map_cons, List.nodup_cons, List.mem_cons, not_or] at hnd
    have hne : ¬ b = a := hnd.1.1
    by_cases hb : b = k
    · have ha : ¬ a = k := fun e => hne (hb.trans e.symm)
      simp [CountMap.get?, hb, ha]
    · simp [CountMap.get?, hb]
  | trans h1 _ ih1 ih2 =>
    intro k
    have hnd2 := (List.Perm.map Prod.fst h1).nodup_iff.1 hnd
    rw [ih1 hnd k, ih2 hnd2 k]

/-- Without date bounds and by level, the counting loop of `analyzeFile` only
looks at the levels of the records. -/
theorem countEntries_levels (a : LogAnalyzer) (ha : a.request_ = scenarioRequest) :
    ∀ (es : List LogEntry) (acc : CountMap × Int),
    a.countEntries es acc =
      (es.map LogEntry.level).foldl
        (fun (acc : CountMap × Int) lv => (CountMap.add acc.1 lv 1, acc.2 + 1)) acc := by
  intro es
  induction es with
  | nil => intro acc; rfl
  | cons e es ih =>
    intro acc
    obtain ⟨c, n⟩ := acc
    have hin : isDateInRange e.timestamp a.request_.startDate a.request_.endDate = true := by
      rw [ha]; rfl
    have hkey : a.getKeyForEntry e = e.level := by
      unfold LogAnalyzer.getKeyForEntry; rw [ha]; rfl
    simp only [LogAnalyzer.countEntries, hin, if_true, hkey, List.map_cons, List.foldl_cons, ih]

theorem analyzeFile_levels (parse : Parser) (fs : FileSystem) (a : LogAnalyzer)
    (ha : a.request_ = scenarioRequest) (f content : Str) (es : List LogEntry)
    (hr : fs.read f = some content) (hp : parse f content = some es) :
    a.analyzeFile parse fs f =
      (((es.map LogEntry.level).foldl
          (fun (acc : CountMap × Int) lv => (CountMap.add acc.1 lv 1, acc.2 + 1)) ([], 0)).1,
        { a with result_ := { a.result_ with totalEntries := a.result_.totalEntries +
          ((es.map LogEntry.level).foldl
            (fun (acc : CountMap × Int) lv => (CountMap.add acc.1 lv 1, acc.2 + 1))
            ([], 0)).2 } }) := by
  unfold LogAnalyzer.analyzeFile
  simp only [hr, hp, countEntries_levels a ha]

/-- The server-side result of scenario A, for either order of the two files. -/
theorem scenario_analyze (parse : Parser) (fs : FileSystem) (f1 f2 c1 c2 : Str)
    (es1 es2 : List LogEntry) (h1 : fs.read f1 = some c1) (hp1 : parse f1 c1 = some es1)
    (hl1 : es1.map LogEntry.level = ["INFO".toList, "INFO".toList, "ERROR".toList])
    (h2 : fs.read f2 = some c2) (hp2 : parse f2 c2 = some es2)
    (hl2 : es2.map LogEntry.level = ["INFO".toList, "WARN".toList]) :
    ((LogAnalyzer.new scenarioRequest).analyze parse fs [f1, f2]).1 =
        { type := .LOG_LEVEL, counts := scenarioCounts, totalEntries := 5 } ∧
      ((LogAnalyzer.new scenarioRequest).analyze parse fs [f2, f1]).1 =
        { type := .LOG_LEVEL,
          counts := [("INFO".toList, 3), ("WARN".toList, 1), ("ERROR".toList, 1)],
          totalEntries := 5 } := by
  have t1 : ∀ (a : LogAnalyzer), a.request_ = scenarioRequest →
      a.analyzeFile parse fs f1 = ([("INFO".toList, 2), ("ERROR".toList, 1)],
        { a with result_ := { a.result_ with totalEntries := a.result_.totalEntries + 3 } }) := by
    intro a ha
    rw [analyzeFile_levels parse fs a ha f1 c1 es1 h1 hp1, hl1]
    rfl
  have t2 : ∀ (a : LogAnalyzer), a.request_ = scenarioRequest →
      a.analyzeFile parse fs f2 = ([("INFO".toList, 1), ("WARN".toList, 1)],
        { a with result_ := { a.result_ with totalEntries := a.result_.totalEntries + 2 } }) := by
    intro a ha
    rw [analyzeFile_levels parse fs a ha f2 c2 es2 h2 hp2, hl2]
    rfl
  constructor
  · simp only [LogAnalyzer.analyze, LogAnalyzer.runTasks]
    rw [t1 _ rfl, t2 _ rfl]
    rfl
  · simp only [LogAnalyzer.analyze, LogAnalyzer.runTasks]
    rw [t2 _ rfl, t1 _ rfl]
    rfl

/-! ## A file that cannot be analysed -/

theorem runTasks_append (parse : Parser) (fs : FileSystem) : ∀ (xs ys : List Str) (a : LogAnalyzer),
    LogAnalyzer.runTasks parse fs a (xs ++ ys) =
      ((LogAnalyzer.runTasks parse fs a xs).1 ++
          (LogAnalyzer.runTasks parse fs (LogAnalyzer.runTasks parse fs a xs).2 ys).1,
        (LogAnalyzer.runTasks parse fs (LogAnalyzer.runTasks parse fs a xs).2 ys).2) := by
  intro xs
  induction xs with
  | nil => intro ys a; rfl
  | cons x xs ih =>
    intro ys a
    rw [List.cons_append, runTasks_cons, ih, runTasks_cons]
    rfl

/-- A file that cannot be opened, or that the adapter rejects, yields an empty
tally and leaves the analyzer as it was. -/
theorem analyzeFile_failing (parse : Parser) (fs : FileSystem) (a : LogAnalyzer) (f : Str)
    (hfail : fs.read f = none ∨ ∃ c, fs.read f = some c ∧ parse f c = none) :
    a.analyzeFile parse fs f = ([], a) := by
  unfold LogAnalyzer.analyzeFile
  rcases hfail with h | ⟨c, h, hp⟩
  · simp only [h]
  · simp only [h, hp]

theorem mergeCounts_nil (m : CountMap) : mergeCounts m [] = m := rfl

/-! ## Digits of the wire formats -/

theorem digitIn_some {base : Nat} {c : Char} {d : Nat} (h : digitIn base c = some d) :
    digitVal c = some d ∧ d < base := by
  unfold digitIn at h
  cases hv : digitVal c with
  | none => simp [hv] at h
  | some v =>
    simp only [hv] at h
    by_cases hlt : v < base
    · simp only [hlt, if_true, Option.some.injEq] at h
      subst h
      exact ⟨rfl, hlt⟩
    · simp [hlt] at h

/-- On a string of digits the scan of `strtoul` computes the positional value. -/
theorem scanDigits_foldl (base : Nat) : ∀ (h : Str) (acc : Nat) (any : Bool),
    (∀ c ∈ h, (digitIn base c).isSome) →
    (scanDigits base h acc any).1 = h.foldl (fun a c => a * base + (digitVal c).getD 0) acc := by
  intro h
  induction h with
  | nil => intro acc any _; rfl
  | cons c cs ih =>
    intro acc any hall
    have hc := hall c (by simp)
    cases hd : digitIn base c with
    | none => simp [hd] at hc
    | some d =>
      obtain ⟨hv, _⟩ := digitIn_some hd
      simp only [scanDigits, hd, List.foldl_cons, hv, Option.getD_some]
      exact ih _ _ (fun c' hc' => hall c' (by simp [hc']))

theorem hexValue_hexWidth8 (n : Nat) : hexValue (hexWidth8 n) = n := by
  have h := scanDigits_foldl 16 (hexWidth8 n) 0 false (by
    intro c hc
    obtain ⟨d, hd, rfl⟩ := mem_hexWidth8 n c hc
    rw [digitIn_digitChar d hd]; rfl)
  rw [scanDigits_hexWidth8] at h
  exact h.symm

theorem digitChar_mem_hex (d : Nat) (h : d < 16) :
    Nat.digitChar d ∈ "0123456789abcdef".toList := by
  interval_cases d <;> decide

theorem get?_of_mem : ∀ (m : CountMap), m.keys.Nodup → ∀ g ∈ m, m.get? g.1 = some g.2 := by
  intro m
  induction m with
  | nil => intro _ g hg; simp at hg
  | cons a rest ih =>
    intro hnd g hg
    obtain ⟨k, v⟩ := a
    simp only [CountMap.keys, List.map_cons, List.nodup_cons] at hnd
    rcases List.mem_cons.1 hg with h | h
    · subst h; simp [CountMap.get?]
    · have hne : k ≠ g.1 := by
        intro he
        apply hnd.1
        rw [he]
        exact List.mem_map_of_mem Prod.fst h
      simp only [CountMap.get?, hne, if_false]
      exact ih hnd.2 g h

theorem digitIn_digitChar_base (b d : Nat) (hb : b ≤ 16) (h : d < b) :
    digitIn b (Nat.digitChar d) = some d := by
  have hd : d < 16 := by omega
  have h16 := digitIn_digitChar d hd
  unfold digitIn at h16 ⊢
  cases hv : digitVal (Nat.digitChar d) with
  | none => simp [hv] at h16
  | some v =>
    simp only [hv] at h16 ⊢
    by_cases hlt : v < 16
    · simp only [hlt, if_true, Option.some.injEq] at h16
      subst h16
      simp [h]
    · simp [hlt] at h16

/-- Reading back in base `b` the digits written for `n` in base `b`. -/
theorem scanDigits_toDigitsCore_base (b : Nat) (hb2 : 2 ≤ b) (hb : b ≤ 16) :
    ∀ (fuel n : Nat), n < fuel → ∀ (rest : Str) (acc : Nat) (any : Bool),
    scanDigits b (Nat.toDigitsCore b fuel n [] ++ rest) acc any =
      scanDigits b rest (acc * b ^ (Nat.toDigitsCore b fuel n []).length + n) true := by
  intro fuel
  induction fuel with
  | zero => intro n h; omega
  | succ f ih =>
    intro n hn rest acc any
    simp only [Nat.toDigitsCore]
    split
    · rename_i h0
      have hlt : n < b := by
        by_contra hge
        have : 0 < n / b := Nat.div_pos (by omega) (by omega)
        omega
      have hm : n % b = n := Nat.mod_eq_of_lt hlt
      simp [scanDigits, hm, digitIn_digitChar_base b n hb hlt]
    · rename_i h0
      have hdiv : n / b < f := by
        have : n / b < n := Nat.div_lt_self (by
          by_contra h; simp at h; subst h; simp at h0) (by omega)
        omega
      rw [toDigitsCore_append, List.append_assoc, ih (n / b) hdiv]
      simp only [List.singleton_append, List.length_append, List.length_singleton, scanDigits,
        digitIn_digitChar_base b (n % b) hb (Nat.mod_lt _ (by omega))]
      congr 1
      have := Nat.div_add_mod n b
      rw [pow_succ]
      nlinarith [Nat.div_add_mod n b]

theorem scanDigits_showNat (n : Nat) (rest : Str) (any : Bool) :
    scanDigits 10 (showNat n ++ rest) 0 any = scanDigits 10 rest n true := by
  have h := scanDigits_toDigitsCore_base 10 (by norm_num) (by norm_num) (n + 1) n
    (Nat.lt_succ_self n) rest 0 any
  simp only [zero_mul, zero_add] at h
  exact h

theorem mem_showNat (n : Nat) (c : Char) (h : c ∈ showNat n) :
    ∃ d, d < 10 ∧ c = Nat.digitChar d :=
  mem_toDigitsCore 10 (by norm_num) _ _ _ h

theorem digitChar_mem_dec (d : Nat) (h : d < 10) : Nat.digitChar d ∈ "0123456789".toList := by
  interval_cases d <;> decide

theorem decValue_showNat (n : Nat) : decValue (showNat n) = n := by
  have h := scanDigits_foldl 10 (showNat n) 0 false (by
    intro c hc
    obtain ⟨d, hd, rfl⟩ := mem_showNat n c hc
    rw [digitIn_digitChar_base 10 d (by norm_num) hd]; rfl)
  have h2 := scanDigits_showNat n [] false
  simp only [List.append_nil, scanDigits] at h2
  rw [h2] at h
  exact h.symm

/-! ## Short reads -/

/-- What one `recv` call does: the bytes stored are the next bytes of the
stream, at most `len` of them; a call that reports no progress stores nothing. -/
theorem recv_spec (s : Socket) (len : Nat) :
    s.incoming = (recv s len).2.1 ++ (recv s len).2.2.incoming ∧
      (recv s len).2.1.length ≤ len ∧
      (0 < (recv s len).1 → (recv s len).1 = ((recv s len).2.1.length : Int)) := by
  unfold recv
  cases hp : s.recvPlan with
  | nil =>
    simp only [List.take_append_drop, List.length_take, true_and]
    exact ⟨by omega, fun _ => by simp⟩
  | cons r plan =>
    by_cases hr : r ≤ 0
    · simp only [hr, if_true, List.nil_append, List.length_nil, true_and]
      exact ⟨by omega, fun h => by omega⟩
    · simp only [hr, if_false, List.take_append_drop, List.length_take, true_and]
      exact ⟨by omega, fun _ => by simp⟩

/-- A header loop that ends well has read exactly the bytes missing from the
nine header bytes, and these were the next bytes of the stream. -/
theorem recvHeader_some : ∀ (fuel : Nat) (s s1 : Socket) (header h : Str),
    header.length ≤ 9 → recvHeader fuel s header = (some h, s1) →
    ∃ got, h = header ++ got ∧ s.incoming = got ++ s1.incoming ∧ h.length = 9 := by
  intro fuel
  induction fuel with
  | zero =>
    intro s s1 header h hle hr
    simp only [recvHeader] at hr
    by_cases hlt : header.length < 9
    · simp [hlt] at hr
    · simp only [hlt, if_false, Prod.mk.injEq, Option.some.injEq] at hr
      obtain ⟨rfl, rfl⟩ := hr
      exact ⟨[], by simp, by simp, by omega⟩
  | succ f ih =>
    intro s s1 header h hle hr
    unfold recvHeader at hr
    by_cases hlt : header.length < 9
    · simp only [hlt, if_true] at hr
      obtain ⟨hs1, hs2, hs3⟩ := recv_spec s (9 - header.length)
      rcases hrc : recv s (9 - header.length) with ⟨received, buf, s0⟩
      rw [hrc] at hr hs1 hs2 hs3
      simp only at hr hs1 hs2 hs3
      by_cases hrz : received ≤ 0
      · simp [hrz] at hr
      · simp only [hrz, if_false] at hr
        obtain ⟨got, hg1, hg2, hg3⟩ := ih s0 s1 (header ++ buf) h
          (by simp only [List.length_append]; omega) hr
        exact ⟨buf ++ got, by rw [hg1, List.append_assoc], by rw [hs1, hg2, List.append_assoc],
          hg3⟩
    · simp only [hlt, if_false, Prod.mk.injEq, Option.some.injEq] at hr
      obtain ⟨rfl, rfl⟩ := hr
      exact ⟨[], by simp, by simp, by omega⟩

/-- A payload loop that ends well has read exactly the bytes missing from the
stated length, and these were the next bytes of the stream. -/
theorem recvBody_some : ∀ (fuel : Nat) (s s1 : Socket) (length : Nat) (msg m : Str),
    msg.length ≤ length → recvBody fuel s length msg = (some m, s1) →
    ∃ got, m = msg ++ got ∧ s.incoming = got ++ s1.incoming ∧ m.length = length := by
  intro fuel
  induction fuel with
  | zero =>
    intro s s1 length msg m hle hr
    simp only [recvBody] at hr
    by_cases hlt : msg.length < length
    · simp [hlt] at hr
    · simp only [hlt, if_false, Prod.mk.injEq, Option.some.injEq] at hr
      obtain ⟨rfl, rfl⟩ := hr
      exact ⟨[], by simp, by simp, by omega⟩
  | succ f ih =>
    intro s s1 length msg m hle hr
    unfold recvBody at hr
    by_cases hlt : msg.length < length
    · simp only [hlt, if_true] at hr
      obtain ⟨hs1, hs2, hs3⟩ := recv_spec s (min (length - msg.length) (BUFFER_SIZE - 1))
      rcases hrc : recv s (min (length - msg.length) (BUFFER_SIZE - 1)) with ⟨received, buf, s0⟩
      rw [hrc] at hr hs1 hs2 hs3
      simp only at hr hs1 hs2 hs3
      by_cases hrz : received ≤ 0
      · simp [hrz] at hr
      · simp only [hrz, if_false] at hr
        obtain ⟨got, hg1, hg2, hg3⟩ := ih s0 s1 length (msg ++ buf) m
          (by simp only [List.length_append]; omega) hr
        exact ⟨buf ++ got, by rw [hg1, List.append_assoc], by rw [hs1, hg2, List.append_assoc],
          hg3⟩
    · simp only [hlt, if_false, Prod.mk.injEq, Option.some.injEq] at hr
      obtain ⟨rfl, rfl⟩ := hr
      exact ⟨[], by simp, by simp, by omega⟩

/-- A successful `receiveMessage` has read a type byte, eight bytes that
`std::stoul` reads as the length of the payload returned, and the payload. -/
theorem receiveMessage_some (s s' : Socket) (t : Char) (m : Str)
    (h : receiveMessage s = (.ret (some (t, m)), s')) :
    ∃ lenStr : Str, lenStr.length = 8 ∧ s.incoming = t :: lenStr ++ m ++ s'.incoming ∧
      stoul lenStr 16 = .ret m.length := by
  unfold receiveMessage at h
  rcases hh : recvHeader 9 s [] with ⟨o, s1⟩
  rw [hh] at h
  cases o with
  | none => simp at h
  | some header =>
    obtain ⟨got, hg1, hg2, hg3⟩ := recvHeader_some 9 s s1 [] header (by simp) hh
    simp only [List.nil_append] at hg1
    subst hg1
    simp only at h
    match header, hg3 with
    | [c0, c1, c2, c3, c4, c5, c6, c7, c8], _ =>
      simp only [List.headD_cons, List.drop_succ_cons, List.drop_zero] at h
      have ht : List.take 8 [c1, c2, c3, c4, c5, c6, c7, c8] = [c1, c2, c3, c4, c5, c6, c7, c8] :=
        rfl
      rw [ht] at h
      cases hst : stoul [c1, c2, c3, c4, c5, c6, c7, c8] 16 with
      | threw e => simp [hst] at h
      | ret length =>
        simp only [hst] at h
        by_cases hmax : STRING_MAX_SIZE < length
        · simp [hmax] at h
        · simp only [hmax, if_false] at h
          rcases hb : recvBody length s1 length [] with ⟨o2, s2⟩
          rw [hb] at h
          cases o2 with
          | none => simp at h
          | some message =>
            simp only [Prod.mk.injEq, Outcome.ret.injEq, Option.some.injEq] at h
            obtain ⟨⟨rfl, rfl⟩, rfl⟩ := h
            obtain ⟨got, hb1, hb2, hb3⟩ := recvBody_some length s1 s2 length [] message
              (by simp) hb
            simp only [List.nil_append] at hb1
            subst hb1
            refine ⟨[c1, c2, c3, c4, c5, c6, c7, c8], rfl, ?_, ?_⟩
            · rw [hg2, hb2]; simp [Socket.record]
            · rw [hst, hb3]

theorem PlanPositive.sum_nonneg : ∀ (plan : List Int), PlanPositive plan → 0 ≤ plan.sum := by
  intro plan
  induction plan with
  | nil => intro _; simp
  | cons p ps ih =>
    intro h
    have hp : 0 < p := h p (by simp)
    have := ih (fun r hr => h r (by simp [hr]))
    simp only [List.sum_cons]
    omega

/-- What one planned `recv` call does: a planned value that is not positive is
returned as it is; a positive one bounds the number of bytes stored. -/
theorem recv_plan (s : Socket) (len : Nat) (p : Int) (plan : List Int)
    (hp : s.recvPlan = p :: plan) :
    (recv s len).2.2.recvPlan = plan ∧ (p ≤ 0 → (recv s len).1 ≤ 0) ∧
      (0 < p → ((recv s len).2.1.length : Int) ≤ p) := by
  unfold recv
  simp only [hp]
  by_cases hr : p ≤ 0
  · simp only [hr, if_true, List.length_nil, Nat.cast_zero, true_and]
    exact ⟨fun _ => trivial, fun h => by omega⟩
  · simp only [hr, if_false, List.length_take, true_and]
    refine ⟨fun h => h.elim, fun _ => ?_⟩
    have h1 : min (min p.toNat len) s.incoming.length ≤ p.toNat := by omega
    have h2 : (p.toNat : Int) = p := Int.toNat_of_nonneg (by omega)
    have h3 : min (min (min p.toNat len) s.incoming.length) s.incoming.length ≤ p.toNat := by
      omega
    omega

/-- The header loop on a plan whose first value that is not positive comes
after the values `pre`: when the loop ends well it has used only a part of
`pre`, and has read no more bytes than that part allows. -/
theorem recvHeader_plan : ∀ (fuel : Nat) (s s1 : Socket) (header h : Str) (pre : List Int)
    (r : Int) (post : List Int),
    s.recvPlan = pre ++ r :: post → PlanPositive pre → r ≤ 0 →
    recvHeader fuel s header = (some h, s1) →
    ∃ pre1 pre2, pre = pre1 ++ pre2 ∧ s1.recvPlan = pre2 ++ r :: post ∧
      (h.length : Int) ≤ header.length + pre1.sum := by
  intro fuel
  induction fuel with
  | zero =>
    intro s s1 header h pre r post hplan _ _ hr
    simp only [recvHeader] at hr
    by_cases hlt : header.length < 9
    · simp [hlt] at hr
    · simp only [hlt, if_false, Prod.mk.injEq, Option.some.injEq] at hr
      obtain ⟨rfl, rfl⟩ := hr
      exact ⟨[], pre, rfl, hplan, by simp⟩
  | succ f ih =>
    intro s s1 header h pre r post hplan hpos hr0 hr
    unfold recvHeader at hr
    by_cases hlt : header.length < 9
    · simp only [hlt, if_true] at hr
      cases pre with
      | nil =>
        obtain ⟨_, hp2, _⟩ := recv_plan s (9 - header.length) r post hplan
        have hfail := hp2 hr0
        rcases hrc : recv s (9 - header.length) with ⟨received, buf, s0⟩
        rw [hrc] at hr hfail
        simp only at hr hfail
        simp [hfail] at hr
      | cons p pre' =>
        have hp0 : 0 < p := hpos p (by simp)
        obtain ⟨hp1, _, hp3⟩ := recv_plan s (9 - header.length) p (pre' ++ r :: post) hplan
        have hlen := hp3 hp0
        rcases hrc : recv s (9 - header.length) with ⟨received, buf, s0⟩
        rw [hrc] at hr hp1 hlen
        simp only at hr hp1 hlen
        by_cases hrz : received ≤ 0
        · simp [hrz] at hr
        · simp only [hrz, if_false] at hr
          obtain ⟨pre1, pre2, he, hs1, hl⟩ := ih s0 s1 (header ++ buf) h pre' r post hp1
            (fun x hx => hpos x (by simp [hx])) hr0 hr
          refine ⟨p :: pre1, pre2, by rw [he]; rfl, hs1, ?_⟩
          simp only [List.length_append, Nat.cast_add, List.sum_cons] at hl ⊢
          omega
    · simp only [hlt, if_false, Prod.mk.injEq, Option.some.injEq] at hr
      obtain ⟨rfl, rfl⟩ := hr
      exact ⟨[], pre, rfl, hplan, by simp⟩

/-- The same for the payload loop. -/
theorem recvBody_plan : ∀ (fuel : Nat) (s s1 : Socket) (length : Nat) (msg m : Str)
    (pre : List Int) (r : Int) (post : List Int),
    s.recvPlan = pre ++ r :: post → PlanPositive pre → r ≤ 0 →
    recvBody fuel s length msg = (some m, s1) →
    ∃ pre1 pre2, pre = pre1 ++ pre2 ∧ s1.recvPlan = pre2 ++ r :: post ∧
      (m.length : Int) ≤ msg.length + pre1.sum := by
  intro fuel
  induction fuel with
  | zero =>
    intro s s1 length msg m pre r post hplan _ _ hr
    simp only [recvBody] at hr
    by_cases hlt : msg.length < length
    · simp [hlt] at hr
    · simp only [hlt, if_false, Prod.mk.injEq, Option.some.injEq] at hr
      obtain ⟨rfl, rfl⟩ := hr
      exact ⟨[], pre, rfl, hplan, by simp⟩
  | succ f ih =>
    intro s s1 length msg m pre r post hplan hpos hr0 hr
    unfold recvBody at hr
    by_cases hlt : msg.length < length
    · simp only [hlt, if_true] at hr
      cases pre with
      | nil =>
        obtain ⟨_, hp2, _⟩ :=
          recv_plan s (min (length - msg.length) (BUFFER_SIZE - 1)) r post hplan
        have hfail := hp2 hr0
        rcases hrc : recv s (min (length - msg.length) (BUFFER_SIZE - 1)) with ⟨received, buf, s0⟩
        rw [hrc] at hr hfail
        simp only at hr hfail
        simp [hfail] at hr
      | cons p pre' =>
        have hp0 : 0 < p := hpos p (by simp)
        obtain ⟨hp1, _, hp3⟩ := recv_plan s (min (length - msg.length) (BUFFER_SIZE - 1)) p
          (pre' ++ r :: post) hplan
        have hlen := hp3 hp0
        rcases hrc : recv s (min (length - msg.length) (BUFFER_SIZE - 1)) with ⟨received, buf, s0⟩
        rw [hrc] at hr hp1 hlen
        simp only at hr hp1 hlen
        by_cases hrz : received ≤ 0
        · simp [hrz] at hr
        · simp only [hrz, if_false] at hr
          obtain ⟨pre1, pre2, he, hs1, hl⟩ := ih s0 s1 length (msg ++ buf) m pre' r post hp1
            (fun x hx => hpos x (by simp [hx])) hr0 hr
          refine ⟨p :: pre1, pre2, by rw [he]; rfl, hs1, ?_⟩
          simp only [List.length_append, Nat.cast_add, List.sum_cons] at hl ⊢
          omega
    · simp only [hlt, if_false, Prod.mk.injEq, Option.some.injEq] at hr
      obtain ⟨rfl, rfl⟩ := hr
      exact ⟨[], pre, rfl, hplan, by simp⟩

/-- The stream ends before nine header bytes: `receiveMessage` returns false. -/
theorem receiveMessage_short_header (s : Socket) (h : s.incoming.length < 9) :
    (receiveMessage s).1 = .ret none := by
  unfold receiveMessage
  rcases hh : recvHeader 9 s [] with ⟨o, s1⟩
  cases o with
  | none => rfl
  | some header =>
    obtain ⟨got, hg1, hg2, hg3⟩ := recvHeader_some 9 s s1 [] header (by simp) hh
    simp only [List.nil_append] at hg1
    subst hg1
    rw [hg2, List.length_append] at h
    omega

/-- The header read by `receiveMessage` when the stream starts with nine bytes
`t :: lenStr`. -/
theorem recvHeader_start (s s1 : Socket) (header : Str) (t : Char) (lenStr rest : Str)
    (hin : s.incoming = t :: lenStr ++ rest) (hlen : lenStr.length = 8)
    (hh : recvHeader 9 s [] = (some header, s1)) :
    header = t :: lenStr ∧ s1.incoming = rest ∧
      header.headD '\x00' = t ∧ (header.drop 1).take 8 = lenStr := by
  obtain ⟨got, hg1, hg2, hg3⟩ := recvHeader_some 9 s s1 [] header (by simp) hh
  simp only [List.nil_append] at hg1
  subst hg1
  rw [hin] at hg2
  have hl : (t :: lenStr).length = header.length := by simp [hlen, hg3]
  have h1 := List.append_inj_left hg2 hl
  have h2 := List.append_inj_right hg2 hl
  subst h1
  refine ⟨rfl, h2.symm, rfl, ?_⟩
  simp only [List.drop_succ_cons, List.drop_zero]
  exact List.take_of_length_le (by omega)

/-- The stream ends before the stated number of payload bytes: `receiveMessage`
returns false. -/
theorem receiveMessage_short_body (s : Socket) (t : Char) (lenStr rest : Str) (L : Nat)
    (hin : s.incoming = t :: lenStr ++ rest) (hlen : lenStr.length = 8)
    (hst : stoul lenStr 16 = .ret L) (hmax : L ≤ STRING_MAX_SIZE) (hshort : rest.length < L) :
    (receiveMessage s).1 = .ret none := by
  unfold receiveMessage
  rcases hh : recvHeader 9 s [] with ⟨o, s1⟩
  cases o with
  | none => rfl
  | some header =>
    obtain ⟨_, h1, _, h3⟩ := recvHeader_start s s1 header t lenStr rest hin hlen hh
    have hm : ¬ STRING_MAX_SIZE < L := by omega
    simp only [h3, hst, hm, if_false]
    rcases hb : recvBody L s1 L [] with ⟨o2, s2⟩
    cases o2 with
    | none => rfl
    | some message =>
      obtain ⟨got, hb1, hb2, hb3⟩ := recvBody_some L s1 s2 L [] message (by simp) hb
      simp only [List.nil_append] at hb1
      subst hb1
      rw [h1] at hb2
      rw [hb2, List.length_append] at hshort
      omega

/-- A `recv` call fails before nine header bytes can have arrived:
`receiveMessage` returns false. -/
theorem receiveMessage_failed_header (s : Socket) (pre : List Int) (r : Int) (post : List Int)
    (hplan : s.recvPlan = pre ++ r :: post) (hpos : PlanPositive pre) (hr : r ≤ 0)
    (hsum : pre.sum < 9) : (receiveMessage s).1 = .ret none := by
  unfold receiveMessage
  rcases hh : recvHeader 9 s [] with ⟨o, s1⟩
  cases o with
  | none => rfl
  | some header =>
    obtain ⟨_, _, _, hg3⟩ := recvHeader_some 9 s s1 [] header (by simp) hh
    obtain ⟨pre1, pre2, he, _, hl⟩ := recvHeader_plan 9 s s1 [] header pre r post hplan hpos hr hh
    have h2 : 0 ≤ pre2.sum :=
      PlanPositive.sum_nonneg pre2 (fun x hx => hpos x (by rw [he]; simp [hx]))
    rw [he, List.sum_append] at hsum
    simp only [List.length_nil, Nat.cast_zero, zero_add] at hl
    omega

/-- A `recv` call fails before the stated number of payload bytes can have
arrived: `receiveMessage` returns false. -/
theorem receiveMessage_failed_body (s : Socket) (pre : List Int) (r : Int) (post : List Int)
    (t : Char) (lenStr rest : Str) (L : Nat)
    (hplan : s.recvPlan = pre ++ r :: post) (hpos : PlanPositive pre) (hr : r ≤ 0)
    (hin : s.incoming = t :: lenStr ++ rest) (hlen : lenStr.length = 8)
    (hst : stoul lenStr 16 = .ret L) (hmax : L ≤ STRING_MAX_SIZE)
    (hsum : pre.sum < 9 + (L : Int)) : (receiveMessage s).1 = .ret none := by
  unfold receiveMessage
  rcases hh : recvHeader 9 s [] with ⟨o, s1⟩
  cases o with
  | none => rfl
  | some header =>
    obtain ⟨_, _, _, hg3⟩ := recvHeader_some 9 s s1 [] header (by simp) hh
    obtain ⟨pre1, pre2, he, hs1, hl⟩ :=
      recvHeader_plan 9 s s1 [] header pre r post hplan hpos hr hh
    obtain ⟨_, h1, _, h3⟩ := recvHeader_start s s1 header t lenStr rest hin hlen hh
    have hm : ¬ STRING_MAX_SIZE < L := by omega
    simp only [h3, hst, hm, if_false]
    rcases hb : recvBody L s1 L [] with ⟨o2, s2⟩
    cases o2 with
    | none => rfl
    | some message =>
      obtain ⟨_, _, _, hb3⟩ := recvBody_some L s1 s2 L [] message (by simp) hb
      have hpos2 : PlanPositive pre2 := fun x hx => hpos x (by rw [he]; simp [hx])
      obtain ⟨pre3, pre4, he2, _, hl2⟩ :=
        recvBody_plan L s1 s2 L [] message pre2 r post hs1 hpos2 hr hb
      have h4 : 0 ≤ pre4.sum :=
        PlanPositive.sum_nonneg pre4 (fun x hx => hpos2 x (by rw [he2]; simp [hx]))
      rw [he, he2, List.sum_append, List.sum_append] at hsum
      simp only [List.length_nil, Nat.cast_zero, zero_add] at hl hl2
      omega

/-! ## Places of the scratch directories -/

theorem showNat_injective (a b : Nat) (h : showNat a = showNat b) : a = b := by
  rw [← decValue_showNat a, ← decValue_showNat b, h]

theorem tempDirOf_injective (a b : Nat) (h : LogServer.tempDirOf a = LogServer.tempDirOf b) :
    a = b := by
  unfold LogServer.tempDirOf at h
  exact showNat_injective a b (List.append_cancel_left h)

theorem splitPath_no_slash : ∀ (p : Str), '/' ∉ p → splitPath p = [p] := by
  intro p
  induction p with
  | nil => intro _; rfl
  | cons c cs ih =>
    intro h
    simp only [List.mem_cons, not_or] at h
    have hc : ¬ c = '/' := fun e => h.1 e.symm
    simp only [splitPath, hc, if_false, ih h.2]

theorem splitPath_append_slash : ∀ (a b : Str), '/' ∉ a →
    splitPath (a ++ '/' :: b) = a :: splitPath b := by
  intro a
  induction a with
  | nil => intro b _; simp [splitPath]
  | cons c cs ih =>
    intro b h
    simp only [List.mem_cons, not_or] at h
    have hc : ¬ c = '/' := fun e => h.1 e.symm
    have ih' := ih b h.2
    simp only [List.cons_append, splitPath, hc, if_false]
    simp only [List.append_eq] at ih' ⊢
    rw [ih']

theorem tempDirOf_no_slash (n : Nat) : '/' ∉ LogServer.tempDirOf n := by
  unfold LogServer.tempDirOf
  intro h
  rcases List.mem_append.1 h with h | h
  · revert h; decide
  · obtain ⟨d, hd, he⟩ := mem_showNat n _ h
    revert he
    interval_cases d <;> decide

/-- The scratch directory of a session lies directly in the working directory
under its own name. -/
theorem resolve_tempDirOf (n : Nat) :
    resolve (LogServer.tempDirOf n) = { absolute := false, parts := [LogServer.tempDirOf n] } := by
  have hs := splitPath_no_slash _ (tempDirOf_no_slash n)
  unfold resolve
  rw [hs]
  simp [LogServer.tempDirOf, walkStep]

/-- A file name without separator, other than the empty name, `.` and `..`,
denotes a place directly in the scratch directory. -/
theorem resolve_upload_plain (n : Nat) (name : Str) (hslash : '/' ∉ name) (h0 : name ≠ [])
    (h1 : name ≠ ".".toList) (h2 : name ≠ "..".toList) :
    resolve (LogServer.tempDirOf n ++ "/".toList ++ name) =
      { absolute := false, parts := [LogServer.tempDirOf n, name] } := by
  have hs : splitPath (LogServer.tempDirOf n ++ "/".toList ++ name) =
      [LogServer.tempDirOf n, name] := by
    have : LogServer.tempDirOf n ++ "/".toList ++ name = LogServer.tempDirOf n ++ '/' :: name := by
      simp
    rw [this, splitPath_append_slash _ _ (tempDirOf_no_slash n), splitPath_no_slash _ hslash]
  unfold resolve
  rw [hs]
  have h1' : ¬ name = ['.'] := h1
  have h2' : ¬ name = ['.', '.'] := h2
  simp [LogServer.tempDirOf, walkStep, h0, h1', h2']

theorem inside_upload_plain (n : Nat) (name : Str) (hslash : '/' ∉ name) (h0 : name ≠ [])
    (h1 : name ≠ ".".toList) (h2 : name ≠ "..".toList) :
    (resolve (LogServer.tempDirOf n ++ "/".toList ++ name)).inside
      (resolve (LogServer.tempDirOf n)) = true := by
  rw [resolve_upload_plain n name hslash h0 h1 h2, resolve_tempDirOf]
  have h2' : ¬ ['.', '.'] = name := fun e => h2 e.symm
  simp [Location.inside, h2']

/-! ## A session without a Request -/

theorem recv_sendPlan (s : Socket) (len : Nat) : (recv s len).2.2.sendPlan = s.sendPlan := by
  unfold recv
  cases s.recvPlan with
  | nil => rfl
  | cons r plan =>
    by_cases hr : r ≤ 0
    · simp [hr]
    · simp [hr]

theorem recvHeader_sendPlan : ∀ (fuel : Nat) (s : Socket) (header : Str),
    (recvHeader fuel s header).2.sendPlan = s.sendPlan := by
  intro fuel
  induction fuel with
  | zero => intro s header; rfl
  | succ f ih =>
    intro s header
    unfold recvHeader
    by_cases hlt : header.length < 9
    · simp only [hlt, if_true]
      have hk := recv_sendPlan s (9 - header.length)
      rcases hrc : recv s (9 - header.length) with ⟨received, buf, s1⟩
      rw [hrc] at hk
      simp only at hk ⊢
      by_cases hr : received ≤ 0
      · simp only [hr, if_true]; exact hk
      · simp only [hr, if_false]; rw [ih, hk]
    · simp only [hlt, if_false]

theorem recvBody_sendPlan : ∀ (fuel : Nat) (s : Socket) (length : Nat) (msg : Str),
    (recvBody fuel s length msg).2.sendPlan = s.sendPlan := by
  intro fuel
  induction fuel with
  | zero => intro s length msg; rfl
  | succ f ih =>
    intro s length msg
    unfold recvBody
    by_cases hlt : msg.length < length
    · simp only [hlt, if_true]
      have hk := recv_sendPlan s (min (length - msg.length) (BUFFER_SIZE - 1))
      rcases hrc : recv s (min (length - msg.length) (BUFFER_SIZE - 1)) with ⟨received, buf, s1⟩
      rw [hrc] at hk
      simp only at hk ⊢
      by_cases hr : received ≤ 0
      · simp only [hr, if_true]; exact hk
      · simp only [hr, if_false]; rw [ih, hk]
    · simp only [hlt, if_false]

/-- A call of `receiveMessage` writes nothing and adds one event to the log. -/
theorem receiveMessage_trace (s : Socket) :
    (receiveMessage s).2.outgoing = s.outgoing ∧ (receiveMessage s).2.sendPlan = s.sendPlan ∧
      (receiveMessage s).2.log = s.log ++ [receiveEvent (receiveMessage s).1] := by
  unfold receiveMessage
  obtain ⟨h1, h2⟩ := recvHeader_keeps 9 s []
  have h3 := recvHeader_sendPlan 9 s []
  rcases hh : recvHeader 9 s [] with ⟨o, s1⟩
  rw [hh] at h1 h2 h3
  simp only at h1 h2 h3
  cases o with
  | none => simp [Socket.record, receiveEvent, h1, h2, h3]
  | some header =>
    simp only
    cases hst : stoul ((header.drop 1).take 8) 16 with
    | threw e => simp [Socket.record, receiveEvent, h1, h2, h3]
    | ret length =>
      simp only
      by_cases hmax : STRING_MAX_SIZE < length
      · simp [hmax, Socket.record, receiveEvent, h1, h2, h3]
      · simp only [hmax, if_false]
        obtain ⟨g1, g2⟩ := recvBody_keeps length s1 length []
        have g3 := recvBody_sendPlan length s1 length []
        rcases hb : recvBody length s1 length [] with ⟨o2, s2⟩
        rw [hb] at g1 g2 g3
        simp only at g1 g2 g3
        cases o2 with
        | none => simp [Socket.record, receiveEvent, h1, h2, h3, g1, g2, g3]
        | some message => simp [Socket.record, receiveEvent, h1, h2, h3, g1, g2, g3]

theorem receiveEvent_ne_sent (o : Outcome (Option (Char × Str))) (t : Char) (p : Str)
    (ok : Bool) : receiveEvent o ≠ .sent t p ok := by
  unfold receiveEvent
  split <;> simp

/-! ## A session without files -/

/-- On a connection that takes every byte offered the read loop of `sendFile`
succeeds. -/
theorem sendChunks_ideal : ∀ (fuel : Nat) (s : Socket) (rest : Str) (eof : Bool),
    s.sendPlan = [] → (eof = true ∨ rest.length / BUFFER_SIZE < fuel) →
    ∃ s', LogClient.sendChunks fuel s rest eof = (true, s') ∧ s'.sendPlan = [] := by
  intro fuel
  induction fuel with
  | zero =>
    intro s rest eof hs h
    have he : eof = true := by
      rcases h with h | h
      · exact h
      · exact absurd h (Nat.not_lt_zero _)
    subst he
    exact ⟨s, rfl, hs⟩
  | succ f ih =>
    intro s rest eof hs h
    unfold LogClient.sendChunks
    by_cases he : eof = true
    · simp only [he, if_true]
      exact ⟨s, rfl, hs⟩
    · simp only [he, Bool.false_eq_true, if_false]
      have hnext : decide (rest.length < BUFFER_SIZE) = true ∨
          (rest.drop BUFFER_SIZE).length / BUFFER_SIZE < f := by
        by_cases hlt : rest.length < BUFFER_SIZE
        · left; simp [hlt]
        · right
          have h1 : rest.length / BUFFER_SIZE < f + 1 := by
            rcases h with h | h
            · exact absurd h he
            · exact h
          simp only [List.length_drop, BUFFER_SIZE] at h1 hlt ⊢
          omega
      by_cases hpos : 0 < (rest.take BUFFER_SIZE).length
      · simp only [hpos, if_true]
        rw [sendMessage_ideal s MSG_FILE_CHUNK (rest.take BUFFER_SIZE) hs]
        simp only [Bool.not_true, Bool.false_eq_true, if_false]
        exact ih _ _ _ hs hnext
      · simp only [hpos, if_false]
        exact ih _ _ _ hs hnext

/-- On a connection that takes every byte offered, and with an Ack coming,
`sendFile` of a readable file returns true and has read that Ack. -/
theorem sendFile_ideal (c : LogClient) (fs : FileSystem) (filepath content a : Str)
    (rest : List Message) (hconn : c.connected_ = true) (hread : fs.read filepath = some content)
    (hs : c.socket_.sendPlan = []) (hfeeds : Feeds c.socket_ ((MSG_ACK, a) :: rest)) :
    ∃ c', c.sendFile fs filepath = (.ret true, c') ∧ c'.connected_ = true ∧
      c'.socket_.sendPlan = [] ∧ Feeds c'.socket_ rest := by
  have h1 := sendMessage_ideal c.socket_ MSG_FILE_START (pathFilename filepath) hs
  obtain ⟨s2, h2, hs2⟩ := sendChunks_ideal (content.length + 1)
    { c.socket_ with
      outgoing := c.socket_.outgoing ++
        ((MSG_FILE_START :: hexWidth8 (pathFilename filepath).length).take 9 ++
          pathFilename filepath),
      log := c.socket_.log ++ [.sent MSG_FILE_START (pathFilename filepath) true] }
    content false hs (Or.inr (by
      have := Nat.div_le_self content.length BUFFER_SIZE
      omega))
  obtain ⟨_, _, _, _, k4, k5, _⟩ := sendChunks_true _ _ _ _ _ (by simp) h2
  have h3 := sendMessage_ideal s2 MSG_FILE_END [] hs2
  have hf3 : Feeds { s2 with
      outgoing := s2.outgoing ++ ((MSG_FILE_END :: hexWidth8 ([] : Str).length).take 9 ++ []),
      log := s2.log ++ [.sent MSG_FILE_END [] true] } ((MSG_ACK, a) :: rest) := by
    refine ⟨?_, ?_, hfeeds.2.2⟩
    · show s2.incoming = _
      rw [k4]; exact hfeeds.1
    · show PlanPositive s2.recvPlan
      rw [k5]; exact hfeeds.2.1
  obtain ⟨s4, h4, hf4, _, hsp4, _⟩ := receiveMessage_feeds _ _ _ hf3
  refine ⟨{ c with socket_ := s4 }, ?_, hconn, ?_, hf4⟩
  · unfold LogClient.sendFile
    simp only [hconn, Bool.not_true, Bool.false_eq_true, if_false, hread, Option.isNone_some,
      h1, h2, h3, h4, ne_eq, not_true_eq_false]
  · simp only [hsp4, hs2]

/-- The loop of `sendLogFiles` on a connection that takes every byte offered,
with one Ack coming for each file: every file is sent, in order. -/
theorem sendFiles_ideal (fs : FileSystem) : ∀ (files : List Str) (acks : List Str)
    (c : LogClient) (rest : List Message),
    acks.length = files.length → c.connected_ = true → c.socket_.sendPlan = [] →
    (∀ f ∈ files, (fs.read f).isSome = true) →
    (∀ f ∈ files, (pathFilename f).length < 2 ^ 32) →
    Feeds c.socket_ (acks.map (fun a => ((MSG_ACK, a) : Message)) ++ rest) →
    ∃ c' uploads, LogClient.sendFiles fs files c = (.ret true, c') ∧ c'.connected_ = true ∧
      c'.socket_.sendPlan = [] ∧ Feeds c'.socket_ rest ∧
      List.Forall₂ (IsUploadOf fs) files uploads ∧
      c'.socket_.outgoing = c.socket_.outgoing ++ wireAll uploads.flatten := by
  intro files
  induction files with
  | nil =>
    intro acks c rest hlen hconn hs _ _ hfeeds
    have ha : acks = [] := List.eq_nil_of_length_eq_zero hlen
    subst ha
    exact ⟨c, [], rfl, hconn, hs, hfeeds, List.Forall₂.nil, by simp [wireAll]⟩
  | cons f files ih =>
    intro acks c rest hlen hconn hs hread hname hfeeds
    cases acks with
    | nil => simp at hlen
    | cons a acks =>
      simp only [List.length_cons, Nat.add_right_cancel_iff] at hlen
      obtain ⟨content, hc⟩ := Option.isSome_iff_exists.1 (hread f (by simp))
      obtain ⟨c1, h1, hconn1, hs1, hf1⟩ := sendFile_ideal c fs f content a
        (acks.map (fun a => ((MSG_ACK, a) : Message)) ++ rest) hconn hc hs
        (by simpa using hfeeds)
      obtain ⟨content', chunks, _, t1, t2, t3, t4, _⟩ := sendFile_true c c1 fs f h1
      obtain ⟨c', uploads, h2, hconn2, hs2, hf2, hall, hout⟩ := ih acks c1 rest hlen hconn1 hs1
        (fun x hx => hread x (by simp [hx])) (fun x hx => hname x (by simp [hx])) hf1
      refine ⟨c', ((MSG_FILE_START, pathFilename f) ::
          chunks.map (fun ch => ((MSG_FILE_CHUNK, ch) : Message)) ++ [(MSG_FILE_END, [])]) ::
          uploads, ?_, hconn2, hs2, hf2, ?_, ?_⟩
      · simp only [LogClient.sendFiles, h1, h2]
      · exact List.Forall₂.cons ⟨content', chunks, t1, t2, t3, rfl⟩ hall
      · rw [hout, t4 (hname f (by simp)), List.flatten_cons, wireAll_append, List.append_assoc]
        congr 1
        rw [← wireAll_append, ← wireAll_append]

/-- What `listFilesInDirectory` returns are regular files of a directory. -/
theorem listFilesInDirectory_ret (fs : FileSystem) (directory : Str) (files : List Str)
    (h : listFilesInDirectory fs directory = .ret files) :
    fs.isDirectory directory = true ∧ ∀ f ∈ files, (fs.read f).isSome = true := by
  unfold listFilesInDirectory at h
  cases hl : fs.listDirectory directory with
  | none => rw [hl] at h; cases h
  | some entries =>
    rw [hl] at h
    simp only [Outcome.ret.injEq] at h
    refine ⟨?_, ?_⟩
    · unfold FileSystem.listDirectory at hl
      by_cases hd : fs.isDirectory directory = true
      · exact hd
      · simp [hd] at hl
    · intro f hf
      rw [← h] at hf
      have := (List.mem_filter.1 hf).2
      simp only [Bool.and_eq_true] at this
      exact this.1

/-! ## Length fields of eight hexadecimal digits -/

/-- A hexadecimal digit is neither white space, nor a sign, nor the letter of
the `0x` mark. -/
theorem hexDigit_plain (c : Char) (h : (digitIn 16 c).isSome = true) :
    isSpace c = false ∧ c ≠ '-' ∧ c ≠ '+' ∧ c ≠ 'x' ∧ c ≠ 'X' := by
  refine ⟨?_, ?_, ?_, ?_, ?_⟩
  · cases hs : isSpace c with
    | false => rfl
    | true =>
      exfalso
      simp only [isSpace, Bool.or_eq_true, beq_iff_eq] at hs
      rcases hs with ((((hs | hs) | hs) | hs) | hs) | hs <;> (subst hs; revert h; decide)
  · intro e; subst e; revert h; decide
  · intro e; subst e; revert h; decide
  · intro e; subst e; revert h; decide
  · intro e; subst e; revert h; decide

theorem scanDigits_any (base : Nat) : ∀ (h : Str) (acc : Nat) (any : Bool), h ≠ [] →
    (∀ c ∈ h, (digitIn base c).isSome = true) → (scanDigits base h acc any).2 = true := by
  intro h
  induction h with
  | nil => intro acc any hne; exact absurd rfl hne
  | cons c cs ih =>
    intro acc any _ hall
    have hc := hall c (by simp)
    cases hd : digitIn base c with
    | none => simp [hd] at hc
    | some d =>
      simp only [scanDigits, hd]
      cases cs with
      | nil => rfl
      | cons c' cs' => exact ih _ _ (by simp) (fun x hx => hall x (by simp [hx]))

theorem hexFold_lt : ∀ (h : Str) (acc : Nat), (∀ c ∈ h, (digitIn 16 c).isSome = true) →
    h.foldl (fun a c => a * 16 + (digitVal c).getD 0) acc < (acc + 1) * 16 ^ h.length := by
  intro h
  induction h with
  | nil => intro acc _; simp
  | cons c cs ih =>
    intro acc hall
    have hc := hall c (by simp)
    cases hd : digitIn 16 c with
    | none => simp [hd] at hc
    | some d =>
      obtain ⟨hv, hlt⟩ := digitIn_some hd
      have := ih (acc * 16 + d) (fun x hx => hall x (by simp [hx]))
      simp only [List.foldl_cons, hv, Option.getD_some, List.length_cons, pow_succ]
      calc _ < (acc * 16 + d + 1) * 16 ^ cs.length := this
        _ ≤ ((acc + 1) * 16) * 16 ^ cs.length := Nat.mul_le_mul_right _ (by omega)
        _ = (acc + 1) * (16 ^ cs.length * 16) := by ring

/-- A length field of eight hexadecimal digits, of either letter case, is read
by `std::stoul` as its base-16 value, which is below 2^32. -/
theorem stoul_hexDigits (lenStr : Str) (hlen : lenStr.length = 8)
    (hall : ∀ c ∈ lenStr, (digitIn 16 c).isSome = true) :
    stoul lenStr 16 = .ret (hexValue lenStr) ∧ hexValue lenStr < 2 ^ 32 := by
  have hval := scanDigits_foldl 16 lenStr 0 false (fun c hc => hall c hc)
  have hany := scanDigits_any 16 lenStr 0 false (by
    intro e; rw [e] at hlen; simp at hlen) hall
  have hlt := hexFold_lt lenStr 0 hall
  rw [hlen] at hlt
  have hb : hexValue lenStr < 2 ^ 32 := by
    unfold hexValue
    have h32 : (2 : Nat) ^ 32 = 4294967296 := by norm_num
    have h16 : (16 : Nat) ^ 8 = 4294967296 := by norm_num
    omega
  refine ⟨?_, hb⟩
  match lenStr, hlen with
  | [c0, c1, c2, c3, c4, c5, c6, c7], _ =>
    obtain ⟨hsp, hm, hp, _, _⟩ := hexDigit_plain c0 (hall c0 (by simp))
    obtain ⟨_, _, _, hx, hX⟩ := hexDigit_plain c1 (hall c1 (by simp))
    have hskip : skipSpaces (c0 :: c1 :: [c2, c3, c4, c5, c6, c7]) =
        c0 :: c1 :: [c2, c3, c4, c5, c6, c7] := by
      simp [skipSpaces, hsp]
    have hscan : scanDigits 16 [c0, c1, c2, c3, c4, c5, c6, c7] 0 false =
        (hexValue [c0, c1, c2, c3, c4, c5, c6, c7], true) := by
      apply Prod.ext
      · exact hval
      · exact hany
    have hno : ¬ (2 ^ 64 ≤ hexValue [c0, c1, c2, c3, c4, c5, c6, c7]) := by
      have h32 : (2 : Nat) ^ 32 = 4294967296 := by norm_num
      have h64 : (2 : Nat) ^ 64 = 18446744073709551616 := by norm_num
      omega
    simp only [stoul, scanNumber, hskip, takeSign_of_ne _ _ hm hp,
      skipHexPrefix_of_ne _ _ _ _ hx hX, hscan]
    simp only [if_true, hno, if_false, Bool.false_eq_true]

/-! ## Fields of a payload -/

/-- A string is greater than each of its proper beginnings. -/
theorem strGt_append (e : Str) (c : Char) (cs : Str) : strGt (e ++ c :: cs) e = true := by
  unfold strGt
  simp only [decide_eq_true_eq]
  induction e with
  | nil =>
    rw [List.nil_append, strCompare_nil_right]
    simp only [List.length_cons]
    omega
  | cons a as ih =>
    rw [List.cons_append, strCompare_cons_cons]
    simp only [lt_self_iff_false, if_false]
    exact ih

/-- With an end date that is a proper beginning of the timestamp the date
filter rejects the timestamp. -/
theorem isDateInRange_beyond_end (e : Str) (c : Char) (cs : Str) (startDate : Option Str) :
    isDateInRange (e ++ c :: cs) startDate (some e) = false := by
  unfold isDateInRange
  cases startDate with
  | none => simp [strGt_append]
  | some start =>
    by_cases h : strLt (e ++ c :: cs) start = true
    · simp [h]
    · simp [h, strGt_append]

theorem splitDelim_none (delim : Char) : ∀ (a : Str), delim ∉ a →
    splitDelim delim a = (a, none) := by
  intro a
  induction a with
  | nil => intro _; rfl
  | cons c cs ih =>
    intro h
    simp only [List.mem_cons, not_or] at h
    have hc : ¬ c = delim := fun e => h.1 e.symm
    simp only [splitDelim, hc, if_false, ih h.2]

theorem splitDelim_append (delim : Char) : ∀ (a b : Str), delim ∉ a →
    splitDelim delim (a ++ delim :: b) = (a, some b) := by
  intro a
  induction a with
  | nil => intro b _; simp [splitDelim]
  | cons c cs ih =>
    intro b h
    simp only [List.mem_cons, not_or] at h
    have hc : ¬ c = delim := fun e => h.1 e.symm
    have ih' := ih b h.2
    simp only [List.cons_append, splitDelim, hc, if_false]
    simp only [List.append_eq] at ih' ⊢
    rw [ih']

/-- Reading a field that is followed by a delimiter. -/
theorem getline_field (delim : Char) (a b str : Str) (h : delim ∉ a) :
    getline { rest := a ++ delim :: b, good := true } str delim =
      (a, { rest := b, good := true }) := by
  simp [getline, splitDelim_append delim a b h]

/-- Reading the last field, which runs to the end of the data. -/
theorem getline_last (delim : Char) (a str : Str) (h : delim ∉ a) :
    getline { rest := a, good := true } str delim = (a, { rest := [], good := false }) := by
  simp [getline, splitDelim_none delim a h]

/-- Reading from a stream that is no longer good leaves the string alone. -/
theorem getline_bad (delim : Char) (rest str : Str) :
    getline { rest := rest, good := false } str delim = (str, { rest := rest, good := false }) := by
  simp [getline]

theorem analysisTypeToString_no_bar (type : AnalysisType) :
    '|' ∉ analysisTypeToString type := by
  cases type <;> decide

theorem stringToAnalysisType_toString (type : AnalysisType) :
    stringToAnalysisType (analysisTypeToString type) = type := by
  cases type <;> decide

theorem serializeRequest_eq (r : AnalysisRequest) :
    serializeRequest r = analysisTypeToString r.type ++ '|' ::
      (r.startDate.getD "NONE".toList ++ '|' :: r.endDate.getD "NONE".toList) := by
  obtain ⟨type, startDate, endDate⟩ := r
  cases startDate <;> cases endDate <;> simp [serializeRequest]

/-! ## Reading back a serialized result -/

/-- The decimal digits of a number start with a digit. -/
theorem showNat_cons (n : Nat) : ∃ d cs, d < 10 ∧ showNat n = Nat.digitChar d :: cs := by
  have hne : showNat n ≠ [] := by
    unfold showNat Nat.toDigits
    rw [Nat.toDigitsCore]
    split
    · simp
    · rw [toDigitsCore_append]; simp
  cases h : showNat n with
  | nil => exact absurd h hne
  | cons c cs =>
    obtain ⟨d, hd, hc⟩ := mem_showNat n c (by rw [h]; simp)
    exact ⟨d, cs, hd, by rw [hc]⟩

theorem skipHexPrefix_ten (s : Str) : skipHexPrefix 10 s = s := by
  unfold skipHexPrefix
  split
  · simp
  · rfl

theorem scanNumber_showNat (n : Nat) : scanNumber 10 (showNat n) = some (false, n) := by
  obtain ⟨d, cs, hd, hs⟩ := showNat_cons n
  obtain ⟨hsp, hm, hp, _, _⟩ := digitChar_plain d (by omega)
  have hscan := scanDigits_showNat n [] false
  simp only [List.append_nil, scanDigits] at hscan
  unfold scanNumber
  have hskip : skipSpaces (showNat n) = showNat n := by
    rw [hs]; simp [skipSpaces, hsp]
  have hsign : takeSign (showNat n) = (false, showNat n) := by
    rw [hs]; exact takeSign_of_ne _ _ hm hp
  simp only [hskip, hsign, skipHexPrefix_ten, hscan, if_true]

theorem scanNumber_minus_showNat (n : Nat) :
    scanNumber 10 ('-' :: showNat n) = some (true, n) := by
  have hscan := scanDigits_showNat n [] false
  simp only [List.append_nil, scanDigits] at hscan
  unfold scanNumber
  have hskip : skipSpaces ('-' :: showNat n) = '-' :: showNat n := by
    simp [skipSpaces, isSpace]
  have hsign : takeSign ('-' :: showNat n) = (true, showNat n) := rfl
  simp only [hskip, hsign, skipHexPrefix_ten, hscan, if_true]

/-- The call `std::stoull` reads back what `operator<<` wrote for a `size_t`. -/
theorem stoull_showNat (n : Nat) (h : n < 2 ^ 64) : stoull (showNat n) = .ret n := by
  have hn : ¬ (2 ^ 64 ≤ n) := by omega
  unfold stoull stoul
  rw [scanNumber_showNat]
  simp only [hn, if_false, Bool.false_eq_true]

/-- The call `std::stoi` reads back what `operator<<` wrote for an `int`. -/
theorem stoi_showInt (i : Int) (hlo : -2 ^ 31 ≤ i) (hhi : i < 2 ^ 31) :
    stoi (showInt i) = .ret i := by
  have hr : ¬ (i < -2 ^ 31 ∨ 2 ^ 31 ≤ i) := by omega
  unfold showInt
  by_cases hneg : i < 0
  · have habs : -(i.natAbs : Int) = i := by omega
    rw [if_pos hneg]
    unfold stoi
    have h := scanNumber_minus_showNat i.natAbs
    unfold showNat at h
    rw [h]
    simp only [if_true, habs, hr, if_false]
  · have habs : (i.natAbs : Int) = i := by omega
    rw [if_neg hneg]
    unfold stoi
    have h := scanNumber_showNat i.natAbs
    unfold showNat at h
    rw [h]
    simp only [Bool.false_eq_true, if_false, habs, hr]

theorem showNat_no_bar (n : Nat) : '|' ∉ showNat n := by
  intro h
  obtain ⟨d, hd, he⟩ := mem_showNat n _ h
  revert he
  interval_cases d <;> decide

theorem showInt_no_bar (i : Int) : '|' ∉ showInt i := by
  unfold showInt
  have h := showNat_no_bar i.natAbs
  unfold showNat at h
  split
  · intro hm
    rcases List.mem_cons.1 hm with hm | hm
    · revert hm; decide
    · exact h hm
  · exact h

theorem CountMap.set_new (m : CountMap) (k : Str) (v : Int) (h : k ∉ m.keys) :
    m.set k v = m ++ [(k, v)] := by
  induction m with
  | nil => rfl
  | cons a rest ih =>
    obtain ⟨k', v'⟩ := a
    simp only [CountMap.keys, List.map_cons, List.mem_cons, not_or] at h
    have hne : ¬ k' = k := fun e => h.1 e.symm
    simp only [CountMap.set, hne, if_false, List.cons_append]
    rw [ih h.2]

/-- Storing pairs with new, distinct keys one after the other appends them. -/
theorem foldl_set_append : ∀ (ps m : CountMap), (m.keys ++ ps.keys).Nodup →
    ps.foldl (fun (acc : CountMap) p => acc.set p.1 p.2) m = m ++ ps := by
  intro ps
  induction ps with
  | nil => intro m _; simp
  | cons p ps ih =>
    intro m h
    have hk : p.1 ∉ m.keys := by
      intro hm
      have := List.nodup_append.1 h
      exact this.2.2 hm (by simp [CountMap.keys])
    simp only [List.foldl_cons]
    rw [CountMap.set_new m p.1 p.2 hk, ih]
    · simp
    · have : (m ++ [(p.1, p.2)]).keys ++ CountMap.keys ps = m.keys ++ CountMap.keys (p :: ps) := by
        simp [CountMap.keys]
      rw [this]
      exact h

theorem resultGroups_cons (k : Str) (v : Int) (ps : CountMap) :
    resultGroups ((k, v) :: ps) = '|' :: (k ++ '|' :: (showInt v ++ resultGroups ps)) := by
  simp [resultGroups]

/-- The loop of `deserializeResult` reads back the groups written for pairs
whose keys hold no `|` and whose values fit an `int`. -/
theorem readCounts_groups : ∀ (ps : CountMap) (k : Str) (v : Int) (acc : AnalysisResult),
    '|' ∉ k → -2 ^ 31 ≤ v → v < 2 ^ 31 →
    (∀ p ∈ ps, '|' ∉ p.1 ∧ -2 ^ 31 ≤ p.2 ∧ p.2 < 2 ^ 31) →
    readCounts (ps.length + 1)
        { rest := k ++ '|' :: (showInt v ++ resultGroups ps), good := true } acc =
      .ret { acc with
        counts := ps.foldl (fun (m : CountMap) p => m.set p.1 p.2) (acc.counts.set k v) } := by
  intro ps
  induction ps with
  | nil =>
    intro k v acc hk hlo hhi _
    have hv := showInt_no_bar v
    simp only [List.length_nil, Nat.zero_add, readCounts, resultGroups, List.flatMap_nil,
      List.append_nil, getline_field '|' _ _ _ hk, getline_last '|' _ _ hv,
      stoi_showInt v hlo hhi, List.foldl_nil]
  | cons p ps ih =>
    intro k v acc hk hlo hhi hall
    obtain ⟨k', v'⟩ := p
    obtain ⟨hk', hlo', hhi'⟩ := hall (k', v') (by simp)
    have hv := showInt_no_bar v
    rw [resultGroups_cons, List.length_cons, readCounts]
    simp only [getline_field '|' _ _ _ hk, getline_field '|' _ _ _ hv, stoi_showInt v hlo hhi,
      List.foldl_cons]
    exact ih k' v' _ hk' hlo' hhi' (fun q hq => hall q (by simp [hq]))

theorem serializeResult_eq (r : AnalysisResult) :
    serializeResult r = analysisTypeToString r.type ++ '|' ::
      (showInt r.totalEntries ++ '|' :: (showNat r.counts.length ++ resultGroups r.counts)) := by
  simp [serializeResult, resultGroups]

/-- Reading back a serialized result whose entries have distinct keys without
`|` and whose numbers fit their C++ types. -/
theorem deserializeResult_serializeResult (r : AnalysisResult) (hkeys : r.counts.keys.Nodup)
    (hbar : ∀ k ∈ r.counts.keys, '|' ∉ k)
    (hlo : -2 ^ 31 ≤ r.totalEntries) (hhi : r.totalEntries < 2 ^ 31)
    (hvals : ∀ p ∈ r.counts, -2 ^ 31 ≤ p.2 ∧ p.2 < 2 ^ 31)
    (hsize : r.counts.length < 2 ^ 64) :
    deserializeResult (serializeResult r) = .ret r := by
  obtain ⟨type, counts, total⟩ := r
  simp only at hkeys hbar hlo hhi hvals hsize
  rw [serializeResult_eq]
  have hD := analysisTypeToString_no_bar type
  have hT := showInt_no_bar total
  have hN := showNat_no_bar counts.length
  unfold deserializeResult
  simp only [getline_field '|' _ _ _ hD, getline_field '|' _ _ _ hT,
    stringToAnalysisType_toString, stoi_showInt total hlo hhi]
  cases counts with
  | nil =>
    have hg : resultGroups [] = [] := rfl
    have hN0 : '|' ∉ showNat 0 := showNat_no_bar 0
    simp only [hg, List.append_nil, List.length_nil, getline_last '|' _ _ hN0,
      stoull_showNat 0 (by norm_num), readCounts]
  | cons p ps =>
    obtain ⟨k, v⟩ := p
    have hN1 : '|' ∉ showNat (ps.length + 1) := showNat_no_bar _
    have hsize1 : ps.length + 1 < 2 ^ 64 := hsize
    have hk : '|' ∉ k := hbar k (by simp [CountMap.keys])
    obtain ⟨hvl, hvh⟩ := hvals (k, v) (by simp)
    have hrc := readCounts_groups ps k v { type := type, counts := [], totalEntries := total }
      hk hvl hvh (fun q hq =>
        ⟨hbar q.1 (by simp only [CountMap.keys, List.map_cons, List.mem_cons]
                      exact Or.inr (List.mem_map_of_mem Prod.fst hq)),
         hvals q (by simp [hq])⟩)
    have hf := foldl_set_append ps [(k, v)] (by simpa [CountMap.keys] using hkeys)
    rw [resultGroups_cons, List.length_cons]
    simp only [getline_field '|' _ _ _ hN1, stoull_showNat _ hsize1, hrc, CountMap.set, hf,
      List.singleton_append]

/-! ## Sequences of frames -/

theorem wire_length (t : Char) (p : Str) (h : p.length < 2 ^ 32) :
    (wire t p).length = 9 + p.length := by
  rw [wire_eq t p h]
  simp only [List.length_append, List.length_cons, hexWidth8_length _ h]

/-- Repeated reads of a sequence of frames return the messages one by one. -/
theorem receiveTimes_wireAll : ∀ (msgs : List Message) (s : Socket) (tail : Str),
    (∀ m ∈ msgs, m.2.length < 2 ^ 32) → s.incoming = wireAll msgs ++ tail →
    PlanPositive s.recvPlan →
    (receiveTimes msgs.length s).1 =
        msgs.map (fun m => ((.ret (some m) : Outcome (Option Message)), 9 + m.2.length)) ∧
      (receiveTimes msgs.length s).2.incoming = tail := by
  intro msgs
  induction msgs with
  | nil =>
    intro s tail _ hin _
    simp only [wireAll, List.flatMap_nil, List.nil_append] at hin
    exact ⟨rfl, hin⟩
  | cons m msgs ih =>
    intro s tail hlen hin hplan
    have hm := hlen m (by simp)
    rw [wireAll_cons, List.append_assoc] at hin
    obtain ⟨plan1, hsuf, hrecv⟩ := receiveMessage_wire s m.1 m.2 (wireAll msgs ++ tail) hm hin hplan
    obtain ⟨i1, i2⟩ := ih
      { s with
        incoming := wireAll msgs ++ tail,
        recvPlan := plan1,
        log := s.log ++ [Event.received m.1 m.2] }
      tail (fun x hx => hlen x (by simp [hx])) rfl (PlanPositive.of_suffix hsuf hplan)
    have hcount : s.incoming.length - (wireAll msgs ++ tail).length = 9 + m.2.length := by
      rw [hin, List.length_append, wire_length _ _ hm]
      omega
    simp only [List.length_cons, receiveTimes, hrecv, List.map_cons, i1, i2, hcount, and_self]

/-- Messages sent one after the other make up the sequence of their frames. -/
theorem sendAll_true : ∀ (msgs : List Message) (s s' : Socket),
    (∀ m ∈ msgs, m.2.length < 2 ^ 32) → sendAll s msgs = (true, s') →
    s'.outgoing = s.outgoing ++ wireAll msgs := by
  intro msgs
  induction msgs with
  | nil =>
    intro s s' _ h
    simp only [sendAll, Prod.mk.injEq, true_and] at h
    simp [← h, wireAll]
  | cons m msgs ih =>
    intro s s' hlen h
    unfold sendAll at h
    rcases hs : sendMessage s m.1 m.2 with ⟨ok, s1⟩
    rw [hs] at h
    cases ok with
    | false => simp at h
    | true =>
      simp only [if_true] at h
      obtain ⟨h1, _, _, _⟩ := sendMessage_true_wire s s1 m.1 m.2 (hlen m (by simp)) hs
      rw [ih s1 s' (fun x hx => hlen x (by simp [hx])) h, h1, wireAll_cons, List.append_assoc]


/-! ## The task queue -/

theorem getTask_cons {τ : Type} (q : TaskQueue τ) (task : τ) (rest : List τ)
    (h : q.tasks_ = task :: rest) : q.getTask = (.task task, { q with tasks_ := rest }) := by
  unfold TaskQueue.getTask
  simp [h]

theorem getTask_nil {τ : Type} (q : TaskQueue τ) (h : q.tasks_ = []) :
    q.getTask = (if q.stop_ then .exit else .waiting, q) := by
  unfold TaskQueue.getTask
  cases hs : q.stop_ <;> simp [h, hs]

theorem getTask_exit_iff {τ : Type} (q : TaskQueue τ) :
    (∃ q', q.getTask = (.exit, q')) ↔ q.stop_ = true ∧ q.tasks_ = [] := by
  cases ht : q.tasks_ with
  | nil =>
    rw [getTask_nil q ht]
    cases hs : q.stop_ <;> simp
  | cons task rest =>
    rw [getTask_cons q task rest ht]
    simp

theorem getTask_waiting_iff {τ : Type} (q : TaskQueue τ) :
    (∃ q', q.getTask = (.waiting, q')) ↔ q.stop_ = false ∧ q.tasks_ = [] := by
  cases ht : q.tasks_ with
  | nil =>
    rw [getTask_nil q ht]
    cases hs : q.stop_ <;> simp
  | cons task rest =>
    rw [getTask_cons q task rest ht]
    simp

/-- At every moment of a run the tasks added are those handed out, in the
order they were handed out, followed by those still queued. -/
theorem step_added {τ : Type} (r : PoolRun τ) (st : PoolStep τ)
    (h : r.added = r.handed.map Prod.snd ++ r.queue.tasks_) :
    (r.step st).added = (r.step st).handed.map Prod.snd ++ (r.step st).queue.tasks_ := by
  cases st with
  | add task => simp [PoolRun.step, TaskQueue.addTask, h]
  | stop => simp [PoolRun.step, TaskQueue.requestStop, h]
  | get worker =>
    cases ht : r.queue.tasks_ with
    | nil =>
      rw [ht] at h
      simp only [PoolRun.step, getTask_nil r.queue ht]
      cases hs : r.queue.stop_ <;> simp [h, ht]
    | cons task rest =>
      rw [ht] at h
      simp only [PoolRun.step, getTask_cons r.queue task rest ht]
      simp [h]

theorem foldl_step_added {τ : Type} : ∀ (steps : List (PoolStep τ)) (r : PoolRun τ),
    r.added = r.handed.map Prod.snd ++ r.queue.tasks_ →
    (steps.foldl PoolRun.step r).added =
      (steps.foldl PoolRun.step r).handed.map Prod.snd ++
        (steps.foldl PoolRun.step r).queue.tasks_ := by
  intro steps
  induction steps with
  | nil => intro r h; exact h
  | cons st steps ih => intro r h; exact ih _ (step_added r st h)

theorem run_added {τ : Type} (steps : List (PoolStep τ)) :
    (PoolRun.run steps).added =
      (PoolRun.run steps).handed.map Prod.snd ++ (PoolRun.run steps).queue.tasks_ :=
  foldl_step_added steps PoolRun.start rfl

/-- The two ways in which `create_directory` returns: the directory was there,
or it is added. -/
theorem createDirectory_ret (fs fs0 : FileSystem) (path : Str)
    (h : fs.createDirectory path = .ret fs0) :
    fs0.files = fs.files ∧
      (fs0.dirs = fs.dirs ∧ fs.isDirectory path = true ∨
        fs0.dirs = fs.dirs ++ [resolve path]) := by
  unfold FileSystem.createDirectory at h
  by_cases hd : fs.isDirectory path = true
  · simp only [hd, if_true, Outcome.ret.injEq] at h
    subst h
    exact ⟨rfl, Or.inl ⟨rfl, hd⟩⟩
  · simp only [hd, Bool.false_eq_true, if_false] at h
    by_cases hr : (fs.isRegularFile path || !fs.canMakeDir path) = true
    · simp only [hr, if_true] at h
      cases h
    · simp only [hr, Bool.false_eq_true, if_false, Outcome.ret.injEq] at h
      subst h
      exact ⟨rfl, Or.inr rfl⟩

/-- After `create_directory` has returned the path is a directory. -/
theorem isDirectory_createDirectory (fs fs0 : FileSystem) (path : Str)
    (h : fs.createDirectory path = .ret fs0) : fs0.isDirectory path = true := by
  obtain ⟨_, hd | hd⟩ := createDirectory_ret fs fs0 path h
  · have := hd.2
    unfold FileSystem.isDirectory at this ⊢
    rw [hd.1]
    exact this
  · unfold FileSystem.isDirectory
    rw [hd]
    simp

theorem pathExists_createDirectory (fs fs0 : FileSystem) (path : Str)
    (h : fs.createDirectory path = .ret fs0) : fs0.pathExists path = true := by
  unfold FileSystem.pathExists
  rw [isDirectory_createDirectory fs fs0 path h]
  simp

/-- A session whose scratch directory cannot be made: the exception leaves
`clientHandler` before anything is received, sent, removed or closed. -/
theorem clientHandler_terminated (parse : Parser) (what : Exn → Str) (s : Socket)
    (fs : FileSystem) (n : Nat) (e : Exn)
    (hdir : fs.createDirectory (LogServer.tempDirOf n) = .threw e) :
    LogServer.clientHandler parse what s fs n = { terminated := some e, socket := s, files := fs } := by
  unfold LogServer.clientHandler
  simp only [hdir]

/-- A session whose first `receiveMessage` returns without yielding a
Request: nothing more happens before the cleanup. -/
theorem clientHandler_no_request (parse : Parser) (what : Exn → Str) (s : Socket)
    (fs fs0 : FileSystem) (n : Nat)
    (hdir : fs.createDirectory (LogServer.tempDirOf n) = .ret fs0)
    (h : ∀ m, (receiveMessage s).1 ≠ .ret (some (MSG_REQUEST, m)))
    (hne : ∀ e, (receiveMessage s).1 ≠ .threw e) :
    LogServer.clientHandler parse what s fs n =
      { terminated := none, socket := (receiveMessage s).2.record .closed,
        files := fs0.removeAll (LogServer.tempDirOf n) } := by
  unfold LogServer.clientHandler
  simp only [hdir]
  rcases hr : receiveMessage s with ⟨o, s1⟩
  rw [hr] at h hne
  simp only at h hne
  cases o with
  | threw e => exact absurd rfl (hne e)
  | ret r =>
    cases r with
    | none => rfl
    | some tm =>
      obtain ⟨t, m⟩ := tm
      have ht : ¬ t = MSG_REQUEST := by
        intro e
        subst e
        exact h m rfl
      simp only [ht, if_false]

/-- A session whose first `receiveMessage` raises: the catch block sends an
Error message before the cleanup. -/
theorem clientHandler_raised (parse : Parser) (what : Exn → Str) (s : Socket)
    (fs fs0 : FileSystem) (n : Nat) (e : Exn)
    (hdir : fs.createDirectory (LogServer.tempDirOf n) = .ret fs0)
    (h : (receiveMessage s).1 = .threw e) :
    LogServer.clientHandler parse what s fs n =
      { terminated := none,
        socket := (sendMessage (receiveMessage s).2 MSG_ERROR
          ("Server error: ".toList ++ what e)).2.record .closed,
        files := fs0.removeAll (LogServer.tempDirOf n) } := by
  unfold LogServer.clientHandler
  simp only [hdir]
  rcases hr : receiveMessage s with ⟨o, s1⟩
  rw [hr] at h
  simp only at h
  subst h
  rfl

/-- A session that receives a Request, whose transfer returns true and whose
analysis returns: it sends the Result, removes its scratch directory and
closes the connection. -/
theorem clientHandler_answer (parse : Parser) (what : Exn → Str) (s : Socket)
    (fs fs0 : FileSystem) (n : Nat) (message : Str) (result : AnalysisResult)
    (hdir : fs.createDirectory (LogServer.tempDirOf n) = .ret fs0)
    (hrecv : (receiveMessage s).1 = .ret (some (MSG_REQUEST, message)))
    (htrans : (LogServer.handleFileTransfer (receiveMessage s).2 fs0
      (LogServer.tempDirOf n)).1 = .ret true)
    (hproc : LogServer.processLogFiles parse
      (LogServer.handleFileTransfer (receiveMessage s).2 fs0 (LogServer.tempDirOf n)).2.2
      (deserializeRequest message) (LogServer.tempDirOf n) = .ret result) :
    LogServer.clientHandler parse what s fs n =
      { terminated := none,
        socket := (sendMessage
          (LogServer.handleFileTransfer (receiveMessage s).2 fs0 (LogServer.tempDirOf n)).2.1
          MSG_RESULT (serializeResult result)).2.record .closed,
        files := (LogServer.handleFileTransfer (receiveMessage s).2 fs0
          (LogServer.tempDirOf n)).2.2.removeAll (LogServer.tempDirOf n) } := by
  have hex := pathExists_createDirectory fs fs0 _ hdir
  unfold LogServer.clientHandler LogServer.handleRequest
  simp only [hdir]
  rcases hr : receiveMessage s with ⟨o, s1⟩
  rw [hr] at hrecv htrans hproc
  simp only at hrecv htrans hproc
  subst hrecv
  rcases ht : LogServer.handleFileTransfer s1 fs0 (LogServer.tempDirOf n) with ⟨o2, s2, fs2⟩
  rw [ht] at htrans hproc
  simp only at htrans hproc
  subst htrans
  simp only [if_true, hex, Bool.not_true, Bool.false_eq_true, if_false, ht, hproc]

/-- A session on a disk where the path of its scratch directory is a regular
file: the exception of `create_directory` ends it at once. -/
theorem clientHandler_blocked_example (parse : Parser) (what : Exn → Str) (s : Socket) :
    LogServer.clientHandler parse what s blockedDisk 7 =
      { terminated := some .filesystemError, socket := s, files := blockedDisk } :=
  clientHandler_terminated parse what s blockedDisk 7 .filesystemError rfl

/-- What `splitDelim` leaves behind a delimiter is shorter than the data. -/
theorem splitDelim_shorter (delim : Char) : ∀ (l tok rest : Str),
    splitDelim delim l = (tok, some rest) → rest.length < l.length := by
  intro l
  induction l with
  | nil => intro tok rest h; simp [splitDelim] at h
  | cons c cs ih =>
    intro tok rest h
    unfold splitDelim at h
    by_cases hc : c = delim
    · simp only [hc, if_true, Prod.mk.injEq, Option.some.injEq] at h
      rw [← h.2]
      simp
    · simp only [hc, if_false] at h
      rcases hs : splitDelim delim cs with ⟨tok1, r1⟩
      rw [hs] at h
      simp only [Prod.mk.injEq] at h
      rw [h.2] at hs
      have := ih tok1 rest hs
      simp only [List.length_cons]
      omega

/-- The loop of `TxtLogParser::parse` ends within the turns given to it: more
turns than the length of the unread data plus two change nothing. -/
theorem parseLines_fuel : ∀ (fuel extra : Nat) (iss : IStream) (entries : List LogEntry),
    (if iss.good then iss.rest.length + 2 else 1) ≤ fuel →
    TxtLogParser.parseLines (fuel + extra) iss entries =
      TxtLogParser.parseLines fuel iss entries := by
  intro fuel
  induction fuel with
  | zero =>
    intro extra iss entries h
    split at h <;> omega
  | succ f ih =>
    intro extra iss entries h
    rw [show f + 1 + extra = (f + extra) + 1 by omega]
    unfold TxtLogParser.parseLines
    by_cases hg : iss.good = true
    · simp only [hg, if_true] at h
      simp only [getline, hg, Bool.not_true, Bool.false_eq_true, if_false, Bool.false_or]
      rcases hs : splitDelim '\n' iss.rest with ⟨tok, r⟩
      cases r with
      | none =>
        simp only [Bool.not_false, Bool.true_and]
        by_cases ht : tok.isEmpty = true
        · simp only [ht, if_true]
        · simp only [ht, Bool.false_eq_true, if_false]
          cases f with
          | zero => omega
          | succ g =>
            rw [show g + 1 + extra = (g + extra) + 1 by omega]
            unfold TxtLogParser.parseLines
            simp [getline]
      | some rest =>
        have hlt := splitDelim_shorter '\n' iss.rest tok rest hs
        simp only [Bool.not_true, Bool.false_and, Bool.false_eq_true, if_false]
        apply ih
        simp only [if_true]
        omega
    · simp only [hg, Bool.not_false, Bool.true_or, if_true]

/-- The number of turns `TxtLogParser.parse` gives to its loop is enough: with
any greater number the entries are the same. -/
theorem TxtLogParser.parse_fuel (content : Str) (extra : Nat) :
    TxtLogParser.parseLines (content.length + 2 + extra) { rest := content, good := true } [] =
      TxtLogParser.parse content :=
  parseLines_fuel (content.length + 2) extra { rest := content, good := true } []
    (by simp)

end LogFileAnalyzer

/-! # Properties of the protocol engine -/

namespace LogFileAnalyzer

/-- C1 (framing round trip): for every type byte `t` and every payload `p` of
fewer than 2^32 bytes, whenever `sendMessage(t, p)` returns true, whatever the
socket and its plan of short writes, `receiveMessage` applied to the bytes that
call wrote returns true with exactly `(t, p)` and has read all of them. -/
theorem C1_framing_round_trip (s s' : Socket) (t : Char) (p : Str) (hp : p.length < 2 ^ 32)
    (hsend : sendMessage s t p = (true, s')) :
    receiveMessage (Socket.fresh (s'.outgoing.drop s.outgoing.length) [] []) =
      (.ret (some (t, p)), (Socket.fresh [] [] []).record (.received t p)) := by
  obtain ⟨plan', _, hs'⟩ := sendMessage_true s s' t p hsend
  have hw : s'.outgoing.drop s.outgoing.length = wire t p ++ [] := by
    rw [hs', wire_eq t p hp, header_take t _ hp]
    simp
  obtain ⟨plan2, hsuf, hrecv⟩ := receiveMessage_wire
    (Socket.fresh (s'.outgoing.drop s.outgoing.length) [] []) t p [] hp hw
    (by simp [Socket.fresh, PlanPositive])
  have hnil : plan2 = [] := List.eq_nil_of_suffix_nil hsuf
  rw [hrecv, hnil]
  rfl

theorem C1_framing_round_trip_witness :
    (("hello".toList.length < 2 ^ 32 ∧
        sendMessage (Socket.fresh [] [] [9, 2, 7]) 'C' "hello".toList =
          (true, { incoming := [], recvPlan := [], outgoing := "C00000005hello".toList,
                   sendPlan := [], log := [.sent 'C' "hello".toList true] })) ∧
      receiveMessage (Socket.fresh ("C00000005hello".toList.drop 0) [] []) =
        (.ret (some ('C', "hello".toList)),
          (Socket.fresh [] [] []).record (.received 'C' "hello".toList))) :=
  ⟨⟨by decide, by decide⟩,
    C1_framing_round_trip (Socket.fresh [] [] [9, 2, 7])
      { incoming := [], recvPlan := [], outgoing := "C00000005hello".toList,
        sendPlan := [], log := [.sent 'C' "hello".toList true] }
      'C' "hello".toList (by decide) (by decide)⟩

/-- C2 (partial-read robustness): for every encoded message of fewer than 2^32
payload bytes and every plan in which each `recv` delivers a positive number of
bytes (down to one byte at a time), `receiveMessage` returns true with the same
`(type, payload)` as when every `recv` delivers all the bytes asked for, and
leaves exactly the bytes that follow the message. -/
theorem C2_partial_read_robustness (s : Socket) (t : Char) (p rest : Str)
    (hp : p.length < 2 ^ 32) (hin : s.incoming = wire t p ++ rest)
    (hplan : PlanPositive s.recvPlan) :
    (receiveMessage s).1 = .ret (some (t, p)) ∧
      (receiveMessage s).1 = (receiveMessage { s with recvPlan := [] }).1 ∧
      (receiveMessage s).2.incoming = rest := by
  obtain ⟨plan1, _, h1⟩ := receiveMessage_wire s t p rest hp hin hplan
  obtain ⟨plan2, _, h2⟩ := receiveMessage_wire { s with recvPlan := [] } t p rest hp hin
    (by simp [PlanPositive])
  rw [h1, h2]
  exact ⟨rfl, rfl, rfl⟩

theorem C2_partial_read_robustness_witness :
    ("hi".toList.length < 2 ^ 32 ∧
        (Socket.fresh ("C00000002hiE".toList) [1, 1, 3, 1, 1, 1, 1, 1, 1, 1] []).incoming =
          wire 'C' "hi".toList ++ "E".toList ∧
        PlanPositive [1, 1, 3, 1, 1, 1, 1, 1, 1, 1]) ∧
      ((receiveMessage (Socket.fresh ("C00000002hiE".toList)
            [1, 1, 3, 1, 1, 1, 1, 1, 1, 1] [])).1 = .ret (some ('C', "hi".toList)) ∧
        (receiveMessage (Socket.fresh ("C00000002hiE".toList)
            [1, 1, 3, 1, 1, 1, 1, 1, 1, 1] [])).1 =
          (receiveMessage { Socket.fresh ("C00000002hiE".toList)
            [1, 1, 3, 1, 1, 1, 1, 1, 1, 1] [] with recvPlan := [] }).1 ∧
        (receiveMessage (Socket.fresh ("C00000002hiE".toList)
            [1, 1, 3, 1, 1, 1, 1, 1, 1, 1] [])).2.incoming = "E".toList) :=
  ⟨⟨by decide, by decide, by decide⟩,
    C2_partial_read_robustness _ 'C' "hi".toList "E".toList (by decide) (by decide) (by decide)⟩

/-- C3 (aggregation reference definition): on a fresh analyzer, for every
request, files and adapter, `analyze` returns the request's dimension,
`totalEntries` equal to the number of records of all the files that pass the
date filter, and counts in which each key `k` holds the number of those records
whose dimension field is `k`, with no entry for a key that no such record has;
and merging a file's tally into any map adds the counts key by key. -/
theorem C3_aggregation_reference (parse : Parser) (fs : FileSystem) (request : AnalysisRequest)
    (logFiles : List Str) :
    (((LogAnalyzer.new request).analyze parse fs logFiles).1.type = request.type ∧
      ((LogAnalyzer.new request).analyze parse fs logFiles).1.totalEntries =
        ((countedRecords parse fs request logFiles).length : Int) ∧
      (∀ k, ((LogAnalyzer.new request).analyze parse fs logFiles).1.counts.get? k =
        if referenceCount parse fs request logFiles k = 0 then none
        else some (referenceCount parse fs request logFiles k : Int))) ∧
    (∀ (a : LogAnalyzer) (m : CountMap) (filename : Str) (k : Str),
      (mergeCounts m (a.analyzeFile parse fs filename).1).get? k =
        addCounts (m.get? k) ((a.analyzeFile parse fs filename).1.get? k)) := by
  refine ⟨analyze_fresh_spec parse fs request logFiles, ?_⟩
  intro a m filename k
  exact get?_mergeCounts _ (analyzeFile_spec parse fs a filename).2.1 m k

/-- C4 (invariant): after every call of `analyze` on an analyzer, the first and
every later one, for any files and any adapter (files that fail to open or to
parse included), the returned result has `totalEntries` equal to the sum of all
values in `counts`. -/
theorem C4_total_is_sum_of_counts (parse : Parser) (request : AnalysisRequest)
    (calls : List (FileSystem × List Str)) (r : AnalysisResult)
    (hr : r ∈ (LogAnalyzer.new request).analyzeEach parse calls) :
    r.totalEntries = r.counts.total := by
  have key : ∀ (calls : List (FileSystem × List Str)) (a : LogAnalyzer),
      a.result_.totalEntries = a.result_.counts.total →
      ∀ r ∈ a.analyzeEach parse calls, r.totalEntries = r.counts.total := by
    intro calls
    induction calls with
    | nil => intro a _ r hr; simp [LogAnalyzer.analyzeEach] at hr
    | cons c calls ih =>
      intro a ha r hr
      obtain ⟨fs, files⟩ := c
      obtain ⟨hst, hres⟩ := analyze_eq parse fs a files
      have hinv : (a.analyze parse fs files).2.result_.totalEntries =
          (a.analyze parse fs files).2.result_.counts.total := by
        rw [hst]
        simp only [total_foldl_merge, ha]
      simp only [LogAnalyzer.analyzeEach, List.mem_cons] at hr
      rcases hr with hr | hr
      · rw [hr, hres]; exact hinv
      · exact ih _ hinv r hr
  exact key calls _ (by simp [LogAnalyzer.new, CountMap.total]) r hr

theorem C4_total_is_sum_of_counts_witness :
    ({ type := .USER, counts := [("u".toList, 3)], totalEntries := 3 } : AnalysisResult) ∈
        (LogAnalyzer.new sampleRequest).analyzeEach sampleParser
          [(sampleDisk, ["a".toList]),
           (sampleDisk, ["c".toList, "a".toList, "missing".toList, "b".toList])] ∧
      ({ type := .USER, counts := [("u".toList, 3)], totalEntries := 3 } :
          AnalysisResult).totalEntries =
        CountMap.total [("u".toList, 3)] :=
  ⟨by decide,
    C4_total_is_sum_of_counts sampleParser sampleRequest
      [(sampleDisk, ["a".toList]),
       (sampleDisk, ["c".toList, "a".toList, "missing".toList, "b".toList])]
      { type := .USER, counts := [("u".toList, 3)], totalEntries := 3 } (by decide)⟩

/-- C5 (aggregation order independence): for every request and adapter and
every two file lists that are permutations of each other, `analyze` on a fresh
analyzer returns the same count for every key (present or absent alike), the
same `totalEntries` and the same dimension; and on maps with distinct keys the
merge of tallies is commutative and associative. -/
theorem C5_order_independence (parse : Parser) (fs : FileSystem) (request : AnalysisRequest)
    (files1 files2 : List Str) (hperm : files1.Perm files2) (a b c : CountMap)
    (ha : a.keys.Nodup) (hb : b.keys.Nodup) (hc : c.keys.Nodup) :
    ((∀ k, ((LogAnalyzer.new request).analyze parse fs files1).1.counts.get? k =
          ((LogAnalyzer.new request).analyze parse fs files2).1.counts.get? k) ∧
        ((LogAnalyzer.new request).analyze parse fs files1).1.totalEntries =
          ((LogAnalyzer.new request).analyze parse fs files2).1.totalEntries ∧
        ((LogAnalyzer.new request).analyze parse fs files1).1.type =
          ((LogAnalyzer.new request).analyze parse fs files2).1.type) ∧
      (∀ k, (mergeCounts a b).get? k = (mergeCounts b a).get? k) ∧
      (∀ k, (mergeCounts (mergeCounts a b) c).get? k =
        (mergeCounts a (mergeCounts b c)).get? k) := by
  obtain ⟨t1, n1, c1⟩ := analyze_fresh_spec parse fs request files1
  obtain ⟨t2, n2, c2⟩ := analyze_fresh_spec parse fs request files2
  have hp := countedRecords_perm parse fs request hperm
  refine ⟨⟨?_, ?_, ?_⟩, ?_, ?_⟩
  · intro k
    rw [c1 k, c2 k]
    simp only [referenceCount, hp.countP_eq]
  · rw [n1, n2, hp.length_eq]
  · rw [t1, t2]
  · intro k
    rw [get?_mergeCounts b hb, get?_mergeCounts a ha, addCounts_comm]
  · intro k
    rw [get?_mergeCounts c hc, get?_mergeCounts b hb,
      get?_mergeCounts _ (keys_mergeCounts_nodup c b hb), get?_mergeCounts c hc,
      addCounts_assoc]

theorem C5_order_independence_witness :
    (["a".toList, "b".toList].Perm ["b".toList, "a".toList] ∧
        (CountMap.keys [("x".toList, 1)]).Nodup ∧ (CountMap.keys [("y".toList, 2)]).Nodup ∧
        (CountMap.keys [("x".toList, 3)]).Nodup) ∧
      ((∀ k, ((LogAnalyzer.new sampleRequest).analyze sampleParser sampleDisk
              ["a".toList, "b".toList]).1.counts.get? k =
            ((LogAnalyzer.new sampleRequest).analyze sampleParser sampleDisk
              ["b".toList, "a".toList]).1.counts.get? k) ∧
        (∀ k, (mergeCounts [("x".toList, 1)] [("y".toList, 2)]).get? k =
          (mergeCounts [("y".toList, 2)] [("x".toList, 1)]).get? k) ∧
        (∀ k, (mergeCounts (mergeCounts [("x".toList, 1)] [("y".toList, 2)])
            [("x".toList, 3)]).get? k =
          (mergeCounts [("x".toList, 1)] (mergeCounts [("y".toList, 2)]
            [("x".toList, 3)])).get? k)) :=
  ⟨⟨by decide, by decide, by decide, by decide⟩,
    let h := C5_order_independence sampleParser sampleDisk sampleRequest
      ["a".toList, "b".toList] ["b".toList, "a".toList] (by decide)
      [("x".toList, 1)] [("y".toList, 2)] [("x".toList, 3)] (by decide) (by decide) (by decide)
    ⟨h.1.1, h.2.1, h.2.2⟩⟩

/-- C6 (date filter): `isDateInRange(d, start, end)` is true exactly when
(start is absent or `start ≤ d`) and (end is absent or `d ≤ end`), with `≤` the
lexicographic order on the raw strings; in particular a timestamp equal to the
start date, to the end date, or to both is included. -/
theorem C6_date_filter (d : Str) (startDate endDate : Option Str) :
    (isDateInRange d startDate endDate = true ↔
        (startDate = none ∨ ∃ start, startDate = some start ∧ start ≤ d) ∧
          (endDate = none ∨ ∃ stop, endDate = some stop ∧ d ≤ stop)) ∧
      isDateInRange d (some d) none = true ∧
      isDateInRange d none (some d) = true ∧
      isDateInRange d (some d) (some d) = true := by
  refine ⟨?_, ?_, ?_, ?_⟩
  · rw [isDateInRange_iff]
    cases startDate <;> cases endDate <;> simp
  · rw [isDateInRange_iff]; simp
  · rw [isDateInRange_iff]; simp
  · rw [isDateInRange_iff]; simp

/-- C7 (server transfer state machine): when the socket delivers well-formed
messages and every scratch file can be created, `handleFileTransfer` returns
true exactly when a prefix of the incoming messages consists of zero or more
groups (FileStart, FileChunk*, FileEnd) followed by one further FileEnd, payloads
being irrelevant; it then leaves every message after that last FileEnd unread;
in every other case it returns false (it never raises). -/
theorem C7_transfer_state_machine (s : Socket) (fs : FileSystem) (tempDir : Str)
    (msgs : List Message) (hfeeds : Feeds s msgs) (hcreate : ∀ path, fs.canCreate path = true) :
    ((LogServer.handleFileTransfer s fs tempDir).1 = .ret true ↔
        ∃ pre post, msgs = pre ++ post ∧ IsTransfer pre) ∧
      (∀ pre post, msgs = pre ++ post → IsTransfer pre →
        (LogServer.handleFileTransfer s fs tempDir).2.1.incoming = wireAll post) ∧
      ((LogServer.handleFileTransfer s fs tempDir).1 = .ret true ∨
        (LogServer.handleFileTransfer s fs tempDir).1 = .ret false) := by
  have hfuel : msgs.length < s.incoming.length + 1 := by
    have := wireAll_length msgs hfeeds.2.2
    rw [hfeeds.1]; omega
  have hacc : ∀ pre post, msgs = pre ++ post → IsTransfer pre →
      (LogServer.handleFileTransfer s fs tempDir).1 = .ret true ∧
        (LogServer.handleFileTransfer s fs tempDir).2.1.incoming = wireAll post := by
    intro pre post hmsgs htr
    obtain ⟨groups, q, hgroups, hpre⟩ := htr
    subst hpre
    subst hmsgs
    have hfeeds' : Feeds s (groups.flatten ++ (MSG_FILE_END, q) :: post) := by
      simpa using hfeeds
    obtain ⟨s', fs', hrun, hf', _, _⟩ := transferLoop_accept tempDir q post groups
      (s.incoming.length + 1) s fs hgroups hfeeds'
      (by simp only [List.length_append] at hfuel; omega) hcreate
    unfold LogServer.handleFileTransfer
    rw [hrun]
    exact ⟨rfl, hf'.1⟩
  have hcases := transferLoop_cases tempDir msgs.length msgs (le_refl _)
    (s.incoming.length + 1) s fs hfeeds hfuel hcreate
  refine ⟨⟨?_, ?_⟩, ?_, ?_⟩
  · intro htrue
    rcases hcases with h | ⟨_, h⟩
    · unfold LogServer.handleFileTransfer at htrue
      rw [h] at htrue
      exact absurd htrue (by simp)
    · exact h
  · rintro ⟨pre, post, hmsgs, htr⟩
    exact (hacc pre post hmsgs htr).1
  · intro pre post hmsgs htr
    exact (hacc pre post hmsgs htr).2
  · rcases hcases with h | ⟨h, _⟩
    · right; exact h
    · left; exact h

theorem C7_transfer_state_machine_witness :
    (Feeds (Socket.fresh (wireAll sampleUpload) [3, 1, 1, 1, 4] []) sampleUpload ∧
        ∀ path, sampleDisk.canCreate path = true) ∧
      (LogServer.handleFileTransfer (Socket.fresh (wireAll sampleUpload) [3, 1, 1, 1, 4] [])
          sampleDisk "temp_5".toList).1 = .ret true ∧
      (LogServer.handleFileTransfer (Socket.fresh (wireAll sampleUpload) [3, 1, 1, 1, 4] [])
          sampleDisk "temp_5".toList).2.1.incoming = wireAll [(MSG_REQUEST, [])] :=
  have h := C7_transfer_state_machine (Socket.fresh (wireAll sampleUpload) [3, 1, 1, 1, 4] [])
    sampleDisk "temp_5".toList sampleUpload ⟨by decide, by decide, by decide⟩ (fun _ => rfl)
  have htr : IsTransfer [(MSG_FILE_START, "a.txt".toList), (MSG_FILE_CHUNK, "hi".toList),
      (MSG_FILE_END, []), (MSG_FILE_END, [])] :=
    ⟨[[(MSG_FILE_START, "a.txt".toList), (MSG_FILE_CHUNK, "hi".toList), (MSG_FILE_END, [])]], [],
      fun g hg => ⟨"a.txt".toList, [(MSG_FILE_CHUNK, "hi".toList)], [],
        by simpa using hg, by simp⟩, rfl⟩
  ⟨⟨⟨by decide, by decide, by decide⟩, fun _ => rfl⟩,
    h.1.2 ⟨[(MSG_FILE_START, "a.txt".toList), (MSG_FILE_CHUNK, "hi".toList),
      (MSG_FILE_END, []), (MSG_FILE_END, [])], [(MSG_REQUEST, [])], rfl, htr⟩,
    h.2.1 [(MSG_FILE_START, "a.txt".toList), (MSG_FILE_CHUNK, "hi".toList),
      (MSG_FILE_END, []), (MSG_FILE_END, [])] [(MSG_REQUEST, [])] rfl htr⟩

/-- C8 (file transfer round trip): when `sendFile` succeeds on a file of
content `b`, the bytes it wrote are a FileStart carrying the base name of the
path, then FileChunk messages of 1 to 4096 bytes each whose payloads
concatenate to `b` (none for an empty file), then a FileEnd with an empty
payload; and when `handleFileTransfer` reads those bytes, followed by the end
of the connection or by the FileEnd that closes the transfer, the scratch file
`tempDir/<base name>` holds exactly `b` afterwards. -/
theorem C8_file_transfer_round_trip (c c' : LogClient) (cfs : FileSystem) (filepath b : Str)
    (hb : cfs.read filepath = some b) (hname : (pathFilename filepath).length < 2 ^ 32)
    (hsent : c.sendFile cfs filepath = (.ret true, c'))
    (srv : Socket) (sfs : FileSystem) (tempDir : Str) (rest : List Message)
    (hrest : rest = [] ∨ ∃ q, q.length < 2 ^ 32 ∧ rest = [(MSG_FILE_END, q)])
    (hsrv : srv.incoming =
      c'.socket_.outgoing.drop c.socket_.outgoing.length ++ wireAll rest)
    (hplan : PlanPositive srv.recvPlan) (hcreate : ∀ path, sfs.canCreate path = true) :
    (∃ chunks : List Str, (∀ ch ∈ chunks, 1 ≤ ch.length ∧ ch.length ≤ BUFFER_SIZE) ∧
        chunks.flatten = b ∧ (b = [] → chunks = []) ∧
        c'.socket_.outgoing.drop c.socket_.outgoing.length =
          wireAll ((MSG_FILE_START, pathFilename filepath) ::
            chunks.map (fun ch => (MSG_FILE_CHUNK, ch)) ++ [(MSG_FILE_END, [])])) ∧
      (LogServer.handleFileTransfer srv sfs tempDir).2.2.read
          (tempDir ++ "/".toList ++ pathFilename filepath) = some b ∧
      ((LogServer.handleFileTransfer srv sfs tempDir).1 = .ret true ↔ rest ≠ []) := by
  obtain ⟨content, chunks, ack, hread, hflat, hsize, hout', _⟩ :=
    sendFile_true c c' cfs filepath hsent
  have hout := hout' hname
  rw [hb] at hread
  obtain rfl : b = content := Option.some.inj hread
  have hdrop : c'.socket_.outgoing.drop c.socket_.outgoing.length =
      wireAll ((MSG_FILE_START, pathFilename filepath) ::
        chunks.map (fun ch => (MSG_FILE_CHUNK, ch)) ++ [(MSG_FILE_END, [])]) := by
    rw [hout, List.drop_left]
  rw [hdrop] at hsrv
  obtain ⟨h1, h2⟩ := handleFileTransfer_one_file srv sfs tempDir (pathFilename filepath) chunks
    rest hname (fun ch hch => (hsize ch hch).2) hrest hsrv hplan hcreate
  rw [hflat] at h1
  refine ⟨⟨chunks, hsize, hflat, ?_, hdrop⟩, h1, h2⟩
  intro hnil
  exact flatten_eq_nil_of_pos chunks (fun ch hch => (hsize ch hch).1) (by rw [hflat, hnil])

theorem C8_file_transfer_round_trip_witness :
    ((sampleClientDisk.read "logs/a.txt".toList = some "hello world".toList ∧
        (pathFilename "logs/a.txt".toList).length < 2 ^ 32 ∧
        sampleClient.sendFile sampleClientDisk "logs/a.txt".toList =
          (.ret true, (sampleClient.sendFile sampleClientDisk "logs/a.txt".toList).2)) ∧
      PlanPositive [2, 7, 1]) ∧
      (LogServer.handleFileTransfer
          (Socket.fresh ((sampleClient.sendFile sampleClientDisk "logs/a.txt".toList).2.socket_.outgoing
            ++ wireAll [(MSG_FILE_END, [])]) [2, 7, 1] [])
          sampleDisk "temp_5".toList).2.2.read "temp_5/a.txt".toList =
        some "hello world".toList :=
  ⟨⟨⟨by decide, by decide, by decide⟩, by decide⟩,
    (C8_file_transfer_round_trip sampleClient
      (sampleClient.sendFile sampleClientDisk "logs/a.txt".toList).2 sampleClientDisk
      "logs/a.txt".toList "hello world".toList (by decide) (by decide) (by decide)
      (Socket.fresh ((sampleClient.sendFile sampleClientDisk "logs/a.txt".toList).2.socket_.outgoing
        ++ wireAll [(MSG_FILE_END, [])]) [2, 7, 1] [])
      sampleDisk "temp_5".toList [(MSG_FILE_END, [])]
      (Or.inr ⟨[], by decide, rfl⟩) (by decide) (by decide) (fun _ => rfl)).2.1⟩

/-- C9 (per-file acknowledgment): for every accepted transfer of n file groups
the server calls `sendMessage(MSG_ACK, ...)` exactly n times, each right after
it has received the FileEnd of a group and before it receives anything else,
and not after the FileEnd that closes the transfer (on a connection that takes
every byte offered, what it writes is exactly n Ack frames); and the client's
`sendFile` returns true only if the call that follows its own successful
FileEnd is a `receiveMessage` that returns a message of type Ack. -/
theorem C9_per_file_acknowledgment (s : Socket) (fs : FileSystem) (tempDir q : Str)
    (groups : List (List Message)) (post : List Message)
    (hgroups : ∀ g ∈ groups, IsFileGroup g)
    (hfeeds : Feeds s (groups.flatten ++ (MSG_FILE_END, q) :: post))
    (hcreate : ∀ path, fs.canCreate path = true) :
    ((LogServer.handleFileTransfer s fs tempDir).1 = .ret true ∧
        (LogServer.handleFileTransfer s fs tempDir).2.1.log.map Event.forgetOk =
          s.log.map Event.forgetOk ++ groups.flatMap groupTranscript ++
            [Event.received MSG_FILE_END q] ∧
        (LogServer.handleFileTransfer s fs tempDir).2.1.log.countP Event.isAck =
          s.log.countP Event.isAck + groups.length ∧
        (s.sendPlan = [] → (LogServer.handleFileTransfer s fs tempDir).2.1.outgoing =
          s.outgoing ++
            (List.replicate groups.length (wire MSG_ACK "File received".toList)).flatten)) ∧
      (∀ (c c' : LogClient) (cfs : FileSystem) (filepath : Str),
        c.sendFile cfs filepath = (.ret true, c') →
        ∃ pre ack, c'.socket_.log =
          pre ++ [Event.sent MSG_FILE_END [] true, Event.received MSG_ACK ack]) := by
  have hlen := wireAll_length _ hfeeds.2.2
  rw [← hfeeds.1] at hlen
  simp only [List.length_append, List.length_cons] at hlen
  obtain ⟨s', fs', hrun, _, hlog, hout⟩ := transferLoop_accept tempDir q post groups
    (s.incoming.length + 1) s fs hgroups hfeeds (by omega) hcreate
  refine ⟨?_, ?_⟩
  · unfold LogServer.handleFileTransfer
    rw [hrun]
    refine ⟨rfl, hlog, ?_, hout⟩
    have hc := congrArg (List.countP Event.isAck) hlog
    simp only [countP_isAck_forgetOk, List.countP_append, countP_isAck_transcripts] at hc
    rw [hc]
    simp [List.countP_cons, Event.isAck]
  · intro c c' cfs filepath hsent
    obtain ⟨content, chunks, ack, _, _, _, _, hlog'⟩ := sendFile_true c c' cfs filepath hsent
    refine ⟨c.socket_.log ++ (Event.sent MSG_FILE_START (pathFilename filepath) true ::
      chunks.map (fun ch => Event.sent MSG_FILE_CHUNK ch true)), ack, ?_⟩
    rw [hlog']
    simp

theorem C9_per_file_acknowledgment_witness :
    ((∀ g ∈ [[(MSG_FILE_START, "a.txt".toList), (MSG_FILE_CHUNK, "hi".toList),
          (MSG_FILE_END, [])]], IsFileGroup g) ∧
        Feeds (Socket.fresh (wireAll sampleUpload) [3, 1, 1, 1, 4] [0])
          ([[(MSG_FILE_START, "a.txt".toList), (MSG_FILE_CHUNK, "hi".toList),
            (MSG_FILE_END, [])]].flatten ++ (MSG_FILE_END, []) :: [(MSG_REQUEST, [])]) ∧
        sampleClient.sendFile sampleClientDisk "logs/a.txt".toList =
          (.ret true, (sampleClient.sendFile sampleClientDisk "logs/a.txt".toList).2)) ∧
      ((LogServer.handleFileTransfer (Socket.fresh (wireAll sampleUpload) [3, 1, 1, 1, 4] [0])
          sampleDisk "temp_5".toList).1 = .ret true ∧
        (LogServer.handleFileTransfer (Socket.fresh (wireAll sampleUpload) [3, 1, 1, 1, 4] [0])
          sampleDisk "temp_5".toList).2.1.log.countP Event.isAck = 0 + 1 ∧
        ∃ pre ack, (sampleClient.sendFile sampleClientDisk "logs/a.txt".toList).2.socket_.log =
          pre ++ [Event.sent MSG_FILE_END [] true, Event.received MSG_ACK ack]) :=
  have hg : ∀ g ∈ [[(MSG_FILE_START, "a.txt".toList), (MSG_FILE_CHUNK, "hi".toList),
      (MSG_FILE_END, [])]], IsFileGroup g :=
    fun g hg => ⟨"a.txt".toList, [(MSG_FILE_CHUNK, "hi".toList)], [], by simpa using hg, by simp⟩
  have h := C9_per_file_acknowledgment (Socket.fresh (wireAll sampleUpload) [3, 1, 1, 1, 4] [0])
    sampleDisk "temp_5".toList []
    [[(MSG_FILE_START, "a.txt".toList), (MSG_FILE_CHUNK, "hi".toList), (MSG_FILE_END, [])]]
    [(MSG_REQUEST, [])] hg ⟨by decide, by decide, by decide⟩ (fun _ => rfl)
  ⟨⟨hg, ⟨by decide, by decide, by decide⟩, by decide⟩,
    h.1.1, h.1.2.2.1, h.2 sampleClient _ sampleClientDisk "logs/a.txt".toList (by decide)⟩

/-- C10 (end-to-end scenario A): with the request {LOG_LEVEL, no start date, no
end date} and two files whose records have the levels [INFO, INFO, ERROR] and
[INFO, WARN], analysed in either order, `analyze` yields totalEntries 5 and the
counts INFO 3, ERROR 1, WARN 1; and whatever order `serializeResult` writes the
entries in, `deserializeResult` of its output is a result of dimension
LOG_LEVEL with totalEntries 5 and exactly these three counts. -/
theorem C10_scenario_A (parse : Parser) (fs : FileSystem) (f1 f2 c1 c2 : Str)
    (es1 es2 : List LogEntry) (h1 : fs.read f1 = some c1) (hp1 : parse f1 c1 = some es1)
    (hl1 : es1.map LogEntry.level = ["INFO".toList, "INFO".toList, "ERROR".toList])
    (h2 : fs.read f2 = some c2) (hp2 : parse f2 c2 = some es2)
    (hl2 : es2.map LogEntry.level = ["INFO".toList, "WARN".toList])
    (logFiles : List Str) (hfiles : logFiles = [f1, f2] ∨ logFiles = [f2, f1])
    (order : CountMap)
    (horder : order.Perm ((LogAnalyzer.new scenarioRequest).analyze parse fs logFiles).1.counts) :
    (((LogAnalyzer.new scenarioRequest).analyze parse fs logFiles).1.type = .LOG_LEVEL ∧
        ((LogAnalyzer.new scenarioRequest).analyze parse fs logFiles).1.totalEntries = 5 ∧
        ∀ k, ((LogAnalyzer.new scenarioRequest).analyze parse fs logFiles).1.counts.get? k =
          scenarioCounts.get? k) ∧
      ∃ r, deserializeResult (serializeResult
            { ((LogAnalyzer.new scenarioRequest).analyze parse fs logFiles).1 with
              counts := order }) = .ret r ∧
        r.type = .LOG_LEVEL ∧ r.totalEntries = 5 ∧ r.counts.Perm scenarioCounts ∧
        ∀ k, r.counts.get? k = scenarioCounts.get? k := by
  obtain ⟨ha, hb⟩ := scenario_analyze parse fs f1 f2 c1 c2 es1 es2 h1 hp1 hl1 h2 hp2 hl2
  have hres : ∃ counts : CountMap, counts.Perm scenarioCounts ∧
      ((LogAnalyzer.new scenarioRequest).analyze parse fs logFiles).1 =
        { type := .LOG_LEVEL, counts := counts, totalEntries := 5 } := by
    rcases hfiles with h | h
    · exact ⟨_, List.Perm.refl _, by rw [h, ha]⟩
    · exact ⟨[("INFO".toList, 3), ("WARN".toList, 1), ("ERROR".toList, 1)], by decide,
        by rw [h, hb]⟩
  obtain ⟨counts, hperm, hres⟩ := hres
  rw [hres] at horder ⊢
  simp only at horder ⊢
  have hnd : scenarioCounts.keys.Nodup := by decide
  have hndc : counts.keys.Nodup := (List.Perm.map Prod.fst hperm).nodup_iff.2 hnd
  have ho : order.Perm scenarioCounts := horder.trans hperm
  have hndo : order.keys.Nodup := (List.Perm.map Prod.fst ho).nodup_iff.2 hnd
  refine ⟨⟨trivial, trivial, get?_perm hperm hndc⟩, ?_⟩
  have hmem := List.mem_permutations'.2 ho
  have hround : deserializeResult (serializeResult
      { type := .LOG_LEVEL, counts := order, totalEntries := 5 }) =
        .ret { type := .LOG_LEVEL, counts := order, totalEntries := 5 } := by
    simp only [scenarioCounts, List.permutations', List.permutations'Aux, List.flatMap_cons,
      List.flatMap_nil, List.map_cons, List.map_nil, List.append_nil, List.cons_append,
      List.nil_append, List.mem_cons, List.mem_singleton, List.not_mem_nil, or_false] at hmem
    rcases hmem with h | h | h | h | h | h <;> subst h <;> decide
  exact ⟨_, hround, rfl, rfl, ho, get?_perm ho hndo⟩

theorem C10_scenario_A_witness :
    ((scenarioDisk.read "one.txt".toList = some [] ∧
        scenarioParser "one.txt".toList [] =
          some [sampleEntry "t1".toList "INFO".toList, sampleEntry "t2".toList "INFO".toList,
                sampleEntry "t3".toList "ERROR".toList] ∧
        scenarioDisk.read "two.txt".toList = some [] ∧
        scenarioParser "two.txt".toList [] =
          some [sampleEntry "t4".toList "INFO".toList, sampleEntry "t5".toList "WARN".toList]) ∧
      List.Perm [("WARN".toList, (1 : Int)), ("INFO".toList, 3), ("ERROR".toList, 1)]
        ((LogAnalyzer.new scenarioRequest).analyze scenarioParser scenarioDisk
          ["two.txt".toList, "one.txt".toList]).1.counts) ∧
      ∃ r, deserializeResult (serializeResult
            { ((LogAnalyzer.new scenarioRequest).analyze scenarioParser scenarioDisk
                ["two.txt".toList, "one.txt".toList]).1 with
              counts := [("WARN".toList, 1), ("INFO".toList, 3), ("ERROR".toList, 1)] }) =
          .ret r ∧
        r.type = .LOG_LEVEL ∧ r.totalEntries = 5 ∧ r.counts.Perm scenarioCounts ∧
        ∀ k, r.counts.get? k = scenarioCounts.get? k :=
  ⟨⟨⟨by decide, by decide, by decide, by decide⟩, by decide⟩,
    (C10_scenario_A scenarioParser scenarioDisk "one.txt".toList "two.txt".toList [] []
      [sampleEntry "t1".toList "INFO".toList, sampleEntry "t2".toList "INFO".toList,
        sampleEntry "t3".toList "ERROR".toList]
      [sampleEntry "t4".toList "INFO".toList, sampleEntry "t5".toList "WARN".toList]
      (by decide) (by decide) (by decide) (by decide) (by decide) (by decide)
      ["two.txt".toList, "one.txt".toList] (Or.inr rfl)
      [("WARN".toList, 1), ("INFO".toList, 3), ("ERROR".toList, 1)] (by decide)).2⟩

/-- C12 (file-level failure isolation): when a file cannot be opened, or the
adapter raises an error while parsing it, `analyzeFile` returns an empty tally
and leaves the analyzer, `totalEntries` included, unchanged; and `analyze` on a
file list that holds this file at any place returns exactly the result of
`analyze` on the list without it. -/
theorem C12_failure_isolation (parse : Parser) (fs : FileSystem) (a : LogAnalyzer) (f : Str)
    (hfail : fs.read f = none ∨ ∃ c, fs.read f = some c ∧ parse f c = none)
    (pre post : List Str) :
    a.analyzeFile parse fs f = ([], a) ∧
      (a.analyzeFile parse fs f).2.result_.totalEntries = a.result_.totalEntries ∧
      (a.analyze parse fs (pre ++ f :: post)).1 = (a.analyze parse fs (pre ++ post)).1 := by
  have hf := analyzeFile_failing parse fs
  refine ⟨hf a f hfail, by rw [hf a f hfail], ?_⟩
  obtain ⟨h1, h1'⟩ := analyze_eq parse fs a (pre ++ f :: post)
  obtain ⟨h2, h2'⟩ := analyze_eq parse fs a (pre ++ post)
  have hrun : (LogAnalyzer.runTasks parse fs a (pre ++ f :: post)).1 =
      (LogAnalyzer.runTasks parse fs a pre).1 ++
        [] :: (LogAnalyzer.runTasks parse fs (LogAnalyzer.runTasks parse fs a pre).2 post).1 := by
    rw [runTasks_append, runTasks_cons, hf _ f hfail]
  have hrun' : (LogAnalyzer.runTasks parse fs a (pre ++ post)).1 =
      (LogAnalyzer.runTasks parse fs a pre).1 ++
        (LogAnalyzer.runTasks parse fs (LogAnalyzer.runTasks parse fs a pre).2 post).1 := by
    rw [runTasks_append]
  rw [h1', h2', h1, h2, hrun, hrun']
  simp [List.foldl_append, mergeCounts_nil, CountMap.total]

theorem C12_failure_isolation_witness :
    (sampleDisk.read "c".toList = none ∨
        ∃ c, sampleDisk.read "c".toList = some c ∧ sampleParser "c".toList c = none) ∧
      ((LogAnalyzer.new sampleRequest).analyzeFile sampleParser sampleDisk "c".toList).1 = [] ∧
      ((LogAnalyzer.new sampleRequest).analyze sampleParser sampleDisk
          (["a".toList] ++ "c".toList :: ["b".toList])).1 =
        ((LogAnalyzer.new sampleRequest).analyze sampleParser sampleDisk
          (["a".toList] ++ ["b".toList])).1 :=
  have hfail : sampleDisk.read "c".toList = none ∨
      ∃ c, sampleDisk.read "c".toList = some c ∧ sampleParser "c".toList c = none :=
    Or.inr ⟨"bad".toList, by decide, by decide⟩
  have h := C12_failure_isolation sampleParser sampleDisk (LogAnalyzer.new sampleRequest)
    "c".toList hfail ["a".toList] ["b".toList]
  ⟨hfail, by rw [h.1], h.2.2⟩

/-- C13 (a short read is an error): `receiveMessage` reports success only
after reading from the stream a type byte, eight bytes that `std::stoul` reads
as a length, and a payload of exactly that length; it returns false when the
stream ends before nine header bytes, when it ends before the stated number of
payload bytes, and when a `recv` call fails (returns a value that is not
positive) before the calls made so far can have delivered the nine header
bytes or the stated number of payload bytes. The conditions on the length
field hold for every field of eight hexadecimal digits, which states its
base-16 value. -/
theorem C13_short_read_is_error (s : Socket) :
    (∀ t m s', receiveMessage s = (.ret (some (t, m)), s') →
        ∃ lenStr : Str, lenStr.length = 8 ∧ s.incoming = t :: lenStr ++ m ++ s'.incoming ∧
          stoul lenStr 16 = .ret m.length) ∧
    (s.incoming.length < 9 → (receiveMessage s).1 = .ret none) ∧
    (∀ t lenStr rest L, s.incoming = t :: lenStr ++ rest → lenStr.length = 8 →
        stoul lenStr 16 = .ret L → L ≤ STRING_MAX_SIZE → rest.length < L →
        (receiveMessage s).1 = .ret none) ∧
    (∀ pre r post, s.recvPlan = pre ++ r :: post → PlanPositive pre → r ≤ 0 →
        (pre.sum < 9 → (receiveMessage s).1 = .ret none) ∧
        ∀ t lenStr rest L, s.incoming = t :: lenStr ++ rest → lenStr.length = 8 →
          stoul lenStr 16 = .ret L → L ≤ STRING_MAX_SIZE → pre.sum < 9 + (L : Int) →
          (receiveMessage s).1 = .ret none) ∧
    (∀ lenStr : Str, lenStr.length = 8 → (∀ c ∈ lenStr, (digitIn 16 c).isSome = true) →
        stoul lenStr 16 = .ret (hexValue lenStr) ∧ hexValue lenStr ≤ STRING_MAX_SIZE) :=
  ⟨fun t m s' h => receiveMessage_some s s' t m h,
   receiveMessage_short_header s,
   fun t lenStr rest L hin hlen hst hmax hshort =>
     receiveMessage_short_body s t lenStr rest L hin hlen hst hmax hshort,
   fun pre r post hplan hpos hr =>
     ⟨receiveMessage_failed_header s pre r post hplan hpos hr,
      fun t lenStr rest L hin hlen hst hmax hsum =>
        receiveMessage_failed_body s pre r post t lenStr rest L hplan hpos hr hin hlen hst hmax
          hsum⟩,
   fun lenStr hlen hall =>
     ⟨(stoul_hexDigits lenStr hlen hall).1,
      le_trans (le_of_lt (stoul_hexDigits lenStr hlen hall).2) (by decide)⟩⟩

theorem C13_short_read_is_error_witness :
    (receiveMessage (Socket.fresh "C0000".toList [] [])).1 = .ret none ∧
      (receiveMessage (Socket.fresh "C00000005hel".toList [] [])).1 = .ret none ∧
      (receiveMessage (Socket.fresh "C00000005hello".toList [4, 3, 0, 9] [])).1 = .ret none ∧
      (receiveMessage (Socket.fresh "C00000005hello".toList [9, 3, -1] [])).1 = .ret none :=
  ⟨(C13_short_read_is_error (Socket.fresh "C0000".toList [] [])).2.1 (by decide),
   (C13_short_read_is_error (Socket.fresh "C00000005hel".toList [] [])).2.2.1
     'C' "00000005".toList "hel".toList 5 (by decide) (by decide) (by decide) (by decide)
     (by decide),
   ((C13_short_read_is_error (Socket.fresh "C00000005hello".toList [4, 3, 0, 9] [])).2.2.2.1
     [4, 3] 0 [9] (by decide) (by decide) (by decide)).1 (by decide),
   ((C13_short_read_is_error (Socket.fresh "C00000005hello".toList [9, 3, -1] [])).2.2.2.1
     [9, 3] (-1) [] (by decide) (by decide) (by decide)).2
     'C' "00000005".toList "hello".toList 5 (by decide) (by decide) (by decide) (by decide)
     (by decide)⟩

/-- C14 (wire header format): whenever `sendMessage` succeeds on a payload of
fewer than 2^32 bytes, whatever the sizes the `send` calls accept, the bytes it
has written are the type byte, then eight characters that are lower-case
hexadecimal digits and whose base-16 value is the byte length of the payload,
then the payload unchanged, `9 + |p|` bytes in all; these are also the bytes
written on a connection that takes every byte offered. -/
theorem C14_wire_header_format (s s' : Socket) (t : Char) (p : Str) (hp : p.length < 2 ^ 32)
    (h : sendMessage s t p = (true, s')) :
    ∃ hex : Str, s'.outgoing = s.outgoing ++ (t :: hex ++ p) ∧ hex.length = 8 ∧
      (∀ c ∈ hex, c ∈ "0123456789abcdef".toList) ∧ hexValue hex = p.length ∧
      (t :: hex ++ p).length = 9 + p.length ∧ wire t p = t :: hex ++ p := by
  obtain ⟨plan', _, hs'⟩ := sendMessage_true s s' t p h
  refine ⟨hexWidth8 p.length, ?_, hexWidth8_length _ hp, ?_, hexValue_hexWidth8 _, ?_,
    wire_eq t p hp⟩
  · rw [hs', header_take t _ hp]
  · intro c hc
    obtain ⟨d, hd, rfl⟩ := mem_hexWidth8 _ c hc
    exact digitChar_mem_hex d hd
  · simp only [List.length_append, List.length_cons, hexWidth8_length _ hp]

theorem C14_wire_header_format_witness :
    ∃ hex : Str,
      (sendMessage (Socket.fresh [] [] [9, 3, 2]) 'C' "hello".toList).2.outgoing =
        (Socket.fresh [] [] [9, 3, 2]).outgoing ++ ('C' :: hex ++ "hello".toList) ∧
      hex.length = 8 ∧ (∀ c ∈ hex, c ∈ "0123456789abcdef".toList) ∧
      hexValue hex = "hello".toList.length ∧
      ('C' :: hex ++ "hello".toList).length = 9 + "hello".toList.length ∧
      wire 'C' "hello".toList = 'C' :: hex ++ "hello".toList :=
  C14_wire_header_format (Socket.fresh [] [] [9, 3, 2])
    (sendMessage (Socket.fresh [] [] [9, 3, 2]) 'C' "hello".toList).2 'C' "hello".toList
    (by decide) (by decide)

/-- C15 (request payload format): `serializeRequest r` is `D|S|E` with `D` the
name of the dimension of `r`, `S` the start date or `NONE` when it is absent,
and `E` the end date or `NONE` when it is absent. -/
theorem C15_request_payload_format (r : AnalysisRequest) :
    ∃ D S E : Str, serializeRequest r = D ++ "|".toList ++ S ++ "|".toList ++ E ∧
      (r.type = .USER → D = "USER".toList) ∧ (r.type = .IP → D = "IP".toList) ∧
      (r.type = .LOG_LEVEL → D = "LOG_LEVEL".toList) ∧
      (∀ d, r.startDate = some d → S = d) ∧ (r.startDate = none → S = "NONE".toList) ∧
      (∀ d, r.endDate = some d → E = d) ∧ (r.endDate = none → E = "NONE".toList) := by
  refine ⟨analysisTypeToString r.type, r.startDate.getD "NONE".toList,
    r.endDate.getD "NONE".toList, ?_, ?_, ?_, ?_, ?_, ?_, ?_, ?_⟩
  · unfold serializeRequest
    cases r.startDate <;> cases r.endDate <;> rfl
  · intro h; rw [h]; rfl
  · intro h; rw [h]; rfl
  · intro h; rw [h]; rfl
  · intro d h; rw [h]; rfl
  · intro h; rw [h]; rfl
  · intro d h; rw [h]; rfl
  · intro h; rw [h]; rfl

/-- C16 (result payload format): for a result whose map has distinct keys,
`serializeResult r` is `D|T|N` followed by one group `|key|value` per entry of
the map: `T` is `totalEntries` and `N` the number of distinct keys, every key
of the map occurs in exactly one group, with its own count as value, and the
numbers are written in decimal, a negative one with a leading minus sign. -/
theorem C16_result_payload_format (r : AnalysisResult) (hkeys : r.counts.keys.Nodup) :
    ∃ groups : List (Str × Int),
      serializeResult r =
        analysisTypeToString r.type ++ "|".toList ++ showInt r.totalEntries ++ "|".toList
          ++ showNat groups.length
          ++ (groups.map (fun g => "|".toList ++ g.1 ++ "|".toList ++ showInt g.2)).flatten ∧
      groups.length = r.counts.keys.toFinset.card ∧
      (groups.map Prod.fst).Nodup ∧ (∀ k, k ∈ groups.map Prod.fst ↔ k ∈ r.counts.keys) ∧
      (∀ g ∈ groups, r.counts.get? g.1 = some g.2) ∧
      (∀ n : Nat, decValue (showNat n) = n ∧ ∀ c ∈ showNat n, c ∈ "0123456789".toList) ∧
      (∀ i : Int, showInt i = if i < 0 then '-' :: showNat i.natAbs else showNat i.natAbs) := by
  refine ⟨r.counts, ?_, ?_, hkeys, fun k => Iff.rfl, get?_of_mem r.counts hkeys, ?_, ?_⟩
  · unfold serializeResult
    rw [List.flatMap_def]
  · rw [List.toFinset_card_of_nodup hkeys]
    simp [CountMap.keys]
  · intro n
    refine ⟨decValue_showNat n, ?_⟩
    intro c hc
    obtain ⟨d, hd, rfl⟩ := mem_showNat n c hc
    exact digitChar_mem_dec d hd
  · intro i
    rfl

theorem C16_result_payload_format_witness :
    sampleResult.counts.keys.Nodup ∧
      ∃ groups : List (Str × Int),
        serializeResult sampleResult =
          analysisTypeToString sampleResult.type ++ "|".toList
            ++ showInt sampleResult.totalEntries ++ "|".toList ++ showNat groups.length
            ++ (groups.map (fun g => "|".toList ++ g.1 ++ "|".toList ++ showInt g.2)).flatten ∧
        groups.length = 2 :=
  have h := C16_result_payload_format sampleResult (by decide)
  ⟨by decide, h.elim fun groups hg => ⟨groups, hg.1, by rw [hg.2.1]; decide⟩⟩

/-- C17 (the first message must be a Request), as the code has it. The
scratch directory is made before the first message is read, outside the `try`
block: when `create_directory` raises, the exception leaves `clientHandler`
with nothing received, sent, removed or closed. When it returned and the first
`receiveMessage` of the session does not yield a Request, the session returns,
stores no file (the files afterwards are those before, with the scratch
directory made and removed), makes no further `receiveMessage` call, and
sends no Result. When `receiveMessage` returned (false, or a message of another
type) it writes nothing at all; when `receiveMessage` raised an exception the
session sends one Error message `Server error: ...`. In both cases it then
closes the connection. -/
theorem C17_first_message_must_be_request (parse : Parser) (what : Exn → Str) (s : Socket)
    (fs : FileSystem) (n : Nat)
    (h : ∀ m, (receiveMessage s).1 ≠ .ret (some (MSG_REQUEST, m))) :
    (∀ e, fs.createDirectory (LogServer.tempDirOf n) = .threw e →
      LogServer.clientHandler parse what s fs n =
        { terminated := some e, socket := s, files := fs }) ∧
    (∀ fs0, fs.createDirectory (LogServer.tempDirOf n) = .ret fs0 →
      (LogServer.clientHandler parse what s fs n).terminated = none ∧
      (LogServer.clientHandler parse what s fs n).files =
        fs0.removeAll (LogServer.tempDirOf n) ∧
      ((∀ e, (receiveMessage s).1 ≠ .threw e) →
        (LogServer.clientHandler parse what s fs n).socket.outgoing = s.outgoing ∧
        (LogServer.clientHandler parse what s fs n).socket.log =
          s.log ++ [receiveEvent (receiveMessage s).1, .closed]) ∧
      (∀ e, (receiveMessage s).1 = .threw e →
        (LogServer.clientHandler parse what s fs n).socket.log =
          s.log ++ [.recvFailed,
            .sent MSG_ERROR ("Server error: ".toList ++ what e)
              (sendMessage (receiveMessage s).2 MSG_ERROR ("Server error: ".toList ++ what e)).1,
            .closed]) ∧
      (∀ p ok, Event.sent MSG_RESULT p ok ∉
        (LogServer.clientHandler parse what s fs n).socket.log.drop s.log.length)) := by
  refine ⟨fun e hdir => clientHandler_terminated parse what s fs n e hdir, ?_⟩
  intro fs0 hdir
  obtain ⟨t1, t2, t3⟩ := receiveMessage_trace s
  have hA : (∀ e, (receiveMessage s).1 ≠ .threw e) →
      (LogServer.clientHandler parse what s fs n).socket.outgoing = s.outgoing ∧
      (LogServer.clientHandler parse what s fs n).socket.log =
        s.log ++ [receiveEvent (receiveMessage s).1, .closed] := by
    intro hne
    rw [clientHandler_no_request parse what s fs fs0 n hdir h hne]
    simp only [Socket.record, t1, t3, List.append_assoc, List.singleton_append, and_self]
  have hB : ∀ e, (receiveMessage s).1 = .threw e →
      (LogServer.clientHandler parse what s fs n).socket.log =
        s.log ++ [.recvFailed,
          .sent MSG_ERROR ("Server error: ".toList ++ what e)
            (sendMessage (receiveMessage s).2 MSG_ERROR ("Server error: ".toList ++ what e)).1,
          .closed] := by
    intro e ho
    obtain ⟨_, _, k3⟩ :=
      sendMessage_keeps (receiveMessage s).2 MSG_ERROR ("Server error: ".toList ++ what e)
    rw [clientHandler_raised parse what s fs fs0 n e hdir ho]
    rw [ho] at t3
    simp only [Socket.record, k3, t3, receiveEvent, List.append_assoc, List.singleton_append,
      List.cons_append, List.nil_append]
  have hC : (LogServer.clientHandler parse what s fs n).terminated = none ∧
      (LogServer.clientHandler parse what s fs n).files =
        fs0.removeAll (LogServer.tempDirOf n) := by
    by_cases hex : ∃ e, (receiveMessage s).1 = .threw e
    · obtain ⟨e, ho⟩ := hex
      rw [clientHandler_raised parse what s fs fs0 n e hdir ho]
      exact ⟨rfl, rfl⟩
    · rw [clientHandler_no_request parse what s fs fs0 n hdir h (fun e he => hex ⟨e, he⟩)]
      exact ⟨rfl, rfl⟩
  refine ⟨hC.1, hC.2, hA, hB, ?_⟩
  intro p ok hmem
  by_cases hex : ∃ e, (receiveMessage s).1 = .threw e
  · obtain ⟨e, ho⟩ := hex
    rw [hB e ho] at hmem
    simp only [List.drop_left, List.mem_cons, List.mem_singleton, Event.sent.injEq,
      List.not_mem_nil, or_false] at hmem
    rcases hmem with hm | hm | hm
    · cases hm
    · exact absurd hm.1 (by decide)
    · cases hm
  · have hne : ∀ e, (receiveMessage s).1 ≠ .threw e := fun e he => hex ⟨e, he⟩
    rw [(hA hne).2] at hmem
    simp only [List.drop_left, List.mem_cons, List.mem_singleton, List.not_mem_nil,
      or_false] at hmem
    rcases hmem with hm | hm
    · exact receiveEvent_ne_sent _ _ _ _ hm.symm
    · cases hm

theorem C17_first_message_must_be_request_witness :
    (∀ m, (receiveMessage (Socket.fresh (wire MSG_FILE_START "a.txt".toList) [] [])).1 ≠
        .ret (some (MSG_REQUEST, m))) ∧
      (LogServer.clientHandler sampleParser sampleWhat
        (Socket.fresh (wire MSG_FILE_START "a.txt".toList) [] []) sessionDisk 5).terminated =
          none ∧
      (LogServer.clientHandler sampleParser sampleWhat
        (Socket.fresh (wire MSG_FILE_START "a.txt".toList) [] []) sessionDisk 5).files =
          sessionDisk.removeAll (LogServer.tempDirOf 5) ∧
      (∀ p ok, Event.sent MSG_RESULT p ok ∉
        (LogServer.clientHandler sampleParser sampleWhat
          (Socket.fresh (wire MSG_FILE_START "a.txt".toList) [] []) sessionDisk 5).socket.log.drop
            (Socket.fresh (wire MSG_FILE_START "a.txt".toList) [] []).log.length) ∧
      (LogServer.clientHandler sampleParser sampleWhat
        (Socket.fresh (wire MSG_FILE_START "a.txt".toList) [] []) blockedDisk 7).terminated =
          some .filesystemError :=
  have hfirst : ∀ m, (receiveMessage (Socket.fresh (wire MSG_FILE_START "a.txt".toList) [] [])).1 ≠
      .ret (some (MSG_REQUEST, m)) := by
    have e : (receiveMessage (Socket.fresh (wire MSG_FILE_START "a.txt".toList) [] [])).1 =
        .ret (some (MSG_FILE_START, "a.txt".toList)) := by decide
    intro m hm
    rw [e] at hm
    cases hm
  have h := (C17_first_message_must_be_request sampleParser sampleWhat
    (Socket.fresh (wire MSG_FILE_START "a.txt".toList) [] []) sessionDisk 5 hfirst).2
      sessionDisk rfl
  have hb := (C17_first_message_must_be_request sampleParser sampleWhat
    (Socket.fresh (wire MSG_FILE_START "a.txt".toList) [] []) blockedDisk 7 hfirst).1
      .filesystemError rfl
  ⟨hfirst, h.1, h.2.1, h.2.2.2.2, congrArg SessionEnd.terminated hb⟩

/-- C17 as stated fails when decoding the first message raises: on the nine
bytes `Rzzzzzzzz` the call `std::stoul` raises `invalid_argument`, and the
session answers with an Error message before it closes the connection,
whatever the adapter for the log files is. -/
theorem C17_error_reply_counterexample :
    (receiveMessage (Socket.fresh "Rzzzzzzzz".toList [] [])).1 = .threw .invalidArgument ∧
      ∀ parse : Parser,
        (LogServer.clientHandler parse sampleWhat (Socket.fresh "Rzzzzzzzz".toList [] [])
          sessionDisk 5).terminated = none ∧
        (LogServer.clientHandler parse sampleWhat (Socket.fresh "Rzzzzzzzz".toList [] [])
          sessionDisk 5).socket.outgoing = wire MSG_ERROR "Server error: stoul".toList ∧
        (LogServer.clientHandler parse sampleWhat (Socket.fresh "Rzzzzzzzz".toList [] [])
          sessionDisk 5).socket.log =
            [.recvFailed, .sent MSG_ERROR "Server error: stoul".toList true, .closed] := by
  refine ⟨by decide, ?_⟩
  intro parse
  rw [clientHandler_raised parse sampleWhat (Socket.fresh "Rzzzzzzzz".toList [] []) sessionDisk
    sessionDisk 5 .invalidArgument rfl (by decide)]
  decide

/-- C18 (client transfer), as the code has it: on a connected client whose
connection takes every byte offered and delivers one Ack per file,
`sendLogFiles` on a directory with at least one eligible file uploads each
eligible file in turn (FileStart with the base name, the content in chunks,
FileEnd), then sends one FileEnd with an empty payload, and returns true,
having read the Acks and nothing more; on a directory with no eligible file it
returns false and sends nothing. -/
theorem C18_client_transfer (c : LogClient) (fs : FileSystem) (directory : Str)
    (files acks : List Str) (rest : List Message)
    (hconn : c.connected_ = true) (hideal : c.socket_.sendPlan = [])
    (hfiles : listFilesInDirectory fs directory = .ret files)
    (hnames : ∀ f ∈ files, (pathFilename f).length < 2 ^ 32)
    (hacks : acks.length = files.length)
    (hfeeds : Feeds c.socket_ (acks.map (fun a => ((MSG_ACK, a) : Message)) ++ rest)) :
    (files = [] → c.sendLogFiles fs directory = (.ret false, c)) ∧
      (files ≠ [] → ∃ c' uploads, c.sendLogFiles fs directory = (.ret true, c') ∧
        List.Forall₂ (IsUploadOf fs) files uploads ∧
        c'.socket_.outgoing =
          c.socket_.outgoing ++ wireAll (uploads.flatten ++ [(MSG_FILE_END, [])]) ∧
        Feeds c'.socket_ rest) := by
  obtain ⟨hdir, hread⟩ := listFilesInDirectory_ret fs directory files hfiles
  have hex : fs.pathExists directory = true := by
    simp [FileSystem.pathExists, hdir]
  refine ⟨?_, ?_⟩
  · intro he
    subst he
    unfold LogClient.sendLogFiles
    simp only [hconn, hex, hdir, hfiles, Bool.not_true, Bool.or_self, Bool.false_eq_true,
      if_false, List.isEmpty_nil, if_true]
  · intro hne
    obtain ⟨c1, uploads, hrun, hconn1, hs1, hf1, hall, hout⟩ :=
      sendFiles_ideal fs files acks c rest hacks hconn hideal hread hnames hfeeds
    have hend := sendMessage_ideal c1.socket_ MSG_FILE_END [] hs1
    have hemp : files.isEmpty = false := by
      cases files with
      | nil => exact absurd rfl hne
      | cons f fs' => rfl
    refine ⟨{ c1 with socket_ :=
      { c1.socket_ with
        outgoing := c1.socket_.outgoing ++
          ((MSG_FILE_END :: hexWidth8 ([] : Str).length).take 9 ++ []),
        log := c1.socket_.log ++ [.sent MSG_FILE_END [] true] } }, uploads, ?_, hall, ?_, ?_⟩
    · unfold LogClient.sendLogFiles
      simp only [hconn, hex, hdir, hfiles, Bool.not_true, Bool.or_self, Bool.false_eq_true,
        if_false, hemp, hrun, hend]
    · simp only [hout, wireAll_append, List.append_assoc]
      congr 2
    · refine ⟨?_, ?_, hf1.2.2⟩
      · exact hf1.1
      · exact hf1.2.1

theorem C18_client_transfer_witness :
    ∃ c' uploads,
      idealClient.sendLogFiles sampleClientDisk "logs".toList = (.ret true, c') ∧
      List.Forall₂ (IsUploadOf sampleClientDisk) ["logs/a.txt".toList] uploads ∧
      c'.socket_.outgoing =
        idealClient.socket_.outgoing ++ wireAll (uploads.flatten ++ [(MSG_FILE_END, [])]) ∧
      Feeds c'.socket_ [] :=
  (C18_client_transfer idealClient sampleClientDisk "logs".toList ["logs/a.txt".toList]
    ["File received".toList] [] rfl rfl (by decide) (by decide) rfl
    ⟨by decide, by decide, by decide⟩).2 (by decide)

/-- C18 as stated fails for a directory without eligible files: `sendLogFiles`
returns false and writes nothing, no FileEnd either. -/
theorem C18_no_files_counterexample :
    listFilesInDirectory notesDisk "logs".toList = .ret [] ∧
      (idealClient.sendLogFiles notesDisk "logs".toList).1 = .ret false ∧
      (idealClient.sendLogFiles notesDisk "logs".toList).2.socket_.outgoing = [] := by
  decide

/-- C19 (uploads and the scratch directory): a file name without separator,
other than the empty name, `.` and `..`, makes `handleFileTransfer` open a
place inside the scratch directory of the session, and so does a name that
starts with a separator. A name with a `..` entry does not: on the name
`../server.conf` session 5 opens `temp_5/../server.conf`, which is the file
`server.conf` of the working directory, outside `temp_5`, and overwrites it
with the uploaded bytes. -/
theorem C19_upload_outside_workspace :
    (∀ (n : Nat) (name : Str), '/' ∉ name → name ≠ [] → name ≠ ".".toList →
        name ≠ "..".toList →
        (resolve (LogServer.tempDirOf n ++ "/".toList ++ name)).inside
          (resolve (LogServer.tempDirOf n)) = true) ∧
      (resolve (LogServer.tempDirOf 5 ++ "/".toList ++ "/etc/passwd".toList)).inside
        (resolve (LogServer.tempDirOf 5)) = true ∧
      (LogServer.handleFileTransfer (Socket.fresh (wireAll escapingUpload) [] []) sessionDisk
        (LogServer.tempDirOf 5)).1 = .ret true ∧
      sessionDisk.read "server.conf".toList = some "port=8080".toList ∧
      (LogServer.handleFileTransfer (Socket.fresh (wireAll escapingUpload) [] []) sessionDisk
        (LogServer.tempDirOf 5)).2.2.read "server.conf".toList = some "x".toList ∧
      resolve (LogServer.tempDirOf 5 ++ "/".toList ++ "../server.conf".toList) =
        resolve "server.conf".toList ∧
      (resolve "server.conf".toList).inside (resolve (LogServer.tempDirOf 5)) = false :=
  ⟨inside_upload_plain, by decide, by decide, by decide, by decide, by decide, by decide⟩

/-- C20 (sessions and their scratch directories): sessions with different
handles have different scratch directories, but the result of a session
depends on what another session uploads. Session 6 receives a Request and the
end of the transfer, no file: alone it answers `USER|0|0`; after session 5 has
uploaded one line of text under the name `../temp_6/x.txt` it answers
`USER|1|1|alice|1` to the same messages. The uploaded file has the extension
`.txt` and is read by `TxtLogParser::parse`, which finds one record in it,
whatever the parsers for the other formats do. -/
theorem C20_result_depends_on_other_session :
    (∀ a b : Nat, a ≠ b → resolve (LogServer.tempDirOf a) ≠ resolve (LogServer.tempDirOf b)) ∧
      (LogServer.handleFileTransfer (Socket.fresh (wireAll crossingUpload) [] []) sessionDisk
        (LogServer.tempDirOf 5)).1 = .ret true ∧
      (LogServer.handleFileTransfer (Socket.fresh (wireAll crossingUpload) [] []) sessionDisk
        (LogServer.tempDirOf 5)).2.2.read "temp_6/x.txt".toList =
          some "2024-01-01|alice|10.0.0.1|INFO|login".toList ∧
      TxtLogParser.parse "2024-01-01|alice|10.0.0.1|INFO|login".toList =
        [{ timestamp := "2024-01-01".toList, user := "alice".toList, ip := "10.0.0.1".toList,
           level := "INFO".toList, message := "login".toList }] ∧
      ∀ (jsonParse xmlParse : Str → Option (List LogEntry)) (what : Exn → Str),
        (LogServer.clientHandler (LogParser.parseFile jsonParse xmlParse) what
          (Socket.fresh (wireAll emptySession) [] []) sessionDisk 6).socket.outgoing =
            wire MSG_RESULT "USER|0|0".toList ∧
        (LogServer.clientHandler (LogParser.parseFile jsonParse xmlParse) what
          (Socket.fresh (wireAll emptySession) [] [])
          (LogServer.handleFileTransfer (Socket.fresh (wireAll crossingUpload) [] []) sessionDisk
            (LogServer.tempDirOf 5)).2.2 6).socket.outgoing =
              wire MSG_RESULT "USER|1|1|alice|1".toList := by
  refine ⟨?_, by decide, by decide, by decide, ?_⟩
  · intro a b hab he
    rw [resolve_tempDirOf, resolve_tempDirOf] at he
    simp only [Location.mk.injEq, List.cons.injEq, and_true, true_and] at he
    exact hab (tempDirOf_injective a b he)
  · intro jsonParse xmlParse what
    constructor
    · rw [clientHandler_answer (LogParser.parseFile jsonParse xmlParse) what
        (Socket.fresh (wireAll emptySession) [] []) sessionDisk sessionDisk 6
        "USER|NONE|NONE".toList { type := .USER, counts := [], totalEntries := 0 } rfl
        (by decide) (by decide) rfl]
      decide
    · rw [clientHandler_answer (LogParser.parseFile jsonParse xmlParse) what
        (Socket.fresh (wireAll emptySession) [] [])
        (LogServer.handleFileTransfer (Socket.fresh (wireAll crossingUpload) [] []) sessionDisk
          (LogServer.tempDirOf 5)).2.2
        (LogServer.handleFileTransfer (Socket.fresh (wireAll crossingUpload) [] []) sessionDisk
          (LogServer.tempDirOf 5)).2.2 6
        "USER|NONE|NONE".toList
        { type := .USER, counts := [("alice".toList, 1)], totalEntries := 1 } rfl
        (by decide) (by decide) rfl]
      decide

/-- C21 (the task queue drains in order): `getTask`, once it stops waiting,
returns the exit signal exactly when shutdown was requested and the queue is
empty, and on a queue that is not empty it returns the task at the front and
removes just that task, whether or not shutdown was requested; `addTask` puts
a task at the back. Hence in every run the tasks handed out so far are, in
order, the first of the tasks added so far, and whenever a worker gets the
exit signal the shutdown was requested and every task added up to then has
been handed out. -/
theorem C21_task_queue_fifo {τ : Type} (q : TaskQueue τ) (steps : List (PoolStep τ)) :
    ((∃ q', q.getTask = (.exit, q')) ↔ q.stop_ = true ∧ q.tasks_ = []) ∧
      ((∃ q', q.getTask = (.waiting, q')) ↔ q.stop_ = false ∧ q.tasks_ = []) ∧
      (∀ task rest, q.tasks_ = task :: rest →
        q.getTask = (.task task, { q with tasks_ := rest })) ∧
      (∀ task, (q.addTask task).tasks_ = q.tasks_ ++ [task] ∧
        (q.addTask task).stop_ = q.stop_) ∧
      (PoolRun.run steps).added =
        (PoolRun.run steps).handed.map Prod.snd ++ (PoolRun.run steps).queue.tasks_ ∧
      (∀ pre worker post, steps = pre ++ PoolStep.get worker :: post →
        (∃ q', (PoolRun.run pre).queue.getTask = (.exit, q')) →
        (PoolRun.run pre).queue.stop_ = true ∧
          (PoolRun.run pre).handed.map Prod.snd = (PoolRun.run pre).added ∧
          (PoolRun.run (pre ++ [PoolStep.get worker])).exited =
            (PoolRun.run pre).exited ++ [worker]) := by
  refine ⟨getTask_exit_iff q, getTask_waiting_iff q, getTask_cons q, fun task => ⟨rfl, rfl⟩,
    run_added steps, ?_⟩
  intro pre worker post _ hex
  have hinv := run_added pre
  obtain ⟨hs, ht⟩ := (getTask_exit_iff _).1 hex
  refine ⟨hs, ?_, ?_⟩
  · rw [hinv, ht, List.append_nil]
  · have hrun : PoolRun.run (pre ++ [PoolStep.get worker]) =
        (PoolRun.run pre).step (PoolStep.get worker) := by
      simp only [PoolRun.run, List.foldl_append, List.foldl_cons, List.foldl_nil]
    rw [hrun]
    simp only [PoolRun.step, getTask_nil _ ht, hs, if_true]

theorem C21_task_queue_fifo_witness :
    (PoolRun.run sampleSteps).handed = [(1, 10), (2, 20), (1, 30)] ∧
      (PoolRun.run sampleSteps).exited = [2] ∧
      (PoolRun.run sampleSteps).added =
        (PoolRun.run sampleSteps).handed.map Prod.snd ++ (PoolRun.run sampleSteps).queue.tasks_ :=
  ⟨by decide, by decide,
   (C21_task_queue_fifo { tasks_ := [], stop_ := false } sampleSteps).2.2.2.2.1⟩

/-- C22 (client result reception), as the code has it: on a connected client
about to receive the message `(t, p)`, `receiveResult` makes one call of
`receiveMessage`, which reads that message and leaves what follows. For a
Result message whose payload `deserializeResult` reads, it returns true and
the output result is that value. For a Result message on whose payload
`deserializeResult` raises, the exception escapes and the caller's result is
unchanged. For a message of type Error or of any other type it returns false
and the caller's result is unchanged. -/
theorem C22_receive_result (c : LogClient) (result : AnalysisResult) (t : Char) (p : Str)
    (rest : List Message) (hconn : c.connected_ = true)
    (hfeeds : Feeds c.socket_ ((t, p) :: rest)) :
    Feeds (c.receiveResult result).2.2.socket_ rest ∧
      (c.receiveResult result).2.2.socket_.log = c.socket_.log ++ [.received t p] ∧
      (∀ r, t = MSG_RESULT → deserializeResult p = .ret r →
        (c.receiveResult result).1 = .ret true ∧ (c.receiveResult result).2.1 = r) ∧
      (∀ e, t = MSG_RESULT → deserializeResult p = .threw e →
        (c.receiveResult result).1 = .threw e ∧ (c.receiveResult result).2.1 = result) ∧
      (t ≠ MSG_RESULT →
        (c.receiveResult result).1 = .ret false ∧ (c.receiveResult result).2.1 = result) := by
  obtain ⟨s1, hrecv, hf1, _, _, hlog⟩ := receiveMessage_feeds c.socket_ (t, p) rest hfeeds
  unfold LogClient.receiveResult
  simp only [hconn, Bool.not_true, Bool.false_eq_true, if_false, hrecv]
  by_cases ht : t = MSG_RESULT
  · simp only [ht, if_true]
    cases hd : deserializeResult p with
    | threw e =>
      refine ⟨hf1, by rw [hlog, ht], ?_, ?_, ?_⟩
      · intro r _ hr; cases hr
      · intro e' _ he
        simp only [Outcome.threw.injEq] at he
        subst he
        exact ⟨rfl, rfl⟩
      · intro hne; exact absurd rfl hne
    | ret r =>
      refine ⟨hf1, by rw [hlog, ht], ?_, ?_, ?_⟩
      · intro r' _ hr
        simp only [Outcome.ret.injEq] at hr
        subst hr
        exact ⟨rfl, rfl⟩
      · intro e _ he; cases he
      · intro hne; exact absurd rfl hne
  · simp only [ht, if_false, ite_self]
    refine ⟨hf1, hlog, ?_, ?_, ?_⟩
    · intro r h; exact h.elim
    · intro e h; exact h.elim
    · intro _; exact ⟨trivial, trivial⟩

theorem C22_receive_result_witness :
    (resultClient.receiveResult sampleResult).1 = .ret true ∧
      (resultClient.receiveResult sampleResult).2.1 =
        { type := .LOG_LEVEL, counts := scenarioCounts, totalEntries := 5 } ∧
      Feeds (resultClient.receiveResult sampleResult).2.2.socket_ [(MSG_ACK, [])] :=
  have h := C22_receive_result resultClient sampleResult MSG_RESULT
    "LOG_LEVEL|5|3|INFO|3|ERROR|1|WARN|1".toList [(MSG_ACK, [])] rfl
    ⟨rfl, by decide, by decide⟩
  have hr := h.2.2.1 { type := .LOG_LEVEL, counts := scenarioCounts, totalEntries := 5 } rfl
    (by decide)
  ⟨hr.1, hr.2, h.1⟩

/-- C22 as stated fails for a Result message whose payload is not in the
Result format: on the empty payload `std::stoi` raises `invalid_argument`
inside `deserializeResult`, and `receiveResult` does not return true. -/
theorem C22_malformed_result_counterexample :
    receiveMessage emptyResultClient.socket_ =
        (.ret (some (MSG_RESULT, [])),
         { emptyResultClient.socket_ with incoming := [], log := [.received MSG_RESULT []] }) ∧
      deserializeResult [] = .threw .invalidArgument ∧
      (emptyResultClient.receiveResult sampleResult).1 = .threw .invalidArgument ∧
      (emptyResultClient.receiveResult sampleResult).1 ≠ .ret true := by
  decide

/-- C23 (result serialization round trip): for a result whose map has
distinct keys without `|` (the empty key is allowed) and whose numbers fit
their C++ types (`int` of 32 bits, `size_t` of 64 bits),
`deserializeResult (serializeResult r)` returns `r`; and in whatever order the
entries of the map are written, what is read back has the same dimension, the
same `totalEntries` and the same count for every key. -/
theorem C23_result_round_trip (r : AnalysisResult)
    (hkeys : r.counts.keys.Nodup) (hbar : ∀ k ∈ r.counts.keys, '|' ∉ k)
    (htotal : -2 ^ 31 ≤ r.totalEntries ∧ r.totalEntries < 2 ^ 31)
    (hvals : ∀ p ∈ r.counts, -2 ^ 31 ≤ p.2 ∧ p.2 < 2 ^ 31)
    (hsize : r.counts.length < 2 ^ 64) :
    deserializeResult (serializeResult r) = .ret r ∧
      ∀ written : CountMap, written.Perm r.counts →
        ∃ d, deserializeResult (serializeResult { r with counts := written }) = .ret d ∧
          d.type = r.type ∧ d.totalEntries = r.totalEntries ∧
          ∀ k, d.counts.get? k = r.counts.get? k := by
  refine ⟨deserializeResult_serializeResult r hkeys hbar htotal.1 htotal.2 hvals hsize, ?_⟩
  intro written hperm
  have hk : (CountMap.keys written).Nodup := by
    have hp : (CountMap.keys written).Perm (CountMap.keys r.counts) := hperm.map Prod.fst
    exact hp.nodup_iff.2 hkeys
  refine ⟨{ r with counts := written }, ?_, rfl, rfl, get?_perm hperm hk⟩
  apply deserializeResult_serializeResult
  · exact hk
  · intro k hkm
    exact hbar k ((hperm.map Prod.fst).subset hkm)
  · exact htotal.1
  · exact htotal.2
  · intro p hp
    exact hvals p (hperm.subset hp)
  · show written.length < 2 ^ 64
    rw [hperm.length_eq]
    exact hsize

theorem C23_result_round_trip_witness :
    deserializeResult (serializeResult emptyKeyResult) = .ret emptyKeyResult ∧
      ∃ d, deserializeResult (serializeResult
          { emptyKeyResult with counts := [("a".toList, -2), ([], 4)] }) = .ret d ∧
        ∀ k, d.counts.get? k = emptyKeyResult.counts.get? k :=
  have h := C23_result_round_trip emptyKeyResult (by decide) (by decide) (by decide)
    (by decide) (by decide)
  ⟨h.1, (h.2 [("a".toList, -2), ([], 4)] (by decide)).elim
    fun d hd => ⟨d, hd.1, hd.2.2.2⟩⟩

/-- C24 (request serialization round trip): for a request whose present dates
hold no `|` and are not the string `NONE` (the empty string is allowed),
`deserializeRequest (serializeRequest r)` is `r`. -/
theorem C24_request_round_trip (r : AnalysisRequest)
    (hstart : ∀ d, r.startDate = some d → '|' ∉ d ∧ d ≠ "NONE".toList)
    (hend : ∀ d, r.endDate = some d → '|' ∉ d ∧ d ≠ "NONE".toList) :
    deserializeRequest (serializeRequest r) = r := by
  rw [serializeRequest_eq]
  obtain ⟨type, startDate, endDate⟩ := r
  have hD := analysisTypeToString_no_bar type
  have hnone : '|' ∉ "NONE".toList := by decide
  have hS : '|' ∉ startDate.getD "NONE".toList := by
    cases startDate with
    | none => exact hnone
    | some d => exact (hstart d rfl).1
  have hE : '|' ∉ endDate.getD "NONE".toList := by
    cases endDate with
    | none => exact hnone
    | some d => exact (hend d rfl).1
  unfold deserializeRequest
  simp only [getline_field '|' _ _ _ hD, getline_field '|' _ _ _ hS, getline_last '|' _ _ hE,
    stringToAnalysisType_toString]
  cases startDate with
  | none =>
    cases endDate with
    | none => simp
    | some d =>
      have h2 : ¬ d = ['N', 'O', 'N', 'E'] := (hend d rfl).2
      simp [h2]
  | some d =>
    have h1 : ¬ d = ['N', 'O', 'N', 'E'] := (hstart d rfl).2
    cases endDate with
    | none => simp [h1]
    | some d' =>
      have h2 : ¬ d' = ['N', 'O', 'N', 'E'] := (hend d' rfl).2
      simp [h1, h2]

theorem C24_request_round_trip_witness :
    deserializeRequest (serializeRequest
        { type := .IP, startDate := some [], endDate := some "2024-12-31".toList }) =
      { type := .IP, startDate := some [], endDate := some "2024-12-31".toList } :=
  C24_request_round_trip
    { type := .IP, startDate := some [], endDate := some "2024-12-31".toList }
    (fun d h => by
      simp only [Option.some.injEq] at h
      subst h
      decide)
    (fun d h => by
      simp only [Option.some.injEq] at h
      subst h
      decide)

/-- C25 (message boundaries): messages with payloads below 2^32 bytes that
are sent one after the other put the sequence of their frames on the stream;
and on a stream that starts with these frames, however the bytes are
fragmented, as many calls of `receiveMessage` return the same messages in the
same order, each call taking exactly `9 + |payload|` bytes, and the bytes after
the last frame are left unread. -/
theorem C25_message_boundaries (msgs : List Message) (hlen : ∀ m ∈ msgs, m.2.length < 2 ^ 32) :
    (∀ snd snd' : Socket, sendAll snd msgs = (true, snd') →
        snd'.outgoing = snd.outgoing ++ wireAll msgs) ∧
      ∀ (s : Socket) (tail : Str), s.incoming = wireAll msgs ++ tail →
        PlanPositive s.recvPlan →
        (receiveTimes msgs.length s).1 =
            msgs.map (fun m => ((.ret (some m) : Outcome (Option Message)), 9 + m.2.length)) ∧
          (receiveTimes msgs.length s).2.incoming = tail :=
  ⟨fun snd snd' h => sendAll_true msgs snd snd' hlen h,
   fun s tail hin hplan => receiveTimes_wireAll msgs s tail hlen hin hplan⟩

theorem C25_message_boundaries_witness :
    (sendAll (Socket.fresh [] [] [9, 2, 3]) sampleUpload).2.outgoing = wireAll sampleUpload ∧
      (receiveTimes sampleUpload.length
          (Socket.fresh (wireAll sampleUpload ++ "R0".toList) [1, 2, 30, 4] [])).1 =
        sampleUpload.map
          (fun m => ((.ret (some m) : Outcome (Option Message)), 9 + m.2.length)) ∧
      (receiveTimes sampleUpload.length
          (Socket.fresh (wireAll sampleUpload ++ "R0".toList) [1, 2, 30, 4] [])).2.incoming =
        "R0".toList :=
  have h := C25_message_boundaries sampleUpload (by decide)
  ⟨h.1 (Socket.fresh [] [] [9, 2, 3]) (sendAll (Socket.fresh [] [] [9, 2, 3]) sampleUpload).2
      (by decide),
   h.2 (Socket.fresh (wireAll sampleUpload ++ "R0".toList) [1, 2, 30, 4] []) "R0".toList rfl
      (by decide)⟩

/-- C26 (end-day timestamps with a time part): when the end date is a proper
beginning of the timestamp, `isDateInRange` is false whatever the start bound
is, and the counting loop of `analyzeFile` skips a record with such a
timestamp. -/
theorem C26_end_day_with_time_excluded (t e : Str) (hpre : e <+: t) (hne : t ≠ e) :
    (∀ startDate : Option Str, isDateInRange t startDate (some e) = false) ∧
      ∀ (a : LogAnalyzer) (entry : LogEntry) (acc : CountMap × Int),
        a.request_.endDate = some e → entry.timestamp = t →
        a.countEntries [entry] acc = acc := by
  obtain ⟨suffix, rfl⟩ := hpre
  cases suffix with
  | nil => simp at hne
  | cons c cs =>
    refine ⟨fun startDate => isDateInRange_beyond_end e c cs startDate, ?_⟩
    intro a entry acc ha ht
    obtain ⟨counts, n⟩ := acc
    simp only [LogAnalyzer.countEntries, ha, ht, isDateInRange_beyond_end e c cs,
      Bool.false_eq_true, if_false]

theorem C26_end_day_with_time_excluded_witness :
    isDateInRange "2024-01-31T08:15:00".toList (some "2024-01-01".toList)
        (some "2024-01-31".toList) = false ∧
      isDateInRange "2024-01-31".toList (some "2024-01-01".toList)
        (some "2024-01-31".toList) = true :=
  ⟨(C26_end_day_with_time_excluded "2024-01-31T08:15:00".toList "2024-01-31".toList
      (by decide) (by decide)).1 (some "2024-01-01".toList), by decide⟩

/-- C27 (missing date fields): `deserializeRequest` is total. On a payload
without `|` it returns the dimension read from the whole payload and both date
bounds present and empty; on a payload with one `|` the end bound is present
and empty, and the start bound is read from the second field. With an empty
end bound `isDateInRange` is false for every timestamp that is not empty. -/
theorem C27_missing_date_fields (data : Str) :
    ('|' ∉ data → deserializeRequest data =
        { type := stringToAnalysisType data, startDate := some [], endDate := some [] }) ∧
      (∀ a b : Str, data = a ++ '|' :: b → '|' ∉ a → '|' ∉ b →
        deserializeRequest data =
          { type := stringToAnalysisType a,
            startDate := if b ≠ "NONE".toList then some b else none,
            endDate := some [] }) ∧
      (∀ (t : Str) (startDate : Option Str), t ≠ [] →
        isDateInRange t startDate (some []) = false) ∧
      deserializeRequest "IP".toList = { type := .IP, startDate := some [], endDate := some [] } ∧
      deserializeRequest [] = { type := .USER, startDate := some [], endDate := some [] } := by
  refine ⟨?_, ?_, ?_, by decide, by decide⟩
  · intro h
    unfold deserializeRequest
    simp only [getline_last '|' _ _ h, getline_bad]
    simp
  · intro a b hd ha hb
    subst hd
    unfold deserializeRequest
    simp only [getline_field '|' _ _ _ ha, getline_last '|' _ _ hb, getline_bad]
    simp
  · intro t startDate ht
    cases t with
    | nil => exact absurd rfl ht
    | cons c cs => exact isDateInRange_beyond_end [] c cs startDate

end LogFileAnalyzer
